import Mathlib

/-!
# Maze generation and solving (`main.cpp`): a shallow embedding

The C++ program keeps a `rows × cols` board of cell states inside `BaseMaze`,
places two anchors, runs one of three generators (`MainRoadMaze`, `NatualMaze`,
`SimpleMaze`) and then solves the maze by a guided depth-first search
(`travelMaze`).

Conventions of the embedding.

* `int` values are unbounded integers (`Int`).  The sums and differences the
  program computes stay within two of an `int` it already holds; the one product,
  `cols * 2` in the constructor, can leave the range of a 32-bit `int` and is
  reduced to that range (`wrapInt`).
* `std::vector<std::vector<CellType>>` is a list of lists.  Reading or writing
  outside the vectors is undefined behaviour in C++; here such an access makes
  the operation fail with `Failure.OutOfRange`.
* `std::mt19937` is the stream of values its successive calls return
  (`Nat → Nat`), together with the number of values already consumed.
* Recursion and loops that the source does not bound carry a fuel argument;
  running out of fuel is the failure `Failure.OutOfFuel`.
* `cursorTo` writes to the terminal; the solver's terminal output is kept as
  the list of emitted marks, most recent first.
-/

namespace Maze

/-! ## Data model -/

/-- Cell states, `BaseMaze::CellType`. -/
inductive CellType where
  | BORDER | WALL | PASSAGE | ENTRY | EXPORT | CURRENT | VISITED
  deriving DecidableEq, Repr

/-- Directions, `BaseMaze::Direction`. -/
inductive Direction where
  | UP | DOWN | LEFT | RIGHT
  deriving DecidableEq, Repr

/-- Anchor record, `BaseMaze::Cell`. -/
structure Cell where
  row : Int
  col : Int
  type : CellType
  deriving DecidableEq, Repr

/-- Ways in which an operation can fail to produce a result: the two
`std::invalid_argument` exceptions of the constructor, an access outside the
board, exhaustion of the fuel that bounds a loop or recursion, and a modulus
whose divisor is not positive. -/
inductive Failure where
  | InvalidDimensions | DisplayTooSmall | OutOfRange | OutOfFuel | BadModulus
  deriving DecidableEq, Repr

deriving instance DecidableEq for Except

/-- The board, `std::vector<std::vector<CellType>>`. -/
abbrev Board := List (List CellType)

/-- Read `board[row][col]`; `none` outside the vectors. -/
def Board.get? (b : Board) (row col : Int) : Option CellType :=
  if 0 ≤ row ∧ 0 ≤ col then
    match b[row.toNat]? with
    | some cells => cells[col.toNat]?
    | none => none
  else none

/-- Write `board[row][col] = v`; `none` outside the vectors. -/
def Board.set? (b : Board) (row col : Int) (v : CellType) : Option Board :=
  if 0 ≤ row ∧ 0 ≤ col then
    match b[row.toNat]? with
    | some cells =>
      if col.toNat < cells.length then some (b.set row.toNat (cells.set col.toNat v)) else none
    | none => none
  else none

/-- The fields of `BaseMaze` that the algorithms use. -/
structure BaseMaze where
  rows : Int
  cols : Int
  entryCell : Cell
  exportCell : Cell
  board : Board
  deriving DecidableEq, Repr

/-- The board has `rows` lines of `cols` cells each (what `board.resize(rows)`
and `row.resize(cols)` establish). -/
def BaseMaze.WF (m : BaseMaze) : Prop :=
  (m.board.length : Int) = m.rows ∧ ∀ cells ∈ m.board, (cells.length : Int) = m.cols

instance (m : BaseMaze) : Decidable m.WF := by
  unfold BaseMaze.WF; infer_instance

/-- Unguarded write `board[row][col] = v`. -/
def BaseMaze.setCell (m : BaseMaze) (row col : Int) (v : CellType) : Except Failure BaseMaze :=
  match m.board.set? row col v with
  | some b => .ok { m with board := b }
  | none => .error .OutOfRange

/-! ## Queries (`isInMaze`, `isPassage`, `isWall`, `isExport`, `isEntry`) -/

/-- Query `isInMaze`: strictly inside the border. -/
def BaseMaze.isInMaze (m : BaseMaze) (row col : Int) : Bool :=
  decide (row > 0) && decide (row < m.rows - 1) && decide (col > 0) && decide (col < m.cols - 1)

/-- Query `isPassage`: `isInMaze(row, col) && board[row][col] == PASSAGE`; the board is
read only when the first conjunct holds. -/
def BaseMaze.isPassage (m : BaseMaze) (row col : Int) : Bool :=
  m.isInMaze row col && (m.board.get? row col == some CellType.PASSAGE)

/-- Query `isWall`: `isInMaze(row, col) && board[row][col] == WALL`. -/
def BaseMaze.isWall (m : BaseMaze) (row col : Int) : Bool :=
  m.isInMaze row col && (m.board.get? row col == some CellType.WALL)

/-- Query `isExport`: the exit anchor. -/
def BaseMaze.isExport (m : BaseMaze) (row col : Int) : Bool :=
  decide (row = m.exportCell.row) && decide (col = m.exportCell.col)

/-- Query `isEntry`: the entry anchor. -/
def BaseMaze.isEntry (m : BaseMaze) (row col : Int) : Bool :=
  decide (row = m.entryCell.row) && decide (col = m.entryCell.col)

/-- Setter `setPassage`. -/
def BaseMaze.setPassage (m : BaseMaze) (row col : Int) : Except Failure BaseMaze :=
  m.setCell row col CellType.PASSAGE

/-- Setter `setWall`. -/
def BaseMaze.setWall (m : BaseMaze) (row col : Int) : Except Failure BaseMaze :=
  m.setCell row col CellType.WALL

/-! ## Construction (`BaseMaze::BaseMaze`) -/

/-- The value that a computation with the exact result `x` leaves in a 32-bit
`int`: the representative of `x` modulo `2 ^ 32` in `[-2 ^ 31, 2 ^ 31)`. -/
def wrapInt (x : Int) : Int :=
  (x + 2147483648) % 4294967296 - 2147483648

/-- The two argument checks of the constructor, in source order: dimensions
first, then the terminal size (`screenRows`, `screenCols`).  The product
`cols * 2` is an `int`. -/
def checkArguments (rows cols screenRows screenCols : Int) : Except Failure Unit :=
  if rows < 5 ∨ cols < 5 ∨ rows.tmod 2 = 0 ∨ cols.tmod 2 = 0 then
    .error .InvalidDimensions
  else if rows > screenRows - 2 ∨ wrapInt (cols * 2) > screenCols then
    .error .DisplayTooSmall
  else .ok ()

/-- The two nested loops of the constructor: the outer ring is `BORDER`, the
rest `defaultType`. -/
def initBoard (rows cols : Int) (defaultType : CellType) : Board :=
  (List.range rows.toNat).map fun (i : Nat) =>
    (List.range cols.toNat).map fun (j : Nat) =>
      if (i : Int) = 0 ∨ (i : Int) = rows - 1 ∨ (j : Int) = 0 ∨ (j : Int) = cols - 1 then
        CellType.BORDER
      else defaultType

/-- Model of `std::uniform_int_distribution<int>(a, b)` applied to the next
generator value `x`: a value in `[a, b]`, every value of the range being
attained. -/
def uniformInt (a b : Int) (x : Nat) : Int :=
  a + (x : Int) % (b - a + 1)

/-- The lambda `upset` of `upsetEndPoint`: three draws (`directionDis`, `rowDis`,
`colDis`, taken at positions `k`, `k+1`, `k+2` of the stream) move the anchor
`cell`. -/
def upset (rows cols : Int) (mt : Nat → Nat) (k : Nat) (cell : Cell) : Cell :=
  let direction := uniformInt 1 4 (mt k)
  let rpos := (uniformInt 1 (cols - 2) (mt (k + 1))).tdiv 2 * 2 + 1
  let cpos := (uniformInt 1 (rows - 2) (mt (k + 2))).tdiv 2 * 2 + 1
  if direction = 1 then { cell with row := 1, col := rpos }
  else if direction = 2 then { cell with row := rows - 2, col := rpos }
  else if direction = 3 then { cell with row := cpos, col := 1 }
  else if direction = 4 then { cell with row := cpos, col := cols - 2 }
  else cell

/-- The `do … while` loop of `upsetEndPoint`: redraw both anchors until they
differ.  Returns the anchors and the number of stream values consumed. -/
def upsetLoop (rows cols : Int) (mt : Nat → Nat) :
    Nat → Nat → Cell → Cell → Except Failure (Cell × Cell × Nat)
  | 0, _, _, _ => .error .OutOfFuel
  | fuel + 1, k, entryCell, exportCell =>
    let entryCell := upset rows cols mt k entryCell
    let exportCell := upset rows cols mt (k + 3) exportCell
    if entryCell.row = exportCell.row ∧ entryCell.col = exportCell.col then
      upsetLoop rows cols mt fuel (k + 6) entryCell exportCell
    else .ok (entryCell, exportCell, k + 6)

/-- Function `upsetEndPoint`, started from the anchors the member initialisers set:
`entryCell(1, 1, ENTRY)` and `exportCell(rows - 2, cols - 2, EXPORT)`. -/
def upsetEndPoint (rows cols : Int) (mt : Nat → Nat) (fuel : Nat) :
    Except Failure (Cell × Cell × Nat) :=
  upsetLoop rows cols mt fuel 0 ⟨1, 1, CellType.ENTRY⟩ ⟨rows - 2, cols - 2, CellType.EXPORT⟩

/-- The lambda `update` of `updateEndPoint`: draw the marker `type` on the
border next to the anchor `(row, col)`. -/
def update (m : BaseMaze) (row col : Int) (type : CellType) : Except Failure BaseMaze :=
  if col = 1 then m.setCell row 0 type
  else if col = m.cols - 2 then m.setCell row (m.cols - 1) type
  else if row = 1 then m.setCell 0 col type
  else if row = m.rows - 2 then m.setCell (m.rows - 1) col type
  else .ok m

/-- The border cell on which `update` draws the marker of the anchor
`(row, col)`, by the same case distinction. -/
def markerCell (rows cols row col : Int) : Int × Int :=
  if col = 1 then (row, 0)
  else if col = cols - 2 then (row, cols - 1)
  else if row = 1 then (0, col)
  else (rows - 1, col)

/-- Function `updateEndPoint`. -/
def updateEndPoint (m : BaseMaze) : Except Failure BaseMaze :=
  match update m m.entryCell.row m.entryCell.col CellType.ENTRY with
  | .ok m1 => update m1 m1.exportCell.row m1.exportCell.col CellType.EXPORT
  | .error e => .error e

/-- The constructor after the argument checks and after the anchors have been
drawn: fill the board and mark the anchors on the border. -/
def newMaze (rows cols : Int) (entryCell exportCell : Cell) (defaultType : CellType) :
    Except Failure BaseMaze :=
  updateEndPoint
    { rows := rows, cols := cols, entryCell := entryCell, exportCell := exportCell,
      board := initBoard rows cols defaultType }

/-- Constructor `BaseMaze::BaseMaze(rows, cols, defaultType)` on a terminal of
`screenRows × screenCols` characters, with the stream `mt` feeding
`upsetEndPoint`. -/
def construct (rows cols : Int) (defaultType : CellType) (screenRows screenCols : Int)
    (mt : Nat → Nat) (fuel : Nat) : Except Failure BaseMaze :=
  match checkArguments rows cols screenRows screenCols with
  | .error e => .error e
  | .ok () =>
    match upsetEndPoint rows cols mt fuel with
    | .error e => .error e
    | .ok (entryCell, exportCell, _) => newMaze rows cols entryCell exportCell defaultType

/-! ## Solver (`travelMaze`) -/

/-- The four strings the solver prints with `cursorTo`: the red `o` of the cell
being entered, the yellow `*` of exploration, the purple `*` of backtracking
and the red `+` of the final path. -/
inductive Mark where
  | current | explored | backtracked | onPath
  deriving DecidableEq, Repr

/-- The solver's state: the maze and the marks printed so far, most recent
first, each with the `(row, col)` it was printed at. -/
structure Solving where
  maze : BaseMaze
  marks : List (Int × Int × Mark)
  deriving DecidableEq, Repr

/-- The lambda `updateMaze`: the cell becomes `CURRENT` and is printed as such;
unless it is the exit anchor it then becomes `VISITED` and is printed with `s`. -/
def updateMaze (st : Solving) (row col : Int) (s : Mark) : Except Failure Solving :=
  match st.maze.setCell row col CellType.CURRENT with
  | .error e => .error e
  | .ok m1 =>
    let marks1 := (row, col, Mark.current) :: st.marks
    if !m1.isExport row col then
      match m1.setCell row col CellType.VISITED with
      | .error e => .error e
      | .ok m2 => .ok ⟨m2, (row, col, s) :: marks1⟩
    else .ok ⟨m1, marks1⟩

/-- The `switch` of `nextTo`: the neighbour of `(row, col)` in a direction. -/
def neighbour (row col : Int) : Direction → Int × Int
  | .UP => (row - 1, col)
  | .DOWN => (row + 1, col)
  | .LEFT => (row, col - 1)
  | .RIGHT => (row, col + 1)

/-- The lambda `nextTo` of the search at `(row, col)`; `travel` is the
recursive search it calls on the neighbour. -/
def nextTo (travel : Solving → Int → Int → Except Failure (Bool × Solving))
    (st : Solving) (row col : Int) (direction : Direction) : Except Failure (Bool × Solving) :=
  let next := neighbour row col direction
  if st.maze.isPassage next.1 next.2 then
    match travel st next.1 next.2 with
    | .error e => .error e
    | .ok (false, st1) =>
      match updateMaze st1 next.1 next.2 Mark.backtracked with
      | .error e => .error e
      | .ok st2 => .ok (false, st2)
    | .ok (true, st1) => .ok (true, { st1 with marks := (row, col, Mark.onPath) :: st1.marks })
  else .ok (false, st)

/-- The array `directions` of the search at `(row, col)`: each direction with the
Manhattan distance from the neighbour in that direction to the exit anchor. -/
def directionDistances (m : BaseMaze) (row col : Int) : List (Direction × Int) :=
  [ (Direction.UP, |row - 1 - m.exportCell.row| + |col - m.exportCell.col|),
    (Direction.DOWN, |row + 1 - m.exportCell.row| + |col - m.exportCell.col|),
    (Direction.LEFT, |row - m.exportCell.row| + |col - 1 - m.exportCell.col|),
    (Direction.RIGHT, |row - m.exportCell.row| + |col + 1 - m.exportCell.col|) ]

/-- One insertion step of the sort: `x` goes in front of the first element whose
distance is strictly larger (the comparison `a.second < b.second`). -/
def insertByDistance (x : Direction × Int) : List (Direction × Int) → List (Direction × Int)
  | [] => [x]
  | y :: ys => if x.2 < y.2 then x :: y :: ys else y :: insertByDistance x ys

/-- Sorting by `std::sort` with `a.second < b.second`; on four elements the
library sorts by insertion, left to right. -/
def sortByDistance (l : List (Direction × Int)) : List (Direction × Int) :=
  l.foldl (fun acc x => insertByDistance x acc) []

/-- The directions in the order in which the search at `(row, col)` tries them. -/
def sortedDirections (m : BaseMaze) (row col : Int) : List Direction :=
  (sortByDistance (directionDistances m row col)).map Prod.fst

/-- The chain `if (nextTo(directions[i].first)) return true;` for `i = 0..3`,
followed by `return false`. -/
def tryDirections (next : Solving → Direction → Except Failure (Bool × Solving)) :
    List Direction → Solving → Except Failure (Bool × Solving)
  | [], st => .ok (false, st)
  | d :: ds, st =>
    match next st d with
    | .error e => .error e
    | .ok (true, st1) => .ok (true, st1)
    | .ok (false, st1) => tryDirections next ds st1

/-- The recursive lambda `travel`; `fuel` bounds the recursion depth. -/
def travel : Nat → Solving → Int → Int → Except Failure (Bool × Solving)
  | 0, _, _, _ => .error .OutOfFuel
  | fuel + 1, st, row, col =>
    match updateMaze st row col Mark.explored with
    | .error e => .error e
    | .ok st1 =>
      if st1.maze.isExport row col then .ok (true, st1)
      else
        tryDirections (fun s d => nextTo (travel fuel) s row col d)
          (sortedDirections st1.maze row col) st1

/-- The search of `travelMaze`: `travel(entryCell.row, entryCell.col)` on a
screen without marks. -/
def travelMaze (fuel : Nat) (m : BaseMaze) : Except Failure (Bool × Solving) :=
  travel fuel ⟨m, []⟩ m.entryCell.row m.entryCell.col

/-- The cells of the red `+` marks, most recent first. -/
def onPathCells (marks : List (Int × Int × Mark)) : List (Int × Int) :=
  (marks.filter fun e => e.2.2 = Mark.onPath).map fun e => (e.1, e.2.1)

/-- Two cells are 4-adjacent. -/
def Adjacent (p q : Int × Int) : Prop :=
  (p.1 = q.1 ∧ (p.2 = q.2 + 1 ∨ q.2 = p.2 + 1)) ∨ (p.2 = q.2 ∧ (p.1 = q.1 + 1 ∨ q.1 = p.1 + 1))

instance (p q : Int × Int) : Decidable (Adjacent p q) := by
  unfold Adjacent; infer_instance

/-- Reachability through 4-adjacent interior `PASSAGE` cells: `Reach m p q` when
`q` is `p`, or `q` is reached from `p` by steps each of which enters an interior
`PASSAGE` cell. -/
inductive Reach (m : BaseMaze) : Int × Int → Int × Int → Prop where
  | refl (p : Int × Int) : Reach m p p
  | step {p q r : Int × Int} : Reach m p q → Adjacent q r → m.isPassage r.1 r.2 = true →
      Reach m p r

/-- The interior `PASSAGE` cells of the board, as a finite set. -/
def passageCells (m : BaseMaze) : Finset (Int × Int) :=
  (Finset.Ioo (0 : Int) (m.rows - 1) ×ˢ Finset.Ioo (0 : Int) (m.cols - 1)).filter
    fun p => m.isPassage p.1 p.2 = true

/-- Two mazes have the same dimensions and anchors. -/
def SameFrame (m m1 : BaseMaze) : Prop :=
  m1.rows = m.rows ∧ m1.cols = m.cols ∧ m1.entryCell = m.entryCell ∧
    m1.exportCell = m.exportCell

/-- The board of `m1` comes from the board of `m` by writes of the solver: every
cell is unchanged or holds `VISITED` or `CURRENT`. -/
def Explored (m m1 : BaseMaze) : Prop :=
  SameFrame m m1 ∧
    ∀ r c, m1.board.get? r c = m.board.get? r c ∨
      m1.board.get? r c = some CellType.VISITED ∨ m1.board.get? r c = some CellType.CURRENT

/-- No neighbour of `(row, col)` is an interior `PASSAGE` cell. -/
def NoPassageNbr (m : BaseMaze) (row col : Int) : Prop :=
  ∀ d : Direction, m.isPassage (neighbour row col d).1 (neighbour row col d).2 = false

/-- A list of cells is a path to the exit anchor through cells that are interior
`PASSAGE` cells of `m`: consecutive cells are 4-adjacent, no cell repeats, the
last cell is the exit anchor. -/
def PassagePath (m : BaseMaze) (path : List (Int × Int)) : Prop :=
  path.Chain' Adjacent ∧ path.Nodup ∧ (∀ p ∈ path, m.isPassage p.1 p.2 = true) ∧
    path.getLast? = some (m.exportCell.row, m.exportCell.col)

/-- A list of cells is a route from `(row, col)`: it starts there, consecutive
cells are 4-adjacent, no cell repeats, and every cell after the first is an
interior `PASSAGE` cell of `m`. -/
def Route (m : BaseMaze) (row col : Int) (cells : List (Int × Int)) : Prop :=
  cells.head? = some (row, col) ∧ cells.Chain' Adjacent ∧ cells.Nodup ∧
    ∀ p ∈ cells.tail, m.isPassage p.1 p.2 = true

/-- What a failed part of the search leaves behind: no new `+` mark, and every
cell it took from `PASSAGE` is not the exit anchor and has no `PASSAGE` neighbour
left. -/
def FailSpec (s s1 : Solving) : Prop :=
  onPathCells s1.marks = onPathCells s.marks ∧
    ∀ r c, s.maze.isPassage r c = true → s1.maze.isPassage r c = false →
      s.maze.isExport r c = false ∧ NoPassageNbr s1.maze r c

/-- The exit anchor as a cell. -/
def exitCell (m : BaseMaze) : Int × Int := (m.exportCell.row, m.exportCell.col)

/-- The entry anchor as a cell. -/
def entryCell (m : BaseMaze) : Int × Int := (m.entryCell.row, m.entryCell.col)

/-- The postcondition of `travel fuel st row col` for the result `res` and the
final state `st1`. -/
def TravelSpec (st : Solving) (row col : Int) (res : Bool) (st1 : Solving) : Prop :=
  st1.maze.WF ∧ Explored st.maze st1.maze ∧ st1.maze.isPassage row col = false ∧
  (res = false →
    st.maze.isExport row col = false ∧ NoPassageNbr st1.maze row col ∧ FailSpec st st1) ∧
  (res = true →
    ∃ path, onPathCells st1.marks = path ++ onPathCells st.marks ∧
      Route st.maze row col (path ++ [exitCell st.maze]))

/-- The statement proved by induction on the fuel: with more fuel than `PASSAGE`
cells other than the start, `travel` returns and meets its postcondition. -/
def TravelOK (n : Nat) : Prop :=
  ∀ (st : Solving) (row col : Int), st.maze.WF →
    (0 ≤ row ∧ row < st.maze.rows ∧ 0 ≤ col ∧ col < st.maze.cols) →
    ((passageCells st.maze).erase (row, col)).card < n →
    ∃ res st1, travel n st row col = .ok (res, st1) ∧ TravelSpec st row col res st1

/-- A 5 × 5 maze whose middle row is a corridor from the entry anchor `(1, 1)`
to the exit anchor `(1, 3)`. -/
def corridorMaze : BaseMaze :=
  { rows := 5, cols := 5, entryCell := ⟨1, 1, .ENTRY⟩, exportCell := ⟨1, 3, .EXPORT⟩,
    board :=
      [ [.BORDER, .BORDER, .BORDER, .BORDER, .BORDER],
        [.ENTRY, .PASSAGE, .PASSAGE, .PASSAGE, .EXPORT],
        [.BORDER, .WALL, .WALL, .WALL, .BORDER],
        [.BORDER, .WALL, .WALL, .WALL, .BORDER],
        [.BORDER, .BORDER, .BORDER, .BORDER, .BORDER] ] }

/-- A generator's state: the maze and the number of values already taken from
the random stream. -/
structure Gen where
  maze : BaseMaze
  used : Nat
  deriving DecidableEq, Repr

/-- The anchors that `upsetEndPoint` can produce for a `rows × cols` grid: an odd
row and an odd column strictly inside the border, on one of the four inner
edges. -/
def ValidAnchor (rows cols : Int) (c : Cell) : Prop :=
  (0 < c.row ∧ c.row < rows - 1 ∧ 0 < c.col ∧ c.col < cols - 1) ∧
  (c.row = 1 ∨ c.row = rows - 2 ∨ c.col = 1 ∨ c.col = cols - 2) ∧
  c.row % 2 = 1 ∧ c.col % 2 = 1

instance (rows cols : Int) (c : Cell) : Decidable (ValidAnchor rows cols c) := by
  unfold ValidAnchor; infer_instance

/-! ### Carve-Backtrack (`MainRoadMaze::generate`) -/

/-- The vector `directions` of `getDirection`: the directions whose cell two steps
away is a wall, pushed in the order UP, DOWN, LEFT, RIGHT. -/
def wallDirections (m : BaseMaze) (row col : Int) : List Direction :=
  (if m.isWall (row - 2) col then [Direction.UP] else []) ++
  (if m.isWall (row + 2) col then [Direction.DOWN] else []) ++
  (if m.isWall row (col - 2) then [Direction.LEFT] else []) ++
  (if m.isWall row (col + 2) then [Direction.RIGHT] else [])

/-- The lambda `getDirection`: `nullopt` when `directions` is empty, without
drawing a random value; otherwise `directions[mt() % directions.size()]`. -/
def getDirection (mt : Nat → Nat) (g : Gen) (row col : Int) : Option Direction × Gen :=
  let directions := wallDirections g.maze row col
  if directions.isEmpty then (none, g)
  else (directions[mt g.used % directions.length]?, { g with used := g.used + 1 })

/-- The `switch` of `getThrougn`: carve the cell one step and the cell two steps
away in the direction, and move `(row, col)` two steps. -/
def carve (m : BaseMaze) (row col : Int) (direction : Direction) :
    Except Failure (BaseMaze × Int × Int) :=
  let mid := neighbour row col direction
  let dest := neighbour mid.1 mid.2 direction
  match m.setPassage mid.1 mid.2 with
  | .error e => .error e
  | .ok m1 =>
    match m1.setPassage dest.1 dest.2 with
    | .error e => .error e
    | .ok m2 => .ok (m2, dest.1, dest.2)

/-- The recursive lambda `getThrougn`.  Its body is the `while` loop alone, and
the loop overwrites its own `row`, `col` before the recursive call; so after the
call `getThrougn(row, col)` returns, the next iteration is the loop started
again at the same, updated `(row, col)`.  `fuel` bounds the nesting of calls and
iterations. -/
def getThrougn (mt : Nat → Nat) : Nat → Gen → Int → Int → Except Failure Gen
  | 0, _, _, _ => .error .OutOfFuel
  | fuel + 1, g, row, col =>
    match getDirection mt g row col with
    | (none, g1) => .ok g1
    | (some direction, g1) =>
      match carve g1.maze row col direction with
      | .error e => .error e
      | .ok (m2, row2, col2) =>
        match getThrougn mt fuel { g1 with maze := m2 } row2 col2 with
        | .error e => .error e
        | .ok g3 => getThrougn mt fuel g3 row2 col2

/-- Generator `MainRoadMaze::generate`. -/
def mainRoadGenerate (mt : Nat → Nat) (fuel : Nat) (m : BaseMaze) : Except Failure Gen :=
  let curRow := m.entryCell.row
  let curCol := m.entryCell.col
  match m.setPassage curRow curCol with
  | .error e => .error e
  | .ok m1 => getThrougn mt fuel ⟨m1, 0⟩ curRow curCol

/-- Constructor `MainRoadMaze(rows, cols)` once the anchors are drawn: the base
constructor with the default cell `WALL`, then `generate`. -/
def mainRoadMaze (rows cols : Int) (entryCell exportCell : Cell) (mt : Nat → Nat)
    (fuel : Nat) : Except Failure Gen :=
  match newMaze rows cols entryCell exportCell CellType.WALL with
  | .error e => .error e
  | .ok m => mainRoadGenerate mt fuel m

/-! ### Frontier-Expand (`NatualMaze::generate`) -/

/-- Frontier entry, `NatualMaze::Point`. -/
structure Point where
  row : Int
  col : Int
  direction : Direction
  deriving DecidableEq, Repr

/-- The lambda `addExps`: append the wall cells one step from `(row, col)`. -/
def addExps (m : BaseMaze) (expansions : List Point) (row col : Int) : List Point :=
  let e1 := if m.isWall (row - 1) col then expansions ++ [⟨row - 1, col, .UP⟩] else expansions
  let e2 := if m.isWall (row + 1) col then e1 ++ [⟨row + 1, col, .DOWN⟩] else e1
  let e3 := if m.isWall row (col - 1) then e2 ++ [⟨row, col - 1, .LEFT⟩] else e2
  if m.isWall row (col + 1) then e3 ++ [⟨row, col + 1, .RIGHT⟩] else e3

/-- The `while (!expansions.empty())` loop of `NatualMaze::generate`. -/
def natualLoop (mt : Nat → Nat) : Nat → Gen → List Point → Except Failure Gen
  | 0, _, _ => .error .OutOfFuel
  | fuel + 1, g, expansions =>
    if expansions.isEmpty then .ok g
    else
      let choiceExp := mt g.used % expansions.length
      match expansions[choiceExp]? with
      | none => .error .OutOfRange
      | some selectedPoint =>
        let cur := neighbour selectedPoint.row selectedPoint.col selectedPoint.direction
        let g1 : Gen := { g with used := g.used + 1 }
        if g1.maze.isWall cur.1 cur.2 then
          match g1.maze.setPassage selectedPoint.row selectedPoint.col with
          | .error e => .error e
          | .ok m1 =>
            match m1.setPassage cur.1 cur.2 with
            | .error e => .error e
            | .ok m2 =>
              natualLoop mt fuel { g1 with maze := m2 }
                ((addExps m2 expansions cur.1 cur.2).eraseIdx choiceExp)
        else natualLoop mt fuel g1 (expansions.eraseIdx choiceExp)

/-- Generator `NatualMaze::generate`.  The source initialises both `curRow` and
`curCol` from `entryCell.row`. -/
def natualGenerate (mt : Nat → Nat) (fuel : Nat) (m : BaseMaze) : Except Failure Gen :=
  let curRow := m.entryCell.row
  let curCol := m.entryCell.row
  match m.setPassage curRow curCol with
  | .error e => .error e
  | .ok m1 => natualLoop mt fuel ⟨m1, 0⟩ (addExps m1 [] curRow curCol)

/-- Constructor `NatualMaze(rows, cols)` once the anchors are drawn. -/
def natualMaze (rows cols : Int) (entryCell exportCell : Cell) (mt : Nat → Nat)
    (fuel : Nat) : Except Failure Gen :=
  match newMaze rows cols entryCell exportCell CellType.WALL with
  | .error e => .error e
  | .ok m => natualGenerate mt fuel m

/-! ### Recursive-Division (`SimpleMaze::generate`) -/

/-- The expression `mt() % d` with an `int` divisor `d`: the divisor is
converted to the unsigned type of `mt()`, so a positive `d` gives the ordinary
remainder; `d = 0` is undefined and a negative `d` depends on the width of that
type, both are reported as `Failure.BadModulus`. -/
def modulo (x : Nat) (d : Int) : Except Failure Int :=
  if 0 < d then .ok ((x : Int) % d) else .error .BadModulus

/-- The loop `for (int i = l; i <= r; ++i) board[row][i] = WALL`, as `n` writes
starting at column `l`. -/
def wallRow (m : BaseMaze) (row l : Int) : Nat → Except Failure BaseMaze
  | 0 => .ok m
  | n + 1 =>
    match m.setCell row l CellType.WALL with
    | .error e => .error e
    | .ok m1 => wallRow m1 row (l + 1) n

/-- The loop `for (int i = t; i <= b; ++i) board[i][col] = WALL`, as `n` writes
starting at row `t`. -/
def wallCol (m : BaseMaze) (t col : Int) : Nat → Except Failure BaseMaze
  | 0 => .ok m
  | n + 1 =>
    match m.setCell t col CellType.WALL with
    | .error e => .error e
    | .ok m1 => wallCol m1 (t + 1) col n

/-- The cross point of `devide`: `crossPointRow = t + mt() % ((b - t) / 2) * 2 + 1`
and `crossPointCol = l + mt() % ((r - l) / 2) * 2 + 1`, from the stream values at
positions `k` and `k + 1`. -/
def crossPoint (mt : Nat → Nat) (k : Nat) (t b l r : Int) : Except Failure (Int × Int) :=
  match modulo (mt k) ((b - t).tdiv 2) with
  | .error e => .error e
  | .ok x0 =>
    match modulo (mt (k + 1)) ((r - l).tdiv 2) with
    | .error e => .error e
    | .ok x1 => .ok (t + x0 * 2 + 1, l + x1 * 2 + 1)

/-- The two `for` loops of `devide`: a wall along `crossPointRow` across `[l, r]`
and a wall along `crossPointCol` across `[t, b]`. -/
def drawCross (m : BaseMaze) (t b l r crossPointRow crossPointCol : Int) :
    Except Failure BaseMaze :=
  match wallRow m crossPointRow l (r - l + 1).toNat with
  | .error e => .error e
  | .ok m1 => wallCol m1 t crossPointCol (b - t + 1).toNat

/-- The array `pos` of `devide`, from the stream values at positions `k + 3` to
`k + 6`: `t + mt() % (crossPointRow - t) / 2 * 2`, `b - mt() % (b - crossPointRow) / 2 * 2`,
`l + mt() % (crossPointCol - l) / 2 * 2` and `r - mt() % (r - crossPointCol) / 2 * 2`. -/
def openingPositions (mt : Nat → Nat) (k : Nat) (t b l r crossPointRow crossPointCol : Int) :
    Except Failure (Int × Int × Int × Int) :=
  match modulo (mt (k + 3)) (crossPointRow - t) with
  | .error e => .error e
  | .ok y0 =>
    match modulo (mt (k + 4)) (b - crossPointRow) with
    | .error e => .error e
    | .ok y1 =>
      match modulo (mt (k + 5)) (crossPointCol - l) with
      | .error e => .error e
      | .ok y2 =>
        match modulo (mt (k + 6)) (r - crossPointCol) with
        | .error e => .error e
        | .ok y3 => .ok (t + y0 / 2 * 2, b - y1 / 2 * 2, l + y2 / 2 * 2, r - y3 / 2 * 2)

/-- The four writes of `PASSAGE` at the openings. -/
def openFour (m : BaseMaze) (crossPointRow crossPointCol pos0 pos1 pos2 pos3 : Int) :
    Except Failure BaseMaze :=
  match m.setCell pos0 crossPointCol CellType.PASSAGE with
  | .error e => .error e
  | .ok m3 =>
    match m3.setCell pos1 crossPointCol CellType.PASSAGE with
    | .error e => .error e
    | .ok m4 =>
      match m4.setCell crossPointRow pos2 CellType.PASSAGE with
      | .error e => .error e
      | .ok m5 => m5.setCell crossPointRow pos3 CellType.PASSAGE

/-- The `switch (notThrough)` of `devide`: one opening becomes `WALL` again. -/
def closeOne (m : BaseMaze) (crossPointRow crossPointCol pos0 pos1 pos2 pos3 : Int)
    (notThrough : Nat) : Except Failure BaseMaze :=
  if notThrough = 0 then m.setCell pos0 crossPointCol CellType.WALL
  else if notThrough = 1 then m.setCell pos1 crossPointCol CellType.WALL
  else if notThrough = 2 then m.setCell crossPointRow pos2 CellType.WALL
  else if notThrough = 3 then m.setCell crossPointRow pos3 CellType.WALL
  else .ok m

/-- The body of `devide` up to the recursive calls, in source order: choose the
cross point, draw the cross, draw `notThrough = mt() % 4` (stream position
`k + 2`) and the four openings, open them and close one of them again.  Returns
the maze, with seven more stream values used, and the cross point. -/
def devideStep (mt : Nat → Nat) (g : Gen) (t b l r : Int) :
    Except Failure (Gen × Int × Int) :=
  match crossPoint mt g.used t b l r with
  | .error e => .error e
  | .ok (crossPointRow, crossPointCol) =>
    match drawCross g.maze t b l r crossPointRow crossPointCol with
    | .error e => .error e
    | .ok m2 =>
      match openingPositions mt g.used t b l r crossPointRow crossPointCol with
      | .error e => .error e
      | .ok (pos0, pos1, pos2, pos3) =>
        match openFour m2 crossPointRow crossPointCol pos0 pos1 pos2 pos3 with
        | .error e => .error e
        | .ok m6 =>
          match closeOne m6 crossPointRow crossPointCol pos0 pos1 pos2 pos3
              (mt (g.used + 2) % 4) with
          | .error e => .error e
          | .ok m7 => .ok (⟨m7, g.used + 7⟩, crossPointRow, crossPointCol)

/-- The recursive lambda `devide`; `fuel` bounds the recursion depth. -/
def devide (mt : Nat → Nat) : Nat → Gen → Int → Int → Int → Int → Except Failure Gen
  | 0, _, _, _, _, _ => .error .OutOfFuel
  | fuel + 1, g, t, b, l, r =>
    if t ≠ b ∧ l ≠ r then
      match devideStep mt g t b l r with
      | .error e => .error e
      | .ok (g1, crossPointRow, crossPointCol) =>
        match devide mt fuel g1 t (crossPointRow - 1) l (crossPointCol - 1) with
        | .error e => .error e
        | .ok g2 =>
        match devide mt fuel g2 (crossPointRow + 1) b l (crossPointCol - 1) with
        | .error e => .error e
        | .ok g3 =>
        match devide mt fuel g3 (crossPointRow + 1) b (crossPointCol + 1) r with
        | .error e => .error e
        | .ok g4 => devide mt fuel g4 t (crossPointRow - 1) (crossPointCol + 1) r
    else .ok g

/-- Generator `SimpleMaze::generate`. -/
def simpleGenerate (mt : Nat → Nat) (fuel : Nat) (m : BaseMaze) : Except Failure Gen :=
  devide mt fuel ⟨m, 0⟩ 1 (m.rows - 2) 1 (m.cols - 2)

/-- Constructor `SimpleMaze(rows, cols)` once the anchors are drawn: the base
constructor with the default cell `PASSAGE`, then `generate`. -/
def simpleMaze (rows cols : Int) (entryCell exportCell : Cell) (mt : Nat → Nat)
    (fuel : Nat) : Except Failure Gen :=
  match newMaze rows cols entryCell exportCell CellType.PASSAGE with
  | .error e => .error e
  | .ok m => simpleGenerate mt fuel m

/-! ## Vocabulary for the generators -/

/-- The cell `p` lies in the rectangle `[t, b] × [l, r]`. -/
def InRegion (t b l r : Int) (p : Int × Int) : Prop :=
  t ≤ p.1 ∧ p.1 ≤ b ∧ l ≤ p.2 ∧ p.2 ≤ r

/-- A step between two 4-adjacent interior `PASSAGE` cells of the rectangle
`[t, b] × [l, r]`. -/
def PStepIn (m : BaseMaze) (t b l r : Int) (p q : Int × Int) : Prop :=
  Adjacent p q ∧ InRegion t b l r p ∧ InRegion t b l r q ∧
    m.isPassage p.1 p.2 = true ∧ m.isPassage q.1 q.2 = true

/-- Two cells are joined by a chain of 4-adjacent interior `PASSAGE` cells that
stays in the rectangle `[t, b] × [l, r]`. -/
def ConnIn (m : BaseMaze) (t b l r : Int) : Int × Int → Int × Int → Prop :=
  Relation.ReflTransGen (PStepIn m t b l r)

/-- The postcondition of `devide` on the rectangle `[t, b] × [l, r]`: the maze
keeps its frame, nothing changes outside the rectangle, inside it every cell is
`PASSAGE` or `WALL`, every cell with odd row and odd column is `PASSAGE`, and every
`PASSAGE` cell is joined to the corner `(t, l)` inside the rectangle. -/
def DevideSpec (g g1 : Gen) (t b l r : Int) : Prop :=
  g1.maze.WF ∧ SameFrame g.maze g1.maze ∧
  (∀ p : Int × Int, ¬ InRegion t b l r p →
    g1.maze.board.get? p.1 p.2 = g.maze.board.get? p.1 p.2) ∧
  (∀ p : Int × Int, InRegion t b l r p →
    g1.maze.board.get? p.1 p.2 = some CellType.PASSAGE ∨
      g1.maze.board.get? p.1 p.2 = some CellType.WALL) ∧
  (∀ p : Int × Int, InRegion t b l r p → p.1 % 2 = 1 → p.2 % 2 = 1 →
    g1.maze.board.get? p.1 p.2 = some CellType.PASSAGE) ∧
  (∀ p : Int × Int, InRegion t b l r p → g1.maze.board.get? p.1 p.2 = some CellType.PASSAGE →
    ConnIn g1.maze t b l r (t, l) p)

/-- What `devide` has established on the quadrant `[qt, qb] × [ql, qr]` of the
rectangle `[t, b] × [l, r]`: every cell is `PASSAGE` or `WALL`, the cells with odd
row and odd column are `PASSAGE`, and every `PASSAGE` cell is joined to the corner
`(qt, ql)` inside the rectangle. -/
def QuadOK (m : BaseMaze) (t b l r qt qb ql qr : Int) : Prop :=
  (∀ p : Int × Int, InRegion qt qb ql qr p →
    m.board.get? p.1 p.2 = some CellType.PASSAGE ∨ m.board.get? p.1 p.2 = some CellType.WALL) ∧
  (∀ p : Int × Int, InRegion qt qb ql qr p → p.1 % 2 = 1 → p.2 % 2 = 1 →
    m.board.get? p.1 p.2 = some CellType.PASSAGE) ∧
  (∀ p : Int × Int, InRegion qt qb ql qr p → m.board.get? p.1 p.2 = some CellType.PASSAGE →
    ConnIn m t b l r (qt, ql) p)

/-- The statement proved by induction on the fuel: on a rectangle of `PASSAGE`
cells with odd bounds inside the border, `devide` returns and meets its
postcondition as soon as the fuel exceeds the height of the rectangle. -/
def DevideOK (mt : Nat → Nat) (n : Nat) : Prop :=
  ∀ (g : Gen) (t b l r : Int), g.maze.WF →
    (1 ≤ t ∧ t ≤ b ∧ b ≤ g.maze.rows - 2 ∧ 1 ≤ l ∧ l ≤ r ∧ r ≤ g.maze.cols - 2) →
    (t % 2 = 1 ∧ b % 2 = 1 ∧ l % 2 = 1 ∧ r % 2 = 1) →
    (∀ p : Int × Int, InRegion t b l r p →
      g.maze.board.get? p.1 p.2 = some CellType.PASSAGE) →
    (b - t).toNat < n →
    ∃ g1, devide mt n g t b l r = .ok g1 ∧ DevideSpec g g1 t b l r

/-- The cell two steps from `(row, col)` in a direction: the destination of a
carving step. -/
def nb2 (row col : Int) (d : Direction) : Int × Int :=
  neighbour (neighbour row col d).1 (neighbour row col d).2 d

/-- The lattice of a `rows × cols` grid: the interior cells with odd row and odd
column. -/
def Lattice (rows cols : Int) (q : Int × Int) : Prop :=
  0 < q.1 ∧ q.1 < rows - 1 ∧ 0 < q.2 ∧ q.2 < cols - 1 ∧ q.1 % 2 = 1 ∧ q.2 % 2 = 1

/-- The lattice cells on the four inner edges: the cells an anchor can occupy. -/
def OnRing (rows cols : Int) (q : Int × Int) : Prop :=
  Lattice rows cols q ∧ (q.1 = 1 ∨ q.1 = rows - 2 ∨ q.2 = 1 ∨ q.2 = cols - 2)

/-- The lattice cells of the four inner edges in clockwise order, starting at
`(1, 1)`: along the top edge, down the right edge, back along the bottom edge and
up the left edge; position `rows + cols - 6` is `(1, 1)` again. -/
def ringCell (rows cols : Int) (k : Int) : Int × Int :=
  if 2 * k ≤ cols - 3 then (1, 1 + 2 * k)
  else if 2 * k ≤ (cols - 3) + (rows - 3) then (1 + (2 * k - (cols - 3)), cols - 2)
  else if 2 * k ≤ 2 * (cols - 3) + (rows - 3) then
    (rows - 2, cols - 2 - (2 * k - (cols - 3) - (rows - 3)))
  else (rows - 2 - (2 * k - 2 * (cols - 3) - (rows - 3)), 1)

/-- Two laps of the ring: position `k` for `0 ≤ k < 2 * (rows + cols - 6)`. -/
def ring2 (rows cols : Int) (k : Int) : Int × Int :=
  ringCell rows cols (if k < rows + cols - 6 then k else k - (rows + cols - 6))

/-- The cell `2 * k` steps from `a` in a direction. -/
def shift (a : Int × Int) (d : Direction) (k : Int) : Int × Int :=
  match d with
  | .UP => (a.1 - 2 * k, a.2)
  | .DOWN => (a.1 + 2 * k, a.2)
  | .LEFT => (a.1, a.2 - 2 * k)
  | .RIGHT => (a.1, a.2 + 2 * k)

/-- The direction back: from the destination of a carving step, the start is two
steps away. -/
def opposite : Direction → Direction
  | .UP => .DOWN
  | .DOWN => .UP
  | .LEFT => .RIGHT
  | .RIGHT => .LEFT

/-- The board of `m1` comes from the board of `m` by carving: every cell is
unchanged or is an interior cell that now holds `PASSAGE`. -/
def Carved (m m1 : BaseMaze) : Prop :=
  SameFrame m m1 ∧
    ∀ r c, m1.board.get? r c = m.board.get? r c ∨
      (m.isInMaze r c = true ∧ m1.board.get? r c = some CellType.PASSAGE)

/-- Every interior cell holds `WALL` or `PASSAGE`. -/
def InteriorWP (m : BaseMaze) : Prop :=
  ∀ r c, m.isInMaze r c = true →
    m.board.get? r c = some CellType.WALL ∨ m.board.get? r c = some CellType.PASSAGE

/-- Every interior `PASSAGE` cell is reachable from the entry anchor. -/
def AllReach (m : BaseMaze) : Prop :=
  ∀ r c, m.isPassage r c = true → Reach m (m.entryCell.row, m.entryCell.col) (r, c)

/-- The number of directions in which the cell two steps from `(row, col)` is an
interior `PASSAGE` cell. -/
def passCount (m : BaseMaze) (row col : Int) : Nat :=
  (if m.isPassage (nb2 row col .UP).1 (nb2 row col .UP).2 then 1 else 0) +
  (if m.isPassage (nb2 row col .DOWN).1 (nb2 row col .DOWN).2 then 1 else 0) +
  (if m.isPassage (nb2 row col .LEFT).1 (nb2 row col .LEFT).2 then 1 else 0) +
  (if m.isPassage (nb2 row col .RIGHT).1 (nb2 row col .RIGHT).2 then 1 else 0)

/-- No cell two steps from `(row, col)` is an interior `WALL`: `getDirection`
finds no direction there. -/
def NoWall (m : BaseMaze) (row col : Int) : Prop :=
  ∀ d : Direction, m.isWall (nb2 row col d).1 (nb2 row col d).2 = false

/-- A carved cell that `getThrougn` has examined twice: it has no wall left two
steps away, or three of the four cells two steps away are `PASSAGE`. -/
def Good (m : BaseMaze) (row col : Int) : Prop :=
  NoWall m row col ∨ 3 ≤ passCount m row col

/-- The interior `WALL` cells of the board, as a finite set. -/
def wallCells (m : BaseMaze) : Finset (Int × Int) :=
  (Finset.Ioo (0 : Int) (m.rows - 1) ×ˢ Finset.Ioo (0 : Int) (m.cols - 1)).filter
    fun p => m.isWall p.1 p.2 = true

/-- The postcondition of `getThrougn` started at `(row, col)`: the board is
carved, every `PASSAGE` cell stays reachable from the entry anchor, the start has
no wall two steps away or has gained a `PASSAGE` cell two steps away, and every
cell with odd row and odd column that was carved has been examined twice. -/
def GetThrougnSpec (g g1 : Gen) (row col : Int) : Prop :=
  g1.maze.WF ∧ Carved g.maze g1.maze ∧ AllReach g1.maze ∧
  (NoWall g1.maze row col ∨ passCount g.maze row col + 1 ≤ passCount g1.maze row col) ∧
  ∀ r c, r % 2 = 1 → c % 2 = 1 → g.maze.isWall r c = true → g1.maze.isWall r c = false →
    Good g1.maze r c

/-- The statement proved by induction on the fuel: started at an interior
`PASSAGE` cell with odd row and odd column, `getThrougn` returns and meets its
postcondition as soon as the fuel exceeds the number of interior `WALL` cells. -/
def GetThrougnOK (mt : Nat → Nat) (n : Nat) : Prop :=
  ∀ (g : Gen) (row col : Int), g.maze.WF → AllReach g.maze →
    g.maze.isPassage row col = true → row % 2 = 1 → col % 2 = 1 →
    (wallCells g.maze).card < n →
    ∃ g1, getThrougn mt n g row col = .ok g1 ∧ GetThrougnSpec g g1 row col

/-- The interior `WALL` cells with odd row and odd column: the lattice cells that
are not carved yet. -/
def latticeWalls (m : BaseMaze) : Finset (Int × Int) :=
  (wallCells m).filter fun p => p.1 % 2 = 1 ∧ p.2 % 2 = 1

/-- The number of lattice cells of a `rows × cols` grid. -/
def latticeSize (rows cols : Int) : Nat :=
  ((rows - 1) / 2).toNat * ((cols - 1) / 2).toNat

/-- The cell `p` is on the outer ring of the board. -/
def OnBorder (m : BaseMaze) (p : Int × Int) : Prop :=
  (0 ≤ p.1 ∧ p.1 < m.rows ∧ 0 ≤ p.2 ∧ p.2 < m.cols) ∧
    (p.1 = 0 ∨ p.1 = m.rows - 1 ∨ p.2 = 0 ∨ p.2 = m.cols - 1)

/-- The border invariant: the outer ring holds `BORDER` except for exactly two
cells, an `ENTRY` cell next to the entry anchor and an `EXPORT` cell next to the
exit anchor. -/
def BorderInvariant (m : BaseMaze) : Prop :=
  ∃ pe px : Int × Int, pe ≠ px ∧ OnBorder m pe ∧ OnBorder m px ∧
    Adjacent pe (m.entryCell.row, m.entryCell.col) ∧
    Adjacent px (m.exportCell.row, m.exportCell.col) ∧
    m.board.get? pe.1 pe.2 = some CellType.ENTRY ∧
    m.board.get? px.1 px.2 = some CellType.EXPORT ∧
    ∀ p, OnBorder m p → p ≠ pe → p ≠ px → m.board.get? p.1 p.2 = some CellType.BORDER

/-- The writes of a search started at `start`, seen from outside: a cell of the
final board is unchanged, or it can be reached from `start` through interior
`PASSAGE` cells of the initial board and now holds `VISITED`, or `CURRENT` if it is
the exit anchor. -/
def Track (s : Solving) (start : Int × Int) (s1 : Solving) : Prop :=
  ∀ r c, s1.maze.board.get? r c = s.maze.board.get? r c ∨
    (Reach s.maze start (r, c) ∧
      (s1.maze.board.get? r c = some CellType.VISITED ∨
        (s1.maze.board.get? r c = some CellType.CURRENT ∧ s.maze.isExport r c = true)))

/-- The statement proved by induction on the fuel: whenever `travel` returns, its
writes are those of `Track`, and a start cell that is not the exit anchor is left
`VISITED`. -/
def TrackOK (n : Nat) : Prop :=
  ∀ (st : Solving) (row col : Int) (res : Bool) (st1 : Solving), st.maze.WF →
    (0 ≤ row ∧ row < st.maze.rows ∧ 0 ≤ col ∧ col < st.maze.cols) →
    travel n st row col = .ok (res, st1) →
    Track st (row, col) st1 ∧
      (st.maze.isExport row col = false →
        st1.maze.board.get? row col = some CellType.VISITED)

/-- A 5 × 5 maze whose corridor from the entry anchor `(1, 1)` to the exit anchor
`(1, 3)` is blocked by a `WALL` at `(1, 2)`. -/
def blockedMaze : BaseMaze :=
  { rows := 5, cols := 5, entryCell := ⟨1, 1, .ENTRY⟩, exportCell := ⟨1, 3, .EXPORT⟩,
    board :=
      [ [.BORDER, .BORDER, .BORDER, .BORDER, .BORDER],
        [.ENTRY, .PASSAGE, .WALL, .PASSAGE, .EXPORT],
        [.BORDER, .WALL, .WALL, .WALL, .BORDER],
        [.BORDER, .WALL, .WALL, .WALL, .BORDER],
        [.BORDER, .BORDER, .BORDER, .BORDER, .BORDER] ] }

/-- The generator values `v < cols - 2` (one for each draw `1 + v` of `rowDis`)
for which `upset`, on the first side, puts the anchor at position `p` along the
edge. -/
def positionDraws (rows cols : Int) (p : Int) : Finset Nat :=
  (Finset.range (cols - 2).toNat).filter fun v =>
    (upset rows cols (fun i => if i = 1 then v else 0) 0 ⟨1, 1, CellType.ENTRY⟩).col = p

/-- The cells of a set that hold `PASSAGE`. -/
def openingsIn (m : BaseMaze) (cells : Finset (Int × Int)) : Finset (Int × Int) :=
  cells.filter fun p => m.board.get? p.1 p.2 = some CellType.PASSAGE

/-- A 5 × 5 board as the constructor of `SimpleMaze` leaves it: every interior
cell is `PASSAGE`; the anchors are `(1, 1)` and `(3, 3)`. -/
def openMaze : BaseMaze :=
  { rows := 5, cols := 5, entryCell := ⟨1, 1, .ENTRY⟩, exportCell := ⟨3, 3, .EXPORT⟩,
    board :=
      [ [.BORDER, .BORDER, .BORDER, .BORDER, .BORDER],
        [.ENTRY, .PASSAGE, .PASSAGE, .PASSAGE, .BORDER],
        [.BORDER, .PASSAGE, .PASSAGE, .PASSAGE, .BORDER],
        [.BORDER, .PASSAGE, .PASSAGE, .PASSAGE, .EXPORT],
        [.BORDER, .BORDER, .BORDER, .BORDER, .BORDER] ] }

/-- The calls of `devide` made, directly or through other calls, by the call
`devide(t0, b0, l0, r0)` in the state `g0`: `DevideCall mt g0 t0 b0 l0 r0 g t b l r`
when `devide(t, b, l, r)` is called in the state `g`.  A call whose rectangle has
`t ≠ b` and `l ≠ r` first runs the step and then calls the four quadrants in
source order, each in the state the previous call returned. -/
inductive DevideCall (mt : Nat → Nat) (g0 : Gen) (t0 b0 l0 r0 : Int) :
    Gen → Int → Int → Int → Int → Prop where
  | root : DevideCall mt g0 t0 b0 l0 r0 g0 t0 b0 l0 r0
  | first {g g1 : Gen} {t b l r crossPointRow crossPointCol : Int} :
      DevideCall mt g0 t0 b0 l0 r0 g t b l r → (t ≠ b ∧ l ≠ r) →
      devideStep mt g t b l r = .ok (g1, crossPointRow, crossPointCol) →
      DevideCall mt g0 t0 b0 l0 r0 g1 t (crossPointRow - 1) l (crossPointCol - 1)
  | second {g g1 g2 : Gen} {t b l r crossPointRow crossPointCol : Int} {n : Nat} :
      DevideCall mt g0 t0 b0 l0 r0 g t b l r → (t ≠ b ∧ l ≠ r) →
      devideStep mt g t b l r = .ok (g1, crossPointRow, crossPointCol) →
      devide mt n g1 t (crossPointRow - 1) l (crossPointCol - 1) = .ok g2 →
      DevideCall mt g0 t0 b0 l0 r0 g2 (crossPointRow + 1) b l (crossPointCol - 1)
  | third {g g1 g2 g3 : Gen} {t b l r crossPointRow crossPointCol : Int} {n : Nat} :
      DevideCall mt g0 t0 b0 l0 r0 g t b l r → (t ≠ b ∧ l ≠ r) →
      devideStep mt g t b l r = .ok (g1, crossPointRow, crossPointCol) →
      devide mt n g1 t (crossPointRow - 1) l (crossPointCol - 1) = .ok g2 →
      devide mt n g2 (crossPointRow + 1) b l (crossPointCol - 1) = .ok g3 →
      DevideCall mt g0 t0 b0 l0 r0 g3 (crossPointRow + 1) b (crossPointCol + 1) r
  | fourth {g g1 g2 g3 g4 : Gen} {t b l r crossPointRow crossPointCol : Int} {n : Nat} :
      DevideCall mt g0 t0 b0 l0 r0 g t b l r → (t ≠ b ∧ l ≠ r) →
      devideStep mt g t b l r = .ok (g1, crossPointRow, crossPointCol) →
      devide mt n g1 t (crossPointRow - 1) l (crossPointCol - 1) = .ok g2 →
      devide mt n g2 (crossPointRow + 1) b l (crossPointCol - 1) = .ok g3 →
      devide mt n g3 (crossPointRow + 1) b (crossPointCol + 1) r = .ok g4 →
      DevideCall mt g0 t0 b0 l0 r0 g4 t (crossPointRow - 1) (crossPointCol + 1) r

/-- What holds at every call of `devide`: the board is well formed, the rectangle
has odd bounds inside the border, and all its cells are still `PASSAGE`. -/
def DevideInv (rows cols : Int) (g : Gen) (t b l r : Int) : Prop :=
  g.maze.WF ∧ g.maze.rows = rows ∧ g.maze.cols = cols ∧
  (1 ≤ t ∧ t ≤ b ∧ b ≤ rows - 2 ∧ 1 ≤ l ∧ l ≤ r ∧ r ≤ cols - 2) ∧
  (t % 2 = 1 ∧ b % 2 = 1 ∧ l % 2 = 1 ∧ r % 2 = 1) ∧
  ∀ p : Int × Int, InRegion t b l r p → g.maze.board.get? p.1 p.2 = some CellType.PASSAGE

/-- The Manhattan distance from the neighbour of `(row, col)` in a direction to
the exit anchor. -/
def distanceToExit (m : BaseMaze) (row col : Int) (d : Direction) : Int :=
  |(neighbour row col d).1 - m.exportCell.row| + |(neighbour row col d).2 - m.exportCell.col|

/-- The position of a direction in the enumeration `UP, DOWN, LEFT, RIGHT`. -/
def Direction.rank : Direction → Nat
  | .UP => 0
  | .DOWN => 1
  | .LEFT => 2
  | .RIGHT => 3

/-- The order in which the claim says the search at `(row, col)` tries two
directions: the one whose neighbour is nearer to the exit anchor first, and on
equal distances the one that comes first in `UP, DOWN, LEFT, RIGHT`. -/
def TriedBefore (m : BaseMaze) (row col : Int) (a b : Direction) : Prop :=
  distanceToExit m row col a < distanceToExit m row col b ∨
    (distanceToExit m row col a = distanceToExit m row col b ∧ a.rank < b.rank)

/-- The reference recursion of the specification for `getThrougn`: while some
direction from `(row, col)` has a wall two steps away, pick one of them with the
next random value, carve the intermediate and the destination cell, recurse from
the destination, and examine the same cell `(row, col)` again.  It differs from
`getThrougn` in the last call only, which stays at `(row, col)`. -/
def getThrougnRef (mt : Nat → Nat) : Nat → Gen → Int → Int → Except Failure Gen
  | 0, _, _, _ => .error .OutOfFuel
  | fuel + 1, g, row, col =>
    match getDirection mt g row col with
    | (none, g1) => .ok g1
    | (some direction, g1) =>
      match carve g1.maze row col direction with
      | .error e => .error e
      | .ok (m2, row2, col2) =>
        match getThrougnRef mt fuel { g1 with maze := m2 } row2 col2 with
        | .error e => .error e
        | .ok g3 => getThrougnRef mt fuel g3 row col

/-- A random stream that starts with the values `3, 1, 3, 0, 2, 1, 0, 0, 1, 2, 1, 2,
2, 0, 1` and continues with zeros. -/
def divergingStream (i : Nat) : Nat :=
  [3, 1, 3, 0, 2, 1, 0, 0, 1, 2, 1, 2, 2, 0, 1].getD i 0

/-- The statement proved by induction on the fuel: started with a frontier of
interior cells, the loop of `NatualMaze::generate` returns as soon as the fuel
exceeds four times the number of interior `WALL` cells plus the length of the
frontier, and it only carves interior cells. -/
def NatualOK (mt : Nat → Nat) (n : Nat) : Prop :=
  ∀ (g : Gen) (expansions : List Point), g.maze.WF →
    (∀ p ∈ expansions, g.maze.isInMaze p.row p.col = true) →
    4 * (wallCells g.maze).card + expansions.length < n →
    ∃ g1, natualLoop mt n g expansions = .ok g1 ∧ g1.maze.WF ∧ Carved g.maze g1.maze

/-! # Lemmas and theorems -/

/-! ## Argument checks -/

theorem setCell_error (m : BaseMaze) (row col : Int) (v : CellType) (e : Failure)
    (h : m.setCell row col v = .error e) : e = Failure.OutOfRange := by
  unfold BaseMaze.setCell at h
  split at h
  · cases h
  · cases h; rfl

theorem setCell_ok (m m1 : BaseMaze) (row col : Int) (v : CellType)
    (h : m.setCell row col v = .ok m1) :
    ∃ b, m.board.set? row col v = some b ∧ m1 = { m with board := b } := by
  unfold BaseMaze.setCell at h
  split at h
  · rename_i b hb
    exact ⟨b, hb, by cases h; rfl⟩
  · cases h

theorem update_error (m : BaseMaze) (row col : Int) (v : CellType) (e : Failure)
    (h : update m row col v = .error e) : e = Failure.OutOfRange := by
  unfold update at h
  split_ifs at h
  · exact setCell_error _ _ _ _ _ h
  · exact setCell_error _ _ _ _ _ h
  · exact setCell_error _ _ _ _ _ h
  · exact setCell_error _ _ _ _ _ h

theorem update_ok_dims (m m1 : BaseMaze) (row col : Int) (v : CellType)
    (h : update m row col v = .ok m1) :
    m1.rows = m.rows ∧ m1.cols = m.cols ∧ m1.entryCell = m.entryCell ∧
      m1.exportCell = m.exportCell := by
  unfold update at h
  split_ifs at h
  · obtain ⟨b, -, rfl⟩ := setCell_ok _ _ _ _ _ h; simp
  · obtain ⟨b, -, rfl⟩ := setCell_ok _ _ _ _ _ h; simp
  · obtain ⟨b, -, rfl⟩ := setCell_ok _ _ _ _ _ h; simp
  · obtain ⟨b, -, rfl⟩ := setCell_ok _ _ _ _ _ h; simp
  · cases h; simp

theorem updateEndPoint_error (m : BaseMaze) (e : Failure)
    (h : updateEndPoint m = .error e) : e = Failure.OutOfRange := by
  unfold updateEndPoint at h
  split at h
  · exact update_error _ _ _ _ _ h
  · rename_i e1 he
    cases h
    exact update_error _ _ _ _ _ he

theorem updateEndPoint_ok_dims (m m2 : BaseMaze) (h : updateEndPoint m = .ok m2) :
    m2.rows = m.rows ∧ m2.cols = m.cols ∧ m2.entryCell = m.entryCell ∧
      m2.exportCell = m.exportCell := by
  unfold updateEndPoint at h
  split at h
  · rename_i m1 h1
    obtain ⟨a1, a2, a3, a4⟩ := update_ok_dims _ _ _ _ _ h1
    obtain ⟨b1, b2, b3, b4⟩ := update_ok_dims _ _ _ _ _ h
    exact ⟨b1.trans a1, b2.trans a2, b3.trans a3, b4.trans a4⟩
  · cases h

theorem upsetLoop_error (rows cols : Int) (mt : Nat → Nat) (fuel k : Nat) (c1 c2 : Cell)
    (e : Failure) (h : upsetLoop rows cols mt fuel k c1 c2 = .error e) :
    e = Failure.OutOfFuel := by
  induction fuel generalizing k c1 c2 with
  | zero => unfold upsetLoop at h; cases h; rfl
  | succ n ih =>
    unfold upsetLoop at h
    simp only at h
    split_ifs at h
    exact ih _ _ _ h

theorem tmod_two_eq_zero_iff (a : Int) : a.tmod 2 = 0 ↔ Even a := by
  rw [even_iff_two_dvd]
  exact ⟨fun h => Int.dvd_of_tmod_eq_zero h, fun h => Int.tmod_eq_zero_of_dvd h⟩

theorem checkArguments_invalid_iff (rows cols sr sc : Int) :
    checkArguments rows cols sr sc = .error .InvalidDimensions ↔
      (rows < 5 ∨ cols < 5 ∨ Even rows ∨ Even cols) := by
  unfold checkArguments
  simp only [tmod_two_eq_zero_iff]
  split_ifs with h1 h2
  · simp [h1]
  · simp [h1]
  · simp [h1]

theorem checkArguments_ok (rows cols sr sc : Int) (h : checkArguments rows cols sr sc = .ok ()) :
    5 ≤ rows ∧ 5 ≤ cols ∧ Odd rows ∧ Odd cols ∧ rows ≤ sr - 2 ∧ wrapInt (cols * 2) ≤ sc := by
  unfold checkArguments at h
  simp only [tmod_two_eq_zero_iff] at h
  split_ifs at h with h1 h2
  simp only [not_or, not_lt, Int.not_even_iff_odd, gt_iff_lt] at h1 h2
  exact ⟨h1.1, h1.2.1, h1.2.2.1, h1.2.2.2, h2.1, h2.2⟩

/-! ## Reading and writing the board -/

theorem Board.get?_set? (b b1 : Board) (r c r' c' : Int) (v : CellType)
    (h : b.set? r c v = some b1) :
    b1.get? r' c' = if r' = r ∧ c' = c then some v else b.get? r' c' := by
  unfold Board.set? at h
  split_ifs at h with h0
  split at h
  · rename_i cells hcells
    split_ifs at h with hlen
    cases h
    have hr : r.toNat < b.length := (List.getElem?_eq_some.mp hcells).1
    unfold Board.get?
    by_cases hpos : 0 ≤ r' ∧ 0 ≤ c'
    · rw [if_pos hpos, if_pos hpos, List.getElem?_set]
      by_cases hrr : r.toNat = r'.toNat
      · have hreq : r' = r := by omega
        subst hreq
        simp only [if_true, hr, true_and]
        rw [hcells]
        simp only [List.getElem?_set]
        by_cases hcc : c.toNat = c'.toNat
        · have : c' = c := by omega
          subst this
          simp [hlen]
        · have : ¬ c' = c := by omega
          simp [hcc, this]
      · have : ¬ r' = r := by omega
        simp [hrr, this]
    · rw [if_neg hpos, if_neg hpos]
      have : ¬ (r' = r ∧ c' = c) := by
        rintro ⟨rfl, rfl⟩; exact hpos h0
      simp [this]
  · cases h

theorem Board.set?_isSome_iff (b : Board) (r c : Int) (v : CellType) :
    (b.set? r c v).isSome ↔ (b.get? r c).isSome := by
  unfold Board.set? Board.get?
  split_ifs with h0
  · cases hb : b[r.toNat]? with
    | none => simp
    | some cells =>
      simp only
      by_cases hlen : c.toNat < cells.length
      · simp [hlen]
      · simp [hlen]; omega
  · simp

theorem Board.set?_dims (b b1 : Board) (r c : Int) (v : CellType)
    (h : b.set? r c v = some b1) :
    b1.length = b.length ∧ ∀ i : Nat, (b1[i]?).map List.length = (b[i]?).map List.length := by
  unfold Board.set? at h
  split_ifs at h with h0
  split at h
  · rename_i cells hcells
    split_ifs at h with hlen
    cases h
    refine ⟨by simp, fun i => ?_⟩
    rw [List.getElem?_set]
    by_cases hi : r.toNat = i
    · subst hi
      have hr : r.toNat < b.length := (List.getElem?_eq_some.mp hcells).1
      simp [hr, hcells]
    · simp [hi]
  · cases h

theorem WF_of_dims (m : BaseMaze) (b1 : Board) (hm : m.WF) (hl : b1.length = m.board.length)
    (hc : ∀ i : Nat, (b1[i]?).map List.length = (m.board[i]?).map List.length) :
    BaseMaze.WF { m with board := b1 } := by
  refine ⟨by simpa [hl] using hm.1, ?_⟩
  intro cells hcells
  obtain ⟨i, hi, rfl⟩ := List.getElem_of_mem hcells
  have h1 := hc i
  have hi' : i < m.board.length := by simpa [hl] using hi
  rw [List.getElem?_eq_getElem hi, List.getElem?_eq_getElem hi'] at h1
  simp only [Option.map_some', Option.some.injEq] at h1
  simp only at hi ⊢
  rw [h1]
  exact hm.2 _ (List.getElem_mem _)

theorem WF_get?_isSome_iff (m : BaseMaze) (hm : m.WF) (r c : Int) :
    (m.board.get? r c).isSome ↔ (0 ≤ r ∧ r < m.rows ∧ 0 ≤ c ∧ c < m.cols) := by
  unfold Board.get?
  by_cases h0 : 0 ≤ r ∧ 0 ≤ c
  · rw [if_pos h0]
    by_cases hr : r.toNat < m.board.length
    · rw [List.getElem?_eq_getElem hr]
      have hlen := hm.2 _ (List.getElem_mem hr)
      have h1 := hm.1
      simp only
      by_cases hc : c.toNat < (m.board[r.toNat]).length
      · rw [List.getElem?_eq_getElem hc]
        simp only [Option.isSome_some, true_iff]
        omega
      · rw [List.getElem?_eq_none (by omega)]
        simp only [Option.isSome_none, Bool.false_eq_true, false_iff]
        omega
    · rw [List.getElem?_eq_none (by omega)]
      have h1 := hm.1
      simp only [Option.isSome_none, Bool.false_eq_true, false_iff]
      omega
  · rw [if_neg h0]
    simp only [Option.isSome_none, Bool.false_eq_true, false_iff]
    omega

theorem setCell_WF (m m1 : BaseMaze) (r c : Int) (v : CellType) (hm : m.WF)
    (h : m.setCell r c v = .ok m1) : m1.WF := by
  obtain ⟨b, hb, rfl⟩ := setCell_ok _ _ _ _ _ h
  obtain ⟨hl, hc⟩ := Board.set?_dims _ _ _ _ _ hb
  exact WF_of_dims m b hm hl hc

theorem setCell_get? (m m1 : BaseMaze) (r c r' c' : Int) (v : CellType)
    (h : m.setCell r c v = .ok m1) :
    m1.board.get? r' c' = if r' = r ∧ c' = c then some v else m.board.get? r' c' := by
  obtain ⟨b, hb, rfl⟩ := setCell_ok _ _ _ _ _ h
  exact Board.get?_set? _ _ _ _ _ _ _ hb

theorem setCell_fields (m m1 : BaseMaze) (r c : Int) (v : CellType)
    (h : m.setCell r c v = .ok m1) :
    m1.rows = m.rows ∧ m1.cols = m.cols ∧ m1.entryCell = m.entryCell ∧
      m1.exportCell = m.exportCell := by
  obtain ⟨b, -, rfl⟩ := setCell_ok _ _ _ _ _ h
  simp

theorem setCell_of_inRange (m : BaseMaze) (hm : m.WF) (r c : Int) (v : CellType)
    (hr : 0 ≤ r ∧ r < m.rows ∧ 0 ≤ c ∧ c < m.cols) : ∃ m1, m.setCell r c v = .ok m1 := by
  have h1 := (WF_get?_isSome_iff m hm r c).mpr hr
  have h2 := (Board.set?_isSome_iff m.board r c v).mpr h1
  obtain ⟨b, hb⟩ := Option.isSome_iff_exists.mp h2
  exact ⟨{ m with board := b }, by unfold BaseMaze.setCell; rw [hb]⟩

theorem setCell_inRange (m m1 : BaseMaze) (hm : m.WF) (r c : Int) (v : CellType)
    (h : m.setCell r c v = .ok m1) : 0 ≤ r ∧ r < m.rows ∧ 0 ≤ c ∧ c < m.cols := by
  obtain ⟨b, hb, -⟩ := setCell_ok _ _ _ _ _ h
  have h2 : (m.board.set? r c v).isSome := by rw [hb]; rfl
  exact (WF_get?_isSome_iff m hm r c).mp ((Board.set?_isSome_iff m.board r c v).mp h2)

theorem isInMaze_iff (m : BaseMaze) (r c : Int) :
    m.isInMaze r c = true ↔ (0 < r ∧ r < m.rows - 1 ∧ 0 < c ∧ c < m.cols - 1) := by
  unfold BaseMaze.isInMaze
  simp only [Bool.and_eq_true, decide_eq_true_eq, gt_iff_lt]
  tauto

theorem isPassage_iff (m : BaseMaze) (r c : Int) :
    m.isPassage r c = true ↔
      (m.isInMaze r c = true ∧ m.board.get? r c = some CellType.PASSAGE) := by
  unfold BaseMaze.isPassage
  simp

theorem isWall_iff (m : BaseMaze) (r c : Int) :
    m.isWall r c = true ↔ (m.isInMaze r c = true ∧ m.board.get? r c = some CellType.WALL) := by
  unfold BaseMaze.isWall
  simp

/-! ## Anchor placement (`upsetEndPoint`) -/

theorem uniformInt_range (a b : Int) (x : Nat) (h : a ≤ b) :
    a ≤ uniformInt a b x ∧ uniformInt a b x ≤ b := by
  unfold uniformInt
  have h1 : 0 ≤ (x : Int) % (b - a + 1) := Int.emod_nonneg _ (by omega)
  have h2 : (x : Int) % (b - a + 1) < b - a + 1 := Int.emod_lt_of_pos _ (by omega)
  omega

theorem oddPosition (n v : Int) (hodd : n % 2 = 1) (h1 : 1 ≤ v) (h2 : v ≤ n - 2) :
    0 < v.tdiv 2 * 2 + 1 ∧ v.tdiv 2 * 2 + 1 < n - 1 ∧ (v.tdiv 2 * 2 + 1) % 2 = 1 := by
  rw [Int.tdiv_eq_ediv (by omega) (by norm_num)]
  omega

theorem validAnchor_mk (rows cols r c : Int) (ty : CellType)
    (h : (0 < r ∧ r < rows - 1 ∧ 0 < c ∧ c < cols - 1) ∧
      (r = 1 ∨ r = rows - 2 ∨ c = 1 ∨ c = cols - 2) ∧ r % 2 = 1 ∧ c % 2 = 1) :
    ValidAnchor rows cols ⟨r, c, ty⟩ := h

theorem upset_valid (rows cols : Int) (mt : Nat → Nat) (k : Nat) (cell : Cell)
    (hr : 5 ≤ rows) (hc : 5 ≤ cols) (hro : rows % 2 = 1) (hco : cols % 2 = 1) :
    ValidAnchor rows cols (upset rows cols mt k cell) ∧
      (upset rows cols mt k cell).type = cell.type := by
  have hd := uniformInt_range 1 4 (mt k) (by norm_num)
  have hrp := uniformInt_range 1 (cols - 2) (mt (k + 1)) (by omega)
  have hcp := uniformInt_range 1 (rows - 2) (mt (k + 2)) (by omega)
  have h1 := oddPosition cols _ hco hrp.1 hrp.2
  have h2 := oddPosition rows _ hro hcp.1 hcp.2
  unfold upset ValidAnchor
  simp only
  split_ifs with d1 d2 d3 d4
  · exact ⟨validAnchor_mk _ _ _ _ _ (by omega), rfl⟩
  · exact ⟨validAnchor_mk _ _ _ _ _ (by omega), rfl⟩
  · exact ⟨validAnchor_mk _ _ _ _ _ (by omega), rfl⟩
  · exact ⟨validAnchor_mk _ _ _ _ _ (by omega), rfl⟩
  · omega

theorem upsetLoop_ok (rows cols : Int) (mt : Nat → Nat) (fuel k : Nat) (c1 c2 e x : Cell)
    (k1 : Nat) (hr : 5 ≤ rows) (hc : 5 ≤ cols) (hro : rows % 2 = 1) (hco : cols % 2 = 1)
    (h : upsetLoop rows cols mt fuel k c1 c2 = .ok (e, x, k1)) :
    ValidAnchor rows cols e ∧ ValidAnchor rows cols x ∧ ¬ (e.row = x.row ∧ e.col = x.col) ∧
      e.type = c1.type ∧ x.type = c2.type := by
  induction fuel generalizing k c1 c2 with
  | zero => unfold upsetLoop at h; cases h
  | succ n ih =>
    unfold upsetLoop at h
    simp only at h
    have v1 := upset_valid rows cols mt k c1 hr hc hro hco
    have v2 := upset_valid rows cols mt (k + 3) c2 hr hc hro hco
    split_ifs at h with hsame
    · obtain ⟨a1, a2, a3, a4, a5⟩ := ih _ _ _ h
      exact ⟨a1, a2, a3, a4.trans v1.2, a5.trans v2.2⟩
    · cases h
      exact ⟨v1.1, v2.1, hsame, v1.2, v2.2⟩

/-! ## The constructed board -/

theorem initBoard_get? (rows cols : Int) (d : CellType) (r c : Int) :
    (initBoard rows cols d).get? r c =
      if 0 ≤ r ∧ r < rows ∧ 0 ≤ c ∧ c < cols then
        some (if r = 0 ∨ r = rows - 1 ∨ c = 0 ∨ c = cols - 1 then CellType.BORDER else d)
      else none := by
  unfold Board.get? initBoard
  by_cases h0 : 0 ≤ r ∧ 0 ≤ c
  · rw [if_pos h0]
    by_cases hr : r < rows
    · have hr' : r.toNat < rows.toNat := by omega
      rw [List.getElem?_map, List.getElem?_range hr']
      simp only [Option.map_some']
      by_cases hc : c < cols
      · have hc' : c.toNat < cols.toNat := by omega
        rw [List.getElem?_map, List.getElem?_range hc']
        have e1 : ((r.toNat : Nat) : Int) = r := Int.toNat_of_nonneg h0.1
        have e2 : ((c.toNat : Nat) : Int) = c := Int.toNat_of_nonneg h0.2
        simp only [Option.map_some', e1, e2]
        rw [if_pos (show 0 ≤ r ∧ r < rows ∧ 0 ≤ c ∧ c < cols from ⟨h0.1, hr, h0.2, hc⟩)]
      · have hc' : ¬ c.toNat < cols.toNat := by omega
        rw [List.getElem?_map, List.getElem?_eq_none (by rw [List.length_range]; omega)]
        rw [if_neg (by omega)]
        rfl
    · have hr' : ¬ r.toNat < rows.toNat := by omega
      rw [List.getElem?_map, List.getElem?_eq_none (by rw [List.length_range]; omega)]
      rw [if_neg (by omega)]
      rfl
  · rw [if_neg h0, if_neg (by omega)]

theorem initBoard_WF (rows cols : Int) (e x : Cell) (d : CellType) (hr : 0 ≤ rows)
    (hc : 0 ≤ cols) :
    BaseMaze.WF ⟨rows, cols, e, x, initBoard rows cols d⟩ := by
  unfold BaseMaze.WF initBoard
  refine ⟨by simp; omega, ?_⟩
  intro cells hcells
  simp only [List.mem_map] at hcells
  obtain ⟨i, -, rfl⟩ := hcells
  simp
  omega

theorem update_spec (m : BaseMaze) (hm : m.WF) (row col : Int) (ty : CellType)
    (hin : 0 < row ∧ row < m.rows - 1 ∧ 0 < col ∧ col < m.cols - 1)
    (hedge : row = 1 ∨ row = m.rows - 2 ∨ col = 1 ∨ col = m.cols - 2) :
    ∃ m1, update m row col ty = .ok m1 ∧ m1.WF ∧ m1.rows = m.rows ∧ m1.cols = m.cols ∧
      m1.entryCell = m.entryCell ∧ m1.exportCell = m.exportCell ∧
      ∀ r c, m1.board.get? r c =
        if (r, c) = markerCell m.rows m.cols row col then some ty else m.board.get? r c := by
  have key : ∀ r0 c0, (0 ≤ r0 ∧ r0 < m.rows ∧ 0 ≤ c0 ∧ c0 < m.cols) →
      markerCell m.rows m.cols row col = (r0, c0) → update m row col ty = m.setCell r0 c0 ty →
      ∃ m1, update m row col ty = .ok m1 ∧ m1.WF ∧ m1.rows = m.rows ∧ m1.cols = m.cols ∧
      m1.entryCell = m.entryCell ∧ m1.exportCell = m.exportCell ∧
      ∀ r c, m1.board.get? r c =
        if (r, c) = markerCell m.rows m.cols row col then some ty else m.board.get? r c := by
    intro r0 c0 hrange hmk hupd
    obtain ⟨m1, hm1⟩ := setCell_of_inRange m hm r0 c0 ty hrange
    obtain ⟨f1, f2, f3, f4⟩ := setCell_fields _ _ _ _ _ hm1
    refine ⟨m1, hupd.trans hm1, setCell_WF _ _ _ _ _ hm hm1, f1, f2, f3, f4, ?_⟩
    intro r c
    rw [setCell_get? _ _ _ _ _ _ _ hm1, hmk]
    simp only [Prod.mk.injEq]
  by_cases h1 : col = 1
  · exact key row 0 (by omega) (by unfold markerCell; rw [if_pos h1])
      (by unfold update; rw [if_pos h1])
  by_cases h2 : col = m.cols - 2
  · exact key row (m.cols - 1) (by omega) (by unfold markerCell; rw [if_neg h1, if_pos h2])
      (by unfold update; rw [if_neg h1, if_pos h2])
  by_cases h3 : row = 1
  · exact key 0 col (by omega) (by unfold markerCell; rw [if_neg h1, if_neg h2, if_pos h3])
      (by unfold update; rw [if_neg h1, if_neg h2, if_pos h3])
  have h4 : row = m.rows - 2 := by omega
  exact key (m.rows - 1) col (by omega)
    (by unfold markerCell; rw [if_neg h1, if_neg h2, if_neg h3])
    (by unfold update; rw [if_neg h1, if_neg h2, if_neg h3, if_pos h4])

theorem newMaze_spec (rows cols : Int) (e x : Cell) (d : CellType)
    (he : ValidAnchor rows cols e) (hx : ValidAnchor rows cols x) :
    ∃ m, newMaze rows cols e x d = .ok m ∧ m.WF ∧ m.rows = rows ∧ m.cols = cols ∧
      m.entryCell = e ∧ m.exportCell = x ∧
      ∀ r c, m.board.get? r c =
        if (r, c) = markerCell rows cols x.row x.col then some CellType.EXPORT
        else if (r, c) = markerCell rows cols e.row e.col then some CellType.ENTRY
        else (initBoard rows cols d).get? r c := by
  have hr : 0 ≤ rows := by have := he.1; omega
  have hc : 0 ≤ cols := by have := he.1; omega
  have wf0 := initBoard_WF rows cols e x d hr hc
  obtain ⟨m1, h1, wf1, r1, c1, e1, x1, g1⟩ :=
    update_spec ⟨rows, cols, e, x, initBoard rows cols d⟩ wf0 e.row e.col CellType.ENTRY
      he.1 he.2.1
  simp only at r1 c1 e1 x1 g1
  obtain ⟨m2, h2, wf2, r2, c2, e2, x2, g2⟩ :=
    update_spec m1 wf1 x.row x.col CellType.EXPORT (by rw [r1, c1]; exact hx.1)
      (by rw [r1, c1]; exact hx.2.1)
  refine ⟨m2, ?_, wf2, r2.trans r1, c2.trans c1, e2.trans e1, x2.trans x1, ?_⟩
  · unfold newMaze updateEndPoint
    simp only [h1, x1]
    exact h2
  · intro r c
    rw [g2, g1, r1, c1]

/-! ## Construction: the claims about arguments, anchors and queries -/

theorem construct_error_cases (rows cols : Int) (d : CellType) (sr sc : Int) (mt : Nat → Nat)
    (fuel : Nat) (e : Failure) (h : construct rows cols d sr sc mt fuel = .error e) :
    checkArguments rows cols sr sc = .error e ∨
      (checkArguments rows cols sr sc = .ok () ∧
        (e = Failure.OutOfFuel ∨ e = Failure.OutOfRange)) := by
  unfold construct at h
  split at h
  · rename_i e1 he1
    cases h
    exact Or.inl he1
  · rename_i hok
    refine Or.inr ⟨hok, ?_⟩
    split at h
    · rename_i e1 he1
      cases h
      exact Or.inl (upsetLoop_error _ _ _ _ _ _ _ _ he1)
    · exact Or.inr (updateEndPoint_error _ _ h)

theorem construct_ok_cases (rows cols : Int) (d : CellType) (sr sc : Int) (mt : Nat → Nat)
    (fuel : Nat) (m : BaseMaze) (h : construct rows cols d sr sc mt fuel = .ok m) :
    checkArguments rows cols sr sc = .ok () ∧ m.rows = rows ∧ m.cols = cols := by
  unfold construct at h
  split at h
  · cases h
  · rename_i hok
    refine ⟨hok, ?_⟩
    split at h
    · cases h
    · obtain ⟨a1, a2, -, -⟩ := updateEndPoint_ok_dims _ _ h
      exact ⟨a1, a2⟩

theorem construct_of_checkArguments_error (rows cols : Int) (d : CellType) (sr sc : Int)
    (mt : Nat → Nat) (fuel : Nat) (e : Failure) (h : checkArguments rows cols sr sc = .error e) :
    construct rows cols d sr sc mt fuel = .error e := by
  unfold construct
  rw [h]

theorem wrapInt_eq (x : Int) (h0 : -2147483648 ≤ x) (h1 : x ≤ 2147483647) : wrapInt x = x := by
  unfold wrapInt
  omega

theorem checkArguments_display_iff (rows cols sr sc : Int) (hr : 5 ≤ rows) (hc : 5 ≤ cols)
    (hro : rows % 2 = 1) (hco : cols % 2 = 1) (hmax : cols * 2 ≤ 2147483647) :
    (checkArguments rows cols sr sc = .ok () ↔ (rows ≤ sr - 2 ∧ cols * 2 ≤ sc)) ∧
    (checkArguments rows cols sr sc = .error .DisplayTooSmall ↔
      ¬ (rows ≤ sr - 2 ∧ cols * 2 ≤ sc)) := by
  have e1 : ¬ (rows < 5 ∨ cols < 5 ∨ rows.tmod 2 = 0 ∨ cols.tmod 2 = 0) := by
    simp only [tmod_two_eq_zero_iff, Int.even_iff]
    omega
  unfold checkArguments
  rw [if_neg e1, wrapInt_eq (cols * 2) (by omega) hmax]
  by_cases h2 : rows > sr - 2 ∨ cols * 2 > sc
  · rw [if_pos h2]
    simp only [reduceCtorEq, false_iff, true_iff]
    omega
  · rw [if_neg h2]
    simp only [reduceCtorEq, false_iff, true_iff, not_not]
    omega

/-- C7. The constructor fails with the invalid-dimensions error exactly when
`rows < 5`, `cols < 5`, `rows` is even or `cols` is even, for every terminal size,
stream and fuel; `rows = 20` and `rows = 4` are rejected; every constructed grid
has odd `rows` and `cols` that are at least 5. -/
theorem construct_invalidDimensions_iff (rows cols : Int) (defaultType : CellType)
    (screenRows screenCols : Int) (mt : Nat → Nat) (fuel : Nat) :
    (construct rows cols defaultType screenRows screenCols mt fuel = .error .InvalidDimensions ↔
      (rows < 5 ∨ cols < 5 ∨ rows % 2 = 0 ∨ cols % 2 = 0)) ∧
    construct 20 cols defaultType screenRows screenCols mt fuel = .error .InvalidDimensions ∧
    construct 4 cols defaultType screenRows screenCols mt fuel = .error .InvalidDimensions ∧
    ∀ m, construct rows cols defaultType screenRows screenCols mt fuel = .ok m →
      m.rows = rows ∧ m.cols = cols ∧ m.rows % 2 = 1 ∧ m.cols % 2 = 1 ∧
        5 ≤ m.rows ∧ 5 ≤ m.cols := by
  have hiff := checkArguments_invalid_iff
  simp only [Int.even_iff] at hiff
  refine ⟨⟨fun h => ?_, fun h => ?_⟩, ?_, ?_, ?_⟩
  · rcases construct_error_cases _ _ _ _ _ _ _ _ h with h1 | ⟨-, h1 | h1⟩
    · exact (hiff _ _ _ _).mp h1
    · cases h1
    · cases h1
  · exact construct_of_checkArguments_error _ _ _ _ _ _ _ _ ((hiff _ _ _ _).mpr h)
  · exact construct_of_checkArguments_error _ _ _ _ _ _ _ _
      ((hiff _ _ _ _).mpr (Or.inr (Or.inr (Or.inl (by decide)))))
  · exact construct_of_checkArguments_error _ _ _ _ _ _ _ _
      ((hiff _ _ _ _).mpr (Or.inl (by decide)))
  · intro m h
    obtain ⟨h1, h2, h3⟩ := construct_ok_cases _ _ _ _ _ _ _ _ h
    obtain ⟨a1, a2, a3, a4, -, -⟩ := checkArguments_ok _ _ _ _ h1
    rw [Int.odd_iff] at a3 a4
    rw [h2, h3]
    exact ⟨rfl, rfl, a3, a4, a1, a2⟩

/-- C8, as the code has it. For odd `rows, cols ≥ 5` whose product `cols * 2` is
in the range of a 32-bit `int`, the display check passes exactly when
`rows ≤ screenRows - 2` and `cols * 2 ≤ screenCols`; otherwise, and only then,
construction fails with the display-too-small error; and when the check passes
and the anchor placement finishes, construction succeeds. -/
theorem construct_displayTooSmall_iff (rows cols : Int) (defaultType : CellType)
    (screenRows screenCols : Int) (mt : Nat → Nat) (fuel : Nat)
    (hr : 5 ≤ rows) (hc : 5 ≤ cols) (hro : rows % 2 = 1) (hco : cols % 2 = 1)
    (hmax : cols * 2 ≤ 2147483647) :
    (checkArguments rows cols screenRows screenCols = .ok () ↔
      (rows ≤ screenRows - 2 ∧ cols * 2 ≤ screenCols)) ∧
    (construct rows cols defaultType screenRows screenCols mt fuel = .error .DisplayTooSmall ↔
      ¬ (rows ≤ screenRows - 2 ∧ cols * 2 ≤ screenCols)) ∧
    ((rows ≤ screenRows - 2 ∧ cols * 2 ≤ screenCols) →
      ∀ e x k, upsetEndPoint rows cols mt fuel = .ok (e, x, k) →
        ∃ m, construct rows cols defaultType screenRows screenCols mt fuel = .ok m) := by
  obtain ⟨c1, c2⟩ :=
    checkArguments_display_iff rows cols screenRows screenCols hr hc hro hco hmax
  refine ⟨c1, ⟨fun h => ?_, fun h => ?_⟩, ?_⟩
  · rcases construct_error_cases _ _ _ _ _ _ _ _ h with h1 | ⟨-, h1 | h1⟩
    · exact c2.mp h1
    · cases h1
    · cases h1
  · exact construct_of_checkArguments_error _ _ _ _ _ _ _ _ (c2.mpr h)
  · intro hfit e x k hup
    have hv := upsetLoop_ok rows cols mt fuel 0 _ _ e x k hr hc hro hco hup
    obtain ⟨m, hm, -⟩ := newMaze_spec rows cols e x defaultType hv.1 hv.2.1
    refine ⟨m, ?_⟩
    unfold construct
    rw [c1.mpr hfit]
    simp only [hup]
    exact hm

/-- Witness for C8: a 5 × 5 grid on a 24 × 80 terminal. -/
theorem construct_displayTooSmall_iff_witness :
    (checkArguments 5 5 24 80 = .ok () ↔ ((5 : Int) ≤ 24 - 2 ∧ (5 : Int) * 2 ≤ 80)) ∧
    (construct 5 5 CellType.WALL 24 80 (fun i => if i = 3 then 1 else 0) 1
        = .error .DisplayTooSmall ↔ ¬ ((5 : Int) ≤ 24 - 2 ∧ (5 : Int) * 2 ≤ 80)) ∧
    (((5 : Int) ≤ 24 - 2 ∧ (5 : Int) * 2 ≤ 80) →
      ∀ e x k, upsetEndPoint 5 5 (fun i => if i = 3 then 1 else 0) 1 = .ok (e, x, k) →
        ∃ m, construct 5 5 CellType.WALL 24 80 (fun i => if i = 3 then 1 else 0) 1 = .ok m) :=
  construct_displayTooSmall_iff 5 5 CellType.WALL 24 80 (fun i => if i = 3 then 1 else 0) 1
    (by decide) (by decide) (by decide) (by decide) (by decide)

/-- Counterexample to C8 as stated: a 5 × 5 grid on a terminal of 5 rows and 10
columns satisfies `rows ≤ screenRows` and `cols * 2 ≤ screenCols`, yet
construction fails with the display-too-small error. -/
theorem construct_display_counterexample :
    ((5 : Int) ≤ 5 ∧ (5 : Int) * 2 ≤ 10) ∧
    ∀ (d : CellType) (mt : Nat → Nat) (fuel : Nat),
      construct 5 5 d 5 10 mt fuel = .error .DisplayTooSmall :=
  ⟨by decide, fun d mt fuel =>
    construct_of_checkArguments_error 5 5 d 5 10 mt fuel _ (by decide)⟩

/-- C9. Whenever `upsetEndPoint` finishes on a grid of odd `rows, cols ≥ 5`, both
anchors are strictly inside the border, on one of the four inner edges, at an odd
row and an odd column, and they are different cells. -/
theorem upsetEndPoint_anchors (rows cols : Int) (mt : Nat → Nat) (fuel : Nat)
    (entry exit : Cell) (k : Nat)
    (hr : 5 ≤ rows) (hc : 5 ≤ cols) (hro : rows % 2 = 1) (hco : cols % 2 = 1)
    (h : upsetEndPoint rows cols mt fuel = .ok (entry, exit, k)) :
    ((0 < entry.row ∧ entry.row < rows - 1 ∧ 0 < entry.col ∧ entry.col < cols - 1) ∧
      (entry.row = 1 ∨ entry.row = rows - 2 ∨ entry.col = 1 ∨ entry.col = cols - 2) ∧
      entry.row % 2 = 1 ∧ entry.col % 2 = 1) ∧
    ((0 < exit.row ∧ exit.row < rows - 1 ∧ 0 < exit.col ∧ exit.col < cols - 1) ∧
      (exit.row = 1 ∨ exit.row = rows - 2 ∨ exit.col = 1 ∨ exit.col = cols - 2) ∧
      exit.row % 2 = 1 ∧ exit.col % 2 = 1) ∧
    (entry.row, entry.col) ≠ (exit.row, exit.col) := by
  obtain ⟨h1, h2, h3, -, -⟩ := upsetLoop_ok rows cols mt fuel 0 _ _ entry exit k hr hc hro hco h
  refine ⟨h1, h2, ?_⟩
  intro heq
  simp only [Prod.mk.injEq] at heq
  exact h3 heq

/-- Witness for C9: on a 5 × 5 grid the draws `0,0,0,1,0,0` place the entry anchor
at `(1, 1)` and the exit anchor at `(3, 1)`. -/
theorem upsetEndPoint_anchors_witness :
    upsetEndPoint 5 5 (fun i => if i = 3 then 1 else 0) 1
        = .ok (⟨1, 1, .ENTRY⟩, ⟨3, 1, .EXPORT⟩, 6) ∧
    (((0 : Int) < 1 ∧ (1 : Int) < 5 - 1 ∧ (0 : Int) < 1 ∧ (1 : Int) < 5 - 1) ∧
      ((1 : Int) = 1 ∨ (1 : Int) = 5 - 2 ∨ (1 : Int) = 1 ∨ (1 : Int) = 5 - 2) ∧
      (1 : Int) % 2 = 1 ∧ (1 : Int) % 2 = 1) ∧
    (((0 : Int) < 3 ∧ (3 : Int) < 5 - 1 ∧ (0 : Int) < 1 ∧ (1 : Int) < 5 - 1) ∧
      ((3 : Int) = 1 ∨ (3 : Int) = 5 - 2 ∨ (1 : Int) = 1 ∨ (1 : Int) = 5 - 2) ∧
      (3 : Int) % 2 = 1 ∧ (1 : Int) % 2 = 1) ∧
    ((1 : Int), (1 : Int)) ≠ ((3 : Int), (1 : Int)) :=
  ⟨by decide,
    upsetEndPoint_anchors 5 5 (fun i => if i = 3 then 1 else 0) 1 ⟨1, 1, .ENTRY⟩
      ⟨3, 1, .EXPORT⟩ 6 (by decide) (by decide) (by decide) (by decide) (by decide)⟩

/-- C10. Outside the interior (`row ≤ 0`, `row ≥ rows - 1`, `col ≤ 0` or
`col ≥ cols - 1`, negative and arbitrarily large values included) `isPassage` and
`isWall` return false whatever the board is, even a board with no cell at all,
so the board is not indexed; strictly inside the border of a well-formed board the
cell exists and they return whether it is `PASSAGE`, respectively `WALL`. -/
theorem isPassage_isWall_guarded (m : BaseMaze) (row col : Int) :
    ((row ≤ 0 ∨ row ≥ m.rows - 1 ∨ col ≤ 0 ∨ col ≥ m.cols - 1) →
      ∀ b : Board, BaseMaze.isPassage { m with board := b } row col = false ∧
        BaseMaze.isWall { m with board := b } row col = false) ∧
    (m.WF → (0 < row ∧ row < m.rows - 1 ∧ 0 < col ∧ col < m.cols - 1) →
      ∃ v, m.board.get? row col = some v ∧
        m.isPassage row col = decide (v = CellType.PASSAGE) ∧
        m.isWall row col = decide (v = CellType.WALL)) := by
  constructor
  · intro hout b
    have h : BaseMaze.isInMaze { m with board := b } row col = false := by
      rw [← Bool.not_eq_true, isInMaze_iff]
      simp only
      omega
    unfold BaseMaze.isPassage BaseMaze.isWall
    rw [h]
    exact ⟨rfl, rfl⟩
  · intro hm hin
    have hsome := (WF_get?_isSome_iff m hm row col).mpr (by omega)
    obtain ⟨v, hv⟩ := Option.isSome_iff_exists.mp hsome
    have h : m.isInMaze row col = true := (isInMaze_iff m row col).mpr hin
    refine ⟨v, hv, ?_, ?_⟩
    · unfold BaseMaze.isPassage
      rw [h, hv]
      cases v <;> rfl
    · unfold BaseMaze.isWall
      rw [h, hv]
      cases v <;> rfl

/-! ## Solver: frames and monotonicity -/

theorem SameFrame.same_refl (m : BaseMaze) : SameFrame m m := ⟨rfl, rfl, rfl, rfl⟩

theorem SameFrame.same_trans {m m1 m2 : BaseMaze} (h1 : SameFrame m m1) (h2 : SameFrame m1 m2) :
    SameFrame m m2 :=
  ⟨h2.1.trans h1.1, h2.2.1.trans h1.2.1, h2.2.2.1.trans h1.2.2.1, h2.2.2.2.trans h1.2.2.2⟩

theorem SameFrame.isInMaze {m m1 : BaseMaze} (h : SameFrame m m1) (r c : Int) :
    m1.isInMaze r c = m.isInMaze r c := by
  unfold BaseMaze.isInMaze
  rw [h.1, h.2.1]

theorem SameFrame.isExport {m m1 : BaseMaze} (h : SameFrame m m1) (r c : Int) :
    m1.isExport r c = m.isExport r c := by
  unfold BaseMaze.isExport
  rw [h.2.2.2]

theorem Explored.expl_refl (m : BaseMaze) : Explored m m :=
  ⟨SameFrame.same_refl m, fun _ _ => Or.inl rfl⟩

theorem Explored.expl_trans {m m1 m2 : BaseMaze} (h1 : Explored m m1) (h2 : Explored m1 m2) :
    Explored m m2 := by
  refine ⟨h1.1.same_trans h2.1, fun r c => ?_⟩
  rcases h2.2 r c with h | h
  · rw [h]; exact h1.2 r c
  · exact Or.inr h

theorem Explored.isPassage {m m1 : BaseMaze} (h : Explored m m1) (r c : Int)
    (hp : m1.isPassage r c = true) : m.isPassage r c = true := by
  rw [isPassage_iff] at hp ⊢
  rw [h.1.isInMaze] at hp
  refine ⟨hp.1, ?_⟩
  rcases h.2 r c with h3 | h3 | h3
  · rw [← h3]; exact hp.2
  · rw [hp.2] at h3; cases h3
  · rw [hp.2] at h3; cases h3

theorem Explored.not_isPassage {m m1 : BaseMaze} (h : Explored m m1) (r c : Int)
    (hp : m.isPassage r c = false) : m1.isPassage r c = false := by
  rw [← Bool.not_eq_true] at hp ⊢
  exact fun h1 => hp (h.isPassage r c h1)

theorem Explored.noPassageNbr {m m1 : BaseMaze} (h : Explored m m1) (r c : Int)
    (hp : NoPassageNbr m r c) : NoPassageNbr m1 r c :=
  fun d => h.not_isPassage _ _ (hp d)

theorem mem_passageCells (m : BaseMaze) (p : Int × Int) :
    p ∈ passageCells m ↔ m.isPassage p.1 p.2 = true := by
  unfold passageCells
  simp only [Finset.mem_filter, Finset.mem_product, Finset.mem_Ioo, and_iff_right_iff_imp]
  intro h
  have := (isInMaze_iff m p.1 p.2).mp ((isPassage_iff m p.1 p.2).mp h).1
  omega

theorem Explored.passageCells_subset {m m1 : BaseMaze} (h : Explored m m1) :
    passageCells m1 ⊆ passageCells m := by
  intro p hp
  rw [mem_passageCells] at hp ⊢
  exact h.isPassage _ _ hp

theorem passageCells_card_le (m : BaseMaze) :
    (passageCells m).card ≤ (m.rows - 2).toNat * (m.cols - 2).toNat := by
  unfold passageCells
  refine (Finset.card_filter_le _ _).trans ?_
  rw [Finset.card_product, Int.card_Ioo, Int.card_Ioo]
  have e1 : m.rows - 1 - 0 - 1 = m.rows - 2 := by ring
  have e2 : m.cols - 1 - 0 - 1 = m.cols - 2 := by ring
  rw [e1, e2]

/-! ## Solver: `updateMaze` -/

theorem onPathCells_cons_ne (e : Int × Int × Mark) (l : List (Int × Int × Mark))
    (h : e.2.2 ≠ Mark.onPath) : onPathCells (e :: l) = onPathCells l := by
  unfold onPathCells
  rw [List.filter_cons_of_neg (by simpa using h)]

theorem onPathCells_cons_eq (r c : Int) (l : List (Int × Int × Mark)) :
    onPathCells ((r, c, Mark.onPath) :: l) = (r, c) :: onPathCells l := by
  unfold onPathCells
  rw [List.filter_cons_of_pos (by simp)]
  rfl

theorem updateMaze_spec (st : Solving) (row col : Int) (s : Mark) (hs : s ≠ Mark.onPath)
    (hm : st.maze.WF)
    (hr : 0 ≤ row ∧ row < st.maze.rows ∧ 0 ≤ col ∧ col < st.maze.cols) :
    ∃ st1, updateMaze st row col s = .ok st1 ∧ st1.maze.WF ∧ Explored st.maze st1.maze ∧
      st1.maze.isPassage row col = false ∧
      (∀ r c, (r, c) ≠ (row, col) → st1.maze.board.get? r c = st.maze.board.get? r c) ∧
      st1.maze.board.get? row col =
        some (if st.maze.isExport row col then CellType.CURRENT else CellType.VISITED) ∧
      onPathCells st1.marks = onPathCells st.marks := by
  obtain ⟨m1, h1⟩ := setCell_of_inRange st.maze hm row col CellType.CURRENT hr
  have f1 := setCell_fields _ _ _ _ _ h1
  have wf1 := setCell_WF _ _ _ _ _ hm h1
  have g1 := fun r c => setCell_get? _ _ row col r c _ h1
  have hex : m1.isExport row col = st.maze.isExport row col := by
    unfold BaseMaze.isExport; rw [f1.2.2.2]
  unfold updateMaze
  simp only [h1]
  by_cases hx : st.maze.isExport row col = true
  · rw [hex, hx]
    simp only [Bool.not_true, Bool.false_eq_true, if_false]
    refine ⟨_, rfl, wf1, ⟨⟨f1.1, f1.2.1, f1.2.2.1, f1.2.2.2⟩, fun r c => ?_⟩, ?_, ?_, ?_, ?_⟩
    · rw [g1]
      split_ifs
      · exact Or.inr (Or.inr rfl)
      · exact Or.inl rfl
    · rw [← Bool.not_eq_true, isPassage_iff, g1]
      simp
    · intro r c hne
      rw [g1, if_neg (by simpa using hne)]
    · rw [g1]; simp
    · exact onPathCells_cons_ne _ _ (by simp)
  · rw [hex]
    simp only [hx, Bool.not_false, if_true]
    obtain ⟨m2, h2⟩ := setCell_of_inRange m1 wf1 row col CellType.VISITED
      (by rw [f1.1, f1.2.1]; exact hr)
    have f2 := setCell_fields _ _ _ _ _ h2
    have wf2 := setCell_WF _ _ _ _ _ wf1 h2
    have g2 := fun r c => setCell_get? _ _ row col r c _ h2
    simp only [h2]
    refine ⟨_, rfl, wf2,
      ⟨⟨f2.1.trans f1.1, f2.2.1.trans f1.2.1, f2.2.2.1.trans f1.2.2.1, f2.2.2.2.trans f1.2.2.2⟩,
        fun r c => ?_⟩, ?_, ?_, ?_, ?_⟩
    · simp only
      rw [g2, g1]
      split_ifs
      · exact Or.inr (Or.inl rfl)
      · exact Or.inl rfl
    · simp only
      rw [← Bool.not_eq_true, isPassage_iff, g2]
      simp
    · intro r c hne
      simp only
      have hne' : ¬ (r = row ∧ c = col) := by simpa using hne
      rw [g2, g1, if_neg hne', if_neg hne']
    · simp only
      rw [g2]; simp
    · simp only
      rw [onPathCells_cons_ne _ _ (by simpa using hs), onPathCells_cons_ne _ _ (by simp)]

/-! ## Solver: the order of the directions -/

theorem insertByDistance_perm (x : Direction × Int) (l : List (Direction × Int)) :
    (insertByDistance x l).Perm (x :: l) := by
  induction l with
  | nil => exact List.Perm.refl _
  | cons y ys ih =>
    unfold insertByDistance
    split_ifs
    · exact List.Perm.refl _
    · exact (List.Perm.cons y ih).trans (List.Perm.swap x y ys)

theorem foldl_insertByDistance_perm (l acc : List (Direction × Int)) :
    (l.foldl (fun acc x => insertByDistance x acc) acc).Perm (l ++ acc) := by
  induction l generalizing acc with
  | nil => exact List.Perm.refl _
  | cons x xs ih =>
    simp only [List.foldl_cons, List.cons_append]
    refine (ih _).trans ?_
    refine (List.Perm.append_left xs (insertByDistance_perm x acc)).trans ?_
    exact List.perm_middle

theorem sortByDistance_perm (l : List (Direction × Int)) : (sortByDistance l).Perm l := by
  unfold sortByDistance
  simpa using foldl_insertByDistance_perm l []

theorem sortedDirections_perm (m : BaseMaze) (row col : Int) :
    (sortedDirections m row col).Perm
      [Direction.UP, Direction.DOWN, Direction.LEFT, Direction.RIGHT] := by
  unfold sortedDirections
  have h := (sortByDistance_perm (directionDistances m row col)).map Prod.fst
  simpa [directionDistances] using h

theorem mem_sortedDirections (m : BaseMaze) (row col : Int) (d : Direction) :
    d ∈ sortedDirections m row col := by
  rw [(sortedDirections_perm m row col).mem_iff]
  cases d <;> simp

theorem adjacent_neighbour (row col : Int) (d : Direction) :
    Adjacent (row, col) (neighbour row col d) := by
  unfold Adjacent
  cases d <;> simp [neighbour]

/-! ## Solver: the search -/

theorem FailSpec.fail_refl (s : Solving) : FailSpec s s := by
  refine ⟨rfl, fun r c h1 h2 => ?_⟩
  rw [h1] at h2
  cases h2

theorem FailSpec.fail_trans {s s1 s2 : Solving} (h1 : FailSpec s s1) (h2 : FailSpec s1 s2)
    (e1 : Explored s.maze s1.maze) (e2 : Explored s1.maze s2.maze) : FailSpec s s2 := by
  refine ⟨h2.1.trans h1.1, fun r c hp hn => ?_⟩
  by_cases hmid : s1.maze.isPassage r c = true
  · obtain ⟨a, b⟩ := h2.2 r c hmid hn
    rw [e1.1.isExport] at a
    exact ⟨a, b⟩
  · rw [Bool.not_eq_true] at hmid
    obtain ⟨a, b⟩ := h1.2 r c hp hmid
    exact ⟨a, e2.noPassageNbr _ _ b⟩

theorem Route.mono {m m1 : BaseMaze} (h : Explored m m1) {row col : Int}
    {cells : List (Int × Int)} (hr : Route m1 row col cells) : Route m row col cells :=
  ⟨hr.1, hr.2.1, hr.2.2.1, fun p hp => h.isPassage _ _ (hr.2.2.2 p hp)⟩

theorem Explored.card_le {m m1 : BaseMaze} (h : Explored m m1) :
    (passageCells m1).card ≤ (passageCells m).card :=
  Finset.card_le_card h.passageCells_subset

theorem nextTo_spec (n : Nat) (ih : TravelOK n) (s : Solving) (row col : Int) (d : Direction)
    (hwf : s.maze.WF) (hcard : (passageCells s.maze).card ≤ n) :
    ∃ res s1, nextTo (travel n) s row col d = .ok (res, s1) ∧ s1.maze.WF ∧
      Explored s.maze s1.maze ∧
      (res = false →
        s1.maze.isPassage (neighbour row col d).1 (neighbour row col d).2 = false ∧
          FailSpec s s1) ∧
      (res = true →
        s.maze.isPassage (neighbour row col d).1 (neighbour row col d).2 = true ∧
        ∃ sub, onPathCells s1.marks = (row, col) :: sub ++ onPathCells s.marks ∧
          Route s.maze (neighbour row col d).1 (neighbour row col d).2
            (sub ++ [exitCell s.maze])) := by
  unfold nextTo
  simp only
  by_cases hp : s.maze.isPassage (neighbour row col d).1 (neighbour row col d).2 = true
  · rw [if_pos hp]
    have hin := (isInMaze_iff _ _ _).mp ((isPassage_iff _ _ _).mp hp).1
    have hmem : ((neighbour row col d).1, (neighbour row col d).2) ∈ passageCells s.maze :=
      (mem_passageCells _ _).mpr hp
    have hlt := Finset.card_erase_lt_of_mem hmem
    obtain ⟨res, t, ht, twf, tex, tnp, tfail, tsucc⟩ :=
      ih s (neighbour row col d).1 (neighbour row col d).2 hwf (by omega) (by omega)
    rw [ht]
    cases res with
    | false =>
      simp only
      obtain ⟨hnx, hnn, hfs⟩ := tfail rfl
      obtain ⟨s2, h2, wf2, ex2, np2, same2, -, marks2⟩ :=
        updateMaze_spec t (neighbour row col d).1 (neighbour row col d).2 Mark.backtracked
          (by decide) twf (by rw [tex.1.1, tex.1.2.1]; omega)
      rw [h2]
      refine ⟨false, s2, rfl, wf2, tex.expl_trans ex2, fun _ => ⟨np2, ?_⟩, fun h => by cases h⟩
      refine ⟨marks2.trans hfs.1, fun r c h1 h2' => ?_⟩
      by_cases hmid : t.maze.isPassage r c = true
      · exfalso
        by_cases hrc : (r, c) = ((neighbour row col d).1, (neighbour row col d).2)
        · simp only [Prod.mk.injEq] at hrc
          rw [hrc.1, hrc.2, tnp] at hmid
          cases hmid
        · have := same2 r c hrc
          rw [← Bool.not_eq_true, isPassage_iff, this, ex2.1.isInMaze, ← isPassage_iff] at h2'
          exact h2' hmid
      · rw [Bool.not_eq_true] at hmid
        obtain ⟨a, b⟩ := hfs.2 r c h1 hmid
        exact ⟨a, ex2.noPassageNbr _ _ b⟩
    | true =>
      simp only
      obtain ⟨path, hpath, hroute⟩ := tsucc rfl
      refine ⟨true, _, rfl, twf, tex, (fun h => by cases h), fun _ => ⟨hp, path, ?_, hroute⟩⟩
      simp only
      rw [onPathCells_cons_eq, hpath]
      rfl
  · rw [if_neg hp]
    rw [Bool.not_eq_true] at hp
    exact ⟨false, s, rfl, hwf, Explored.expl_refl _, fun _ => ⟨hp, FailSpec.fail_refl s⟩,
      fun h => by cases h⟩

theorem tryDirections_spec (n : Nat) (ih : TravelOK n) (row col : Int) (ds : List Direction)
    (s : Solving) (hwf : s.maze.WF) (hcard : (passageCells s.maze).card ≤ n) :
    ∃ res s1, tryDirections (fun s d => nextTo (travel n) s row col d) ds s = .ok (res, s1) ∧
      s1.maze.WF ∧ Explored s.maze s1.maze ∧
      (res = false →
        (∀ d ∈ ds, s1.maze.isPassage (neighbour row col d).1 (neighbour row col d).2 = false) ∧
          FailSpec s s1) ∧
      (res = true →
        ∃ d sub, s.maze.isPassage (neighbour row col d).1 (neighbour row col d).2 = true ∧
          onPathCells s1.marks = (row, col) :: sub ++ onPathCells s.marks ∧
          Route s.maze (neighbour row col d).1 (neighbour row col d).2
            (sub ++ [exitCell s.maze])) := by
  induction ds generalizing s with
  | nil =>
    exact ⟨false, s, rfl, hwf, Explored.expl_refl _,
      fun _ => ⟨(fun d hd => by cases hd), FailSpec.fail_refl s⟩, fun h => by cases h⟩
  | cons d ds ihd =>
    obtain ⟨res1, s1, h1, wf1, ex1, f1, t1⟩ := nextTo_spec n ih s row col d hwf hcard
    unfold tryDirections
    simp only [h1]
    cases res1 with
    | true =>
      obtain ⟨hp, sub, hm, hr⟩ := t1 rfl
      exact ⟨true, s1, rfl, wf1, ex1, (fun h => by cases h), fun _ => ⟨d, sub, hp, hm, hr⟩⟩
    | false =>
      simp only
      obtain ⟨hnp, hfs⟩ := f1 rfl
      obtain ⟨res2, s2, h2, wf2, ex2, f2, t2⟩ := ihd s1 wf1 (ex1.card_le.trans hcard)
      refine ⟨res2, s2, h2, wf2, ex1.expl_trans ex2, fun hres => ?_, fun hres => ?_⟩
      · obtain ⟨hall, hfs2⟩ := f2 hres
        refine ⟨fun d' hd' => ?_, hfs.fail_trans hfs2 ex1 ex2⟩
        rcases List.mem_cons.mp hd' with rfl | hmem
        · exact ex2.not_isPassage _ _ hnp
        · exact hall d' hmem
      · obtain ⟨d', sub, hp, hm, hr⟩ := t2 hres
        refine ⟨d', sub, ex1.isPassage _ _ hp, ?_, ?_⟩
        · rw [hm, hfs.1]
        · have e : exitCell s.maze = exitCell s1.maze := by
            unfold exitCell; rw [ex1.1.2.2.2]
          rw [e]
          exact hr.mono ex1

theorem travelOK (n : Nat) : TravelOK n := by
  induction n with
  | zero => intro st row col _ _ h; exact absurd h (Nat.not_lt_zero _)
  | succ n ih =>
    intro st row col hwf hrange hcard
    obtain ⟨st1, h1, wf1, ex1, np1, same1, -, marks1⟩ :=
      updateMaze_spec st row col Mark.explored (by decide) hwf hrange
    unfold travel
    simp only [h1]
    by_cases hx : st1.maze.isExport row col = true
    · rw [if_pos hx]
      refine ⟨true, st1, rfl, wf1, ex1, np1, (fun h => by cases h), fun _ => ⟨[], ?_, ?_⟩⟩
      · simpa using marks1
      · have hx' := hx
        rw [ex1.1.isExport] at hx'
        unfold BaseMaze.isExport at hx'
        simp only [Bool.and_eq_true, decide_eq_true_eq] at hx'
        refine ⟨?_, ?_, ?_, ?_⟩
        · simp [exitCell, hx'.1, hx'.2]
        · simp
        · simp
        · simp
    · rw [if_neg hx]
      have hsub : passageCells st1.maze ⊆ (passageCells st.maze).erase (row, col) := by
        intro p hp
        rw [Finset.mem_erase]
        refine ⟨?_, ex1.passageCells_subset hp⟩
        rintro rfl
        rw [mem_passageCells, np1] at hp
        cases hp
      have hc1 : (passageCells st1.maze).card ≤ n := by
        have := Finset.card_le_card hsub
        omega
      obtain ⟨res, s2, h2, wf2, ex2, f2, t2⟩ :=
        tryDirections_spec n ih row col (sortedDirections st1.maze row col) st1 wf1 hc1
      refine ⟨res, s2, h2, wf2, ex1.expl_trans ex2, ex2.not_isPassage _ _ np1,
        fun hres => ?_, fun hres => ?_⟩
      · obtain ⟨hall, hfs⟩ := f2 hres
        have hnonbr : NoPassageNbr s2.maze row col :=
          fun d => hall d (mem_sortedDirections _ _ _ d)
        have hx0 : st.maze.isExport row col = false := by
          rw [← ex1.1.isExport]; simpa using hx
        refine ⟨hx0, hnonbr, marks1 ▸ hfs.1, fun r c hp hn => ?_⟩
        by_cases hrc : (r, c) = (row, col)
        · simp only [Prod.mk.injEq] at hrc
          rw [hrc.1, hrc.2]
          exact ⟨hx0, hnonbr⟩
        · have hp1 : st1.maze.isPassage r c = true := by
            rw [isPassage_iff, same1 r c hrc, ex1.1.isInMaze, ← isPassage_iff]
            exact hp
          obtain ⟨a, b⟩ := hfs.2 r c hp1 hn
          rw [ex1.1.isExport] at a
          exact ⟨a, b⟩
      · obtain ⟨d, sub, hp, hm, hr⟩ := t2 hres
        have e : exitCell st1.maze = exitCell st.maze := by
          unfold exitCell; rw [ex1.1.2.2.2]
        rw [e] at hr
        refine ⟨(row, col) :: sub, ?_, ?_, ?_, ?_, ?_⟩
        · rw [hm, marks1]
        · rfl
        · rw [List.cons_append, List.chain'_cons']
          refine ⟨fun q hq => ?_, hr.2.1⟩
          rw [hr.1] at hq
          cases hq
          exact adjacent_neighbour row col d
        · rw [List.cons_append, List.nodup_cons]
          refine ⟨fun hmem => ?_, hr.2.2.1⟩
          have hall : ∀ q ∈ sub ++ [exitCell st.maze], st1.maze.isPassage q.1 q.2 = true := by
            intro q hq
            cases hl : sub ++ [exitCell st.maze] with
            | nil => rw [hl] at hq; cases hq
            | cons a l =>
              rw [hl] at hq
              have h1' := hr.1
              have h4' := hr.2.2.2
              rw [hl] at h1' h4'
              simp only [List.head?_cons, Option.some.injEq] at h1'
              rcases List.mem_cons.mp hq with rfl | hq'
              · rw [h1']; exact hp
              · exact h4' q (by simpa using hq')
          have := hall _ hmem
          rw [np1] at this
          cases this
        · intro q hq
          rw [List.cons_append, List.tail_cons] at hq
          cases hl : sub ++ [exitCell st.maze] with
          | nil => rw [hl] at hq; cases hq
          | cons a l =>
            rw [hl] at hq
            have h1' := hr.1
            have h4' := hr.2.2.2
            rw [hl] at h1' h4'
            simp only [List.head?_cons, Option.some.injEq] at h1'
            rcases List.mem_cons.mp hq with rfl | hq'
            · rw [h1']; exact ex1.isPassage _ _ hp
            · exact ex1.isPassage _ _ (h4' q (by simpa using hq'))

/-! ## Solver: more fuel does not change a result -/

theorem nextTo_congr (f g : Solving → Int → Int → Except Failure (Bool × Solving))
    (hfg : ∀ s r c x, f s r c = .ok x → g s r c = .ok x)
    (s : Solving) (row col : Int) (d : Direction) (x : Bool × Solving)
    (h : nextTo f s row col d = .ok x) : nextTo g s row col d = .ok x := by
  unfold nextTo at h ⊢
  simp only at h ⊢
  split_ifs at h ⊢ with hp
  · cases hf : f s (neighbour row col d).1 (neighbour row col d).2 with
    | error e => rw [hf] at h; cases h
    | ok y =>
      rw [hfg _ _ _ _ hf]
      rw [hf] at h
      exact h
  · exact h

theorem tryDirections_congr (f g : Solving → Direction → Except Failure (Bool × Solving))
    (hfg : ∀ s d x, f s d = .ok x → g s d = .ok x)
    (ds : List Direction) (s : Solving) (x : Bool × Solving)
    (h : tryDirections f ds s = .ok x) : tryDirections g ds s = .ok x := by
  induction ds generalizing s with
  | nil => exact h
  | cons d ds ih =>
    unfold tryDirections at h ⊢
    cases hf : f s d with
    | error e => rw [hf] at h; cases h
    | ok y =>
      rw [hfg _ _ _ hf]
      rw [hf] at h
      obtain ⟨b, s1⟩ := y
      cases b with
      | true => exact h
      | false => exact ih s1 h

theorem travel_fuel_succ (n : Nat) (st : Solving) (row col : Int) (x : Bool × Solving)
    (h : travel n st row col = .ok x) : travel (n + 1) st row col = .ok x := by
  induction n generalizing st row col x with
  | zero => unfold travel at h; cases h
  | succ n ih =>
    unfold travel at h ⊢
    cases hu : updateMaze st row col Mark.explored with
    | error e => rw [hu] at h; cases h
    | ok st1 =>
      rw [hu] at h
      simp only at h ⊢
      split_ifs at h ⊢ with hx
      · exact h
      · refine tryDirections_congr _ _ (fun s d y hy => ?_) _ _ _ h
        exact nextTo_congr _ _ (fun s' r c y' hy' => ih s' r c y' hy') _ _ _ _ _ hy

theorem travel_fuel_mono (n k : Nat) (st : Solving) (row col : Int) (x : Bool × Solving)
    (h : travel n st row col = .ok x) : travel (n + k) st row col = .ok x := by
  induction k with
  | zero => exact h
  | succ k ih => exact travel_fuel_succ _ _ _ _ _ ih

theorem travel_ok_spec (n : Nat) (st : Solving) (row col : Int) (res : Bool) (st1 : Solving)
    (hwf : st.maze.WF) (hr : 0 ≤ row ∧ row < st.maze.rows ∧ 0 ≤ col ∧ col < st.maze.cols)
    (h : travel n st row col = .ok (res, st1)) : TravelSpec st row col res st1 := by
  have hbig := travel_fuel_mono n ((passageCells st.maze).card + 1) st row col _ h
  have hlt : ((passageCells st.maze).erase (row, col)).card
      < n + ((passageCells st.maze).card + 1) := by
    have := Finset.card_erase_le (s := passageCells st.maze) (a := (row, col))
    omega
  obtain ⟨res', st1', h', hspec⟩ := travelOK _ st row col hwf hr hlt
  rw [hbig] at h'
  cases h'
  exact hspec

/-! ## Solver: reachability -/

theorem adjacent_iff_neighbour (p q : Int × Int) :
    Adjacent p q ↔ ∃ d, q = neighbour p.1 p.2 d := by
  obtain ⟨p1, p2⟩ := p
  obtain ⟨q1, q2⟩ := q
  constructor
  · intro h
    unfold Adjacent at h
    simp only at h
    rcases h with ⟨h1, h2 | h2⟩ | ⟨h1, h2 | h2⟩
    · exact ⟨Direction.LEFT, by simp only [neighbour, Prod.mk.injEq]; omega⟩
    · exact ⟨Direction.RIGHT, by simp only [neighbour, Prod.mk.injEq]; omega⟩
    · exact ⟨Direction.UP, by simp only [neighbour, Prod.mk.injEq]; omega⟩
    · exact ⟨Direction.DOWN, by simp only [neighbour, Prod.mk.injEq]; omega⟩
  · rintro ⟨d, hd⟩
    rw [hd]
    exact adjacent_neighbour p1 p2 d

theorem reach_dead (st st1 : Solving) (row col : Int)
    (hnn : NoPassageNbr st1.maze row col) (hfs : FailSpec st st1) (q : Int × Int)
    (hq : Reach st.maze (row, col) q) :
    q = (row, col) ∨ (st.maze.isPassage q.1 q.2 = true ∧ st1.maze.isPassage q.1 q.2 = false) := by
  induction hq with
  | refl => exact Or.inl rfl
  | step hpq hadj hpass ih =>
    rename_i q r
    right
    refine ⟨hpass, ?_⟩
    obtain ⟨d, hd⟩ := (adjacent_iff_neighbour q r).mp hadj
    have hq' : NoPassageNbr st1.maze q.1 q.2 := by
      rcases ih with h | h
      · rw [h]; exact hnn
      · exact (hfs.2 q.1 q.2 h.1 h.2).2
    rw [hd]
    exact hq' d

theorem travel_reaches (n : Nat) (st : Solving) (row col : Int) (hwf : st.maze.WF)
    (hr : 0 ≤ row ∧ row < st.maze.rows ∧ 0 ≤ col ∧ col < st.maze.cols)
    (hn : (st.maze.rows - 2).toNat * (st.maze.cols - 2).toNat < n)
    (hreach : Reach st.maze (row, col) (exitCell st.maze)) :
    ∃ st1, travel n st row col = .ok (true, st1) := by
  have hlt : ((passageCells st.maze).erase (row, col)).card < n := by
    have h1 := Finset.card_erase_le (s := passageCells st.maze) (a := (row, col))
    have h2 := passageCells_card_le st.maze
    omega
  obtain ⟨res, st1, h, hspec⟩ := travelOK n st row col hwf hr hlt
  cases res with
  | true => exact ⟨st1, h⟩
  | false =>
    exfalso
    obtain ⟨hx, hnn, hfs⟩ := hspec.2.2.2.1 rfl
    have hexit : st.maze.isExport (exitCell st.maze).1 (exitCell st.maze).2 = true := by
      simp [BaseMaze.isExport, exitCell]
    rcases reach_dead st st1 row col hnn hfs _ hreach with h1 | h1
    · rw [h1] at hexit
      rw [hx] at hexit
      cases hexit
    · have := (hfs.2 _ _ h1.1 h1.2).1
      rw [hexit] at this
      cases this

/-- C1. On a well-formed board whose entry anchor is an interior `PASSAGE` cell
and whose exit anchor is reachable from it through 4-adjacent interior `PASSAGE`
cells, the search `travel(entryCell.row, entryCell.col)` returns, and returns
true, as soon as the fuel exceeds the number of interior cells. -/
theorem travelMaze_finds_exit (m : BaseMaze) (hwf : m.WF)
    (hentry : m.isPassage m.entryCell.row m.entryCell.col = true)
    (hreach : Reach m (entryCell m) (exitCell m))
    (fuel : Nat) (hfuel : (m.rows - 2).toNat * (m.cols - 2).toNat < fuel) :
    ∃ st, travelMaze fuel m = .ok (true, st) := by
  have hin := (isInMaze_iff _ _ _).mp ((isPassage_iff _ _ _).mp hentry).1
  exact travel_reaches fuel ⟨m, []⟩ m.entryCell.row m.entryCell.col hwf (by simp only; omega)
    hfuel hreach

/-- Witness for C1: the 5 × 5 corridor maze, solved with fuel 10. -/
theorem travelMaze_finds_exit_witness : ∃ st, travelMaze 10 corridorMaze = .ok (true, st) :=
  travelMaze_finds_exit corridorMaze (by decide) (by decide)
    (Reach.step (Reach.step (Reach.refl (1, 1)) (q := (1, 1)) (r := (1, 2)) (by decide)
      (by decide)) (r := (1, 3)) (by decide) (by decide))
    10 (by decide)

/-- C4, the failing input. On a 7 × 5 grid with the entry anchor `(5, 1)` and the
exit anchor `(1, 3)`, both of them anchors that `upsetEndPoint` can draw,
`NatualMaze::generate` seeds at `(entryCell.row, entryCell.row) = (5, 5)`: its
first write `board[5][5]` is outside the five-column row, for every random stream
and every fuel, so no maze is produced. -/
theorem natualMaze_seed_out_of_range :
    ValidAnchor 7 5 ⟨5, 1, .ENTRY⟩ ∧ ValidAnchor 7 5 ⟨1, 3, .EXPORT⟩ ∧
    ∀ (mt : Nat → Nat) (fuel : Nat),
      natualMaze 7 5 ⟨5, 1, .ENTRY⟩ ⟨1, 3, .EXPORT⟩ mt fuel = .error .OutOfRange :=
  ⟨by decide, by decide, fun _ _ => rfl⟩

/-! ## Recursive-Division: connection inside a rectangle -/

theorem adjacent_symm {p q : Int × Int} (h : Adjacent p q) : Adjacent q p := by
  unfold Adjacent at h ⊢
  omega

theorem pStepIn_symm {m : BaseMaze} {t b l r : Int} {p q : Int × Int}
    (h : PStepIn m t b l r p q) : PStepIn m t b l r q p :=
  ⟨adjacent_symm h.1, h.2.2.1, h.2.1, h.2.2.2.2, h.2.2.2.1⟩

theorem connIn_symm {m : BaseMaze} {t b l r : Int} {p q : Int × Int}
    (h : ConnIn m t b l r p q) : ConnIn m t b l r q p := by
  induction h with
  | refl => exact Relation.ReflTransGen.refl
  | tail _ hstep ih =>
    exact Relation.ReflTransGen.head (pStepIn_symm hstep) ih

theorem connIn_trans {m : BaseMaze} {t b l r : Int} {p q s : Int × Int}
    (h1 : ConnIn m t b l r p q) (h2 : ConnIn m t b l r q s) : ConnIn m t b l r p s :=
  Relation.ReflTransGen.trans h1 h2

theorem isPassage_of_get? (m : BaseMaze) (r c : Int)
    (hin : 0 < r ∧ r < m.rows - 1 ∧ 0 < c ∧ c < m.cols - 1)
    (h : m.board.get? r c = some CellType.PASSAGE) : m.isPassage r c = true :=
  (isPassage_iff m r c).mpr ⟨(isInMaze_iff m r c).mpr hin, h⟩

/-- Moving a connection to a larger rectangle of another board that agrees with
the first one on the smaller rectangle. -/
theorem connIn_mono {m m1 : BaseMaze} {t b l r t1 b1 l1 r1 : Int} (hf : SameFrame m m1)
    (hsub : ∀ p, InRegion t b l r p → InRegion t1 b1 l1 r1 p)
    (hsame : ∀ p : Int × Int, InRegion t b l r p →
      m1.board.get? p.1 p.2 = m.board.get? p.1 p.2)
    {p q : Int × Int} (h : ConnIn m t b l r p q) : ConnIn m1 t1 b1 l1 r1 p q := by
  induction h with
  | refl => exact Relation.ReflTransGen.refl
  | tail _ hstep ih =>
    refine Relation.ReflTransGen.tail ih ⟨hstep.1, hsub _ hstep.2.1, hsub _ hstep.2.2.1, ?_, ?_⟩
    · have := hstep.2.2.2.1
      rw [isPassage_iff] at this ⊢
      rw [hf.isInMaze, hsame _ hstep.2.1]
      exact this
    · have := hstep.2.2.2.2
      rw [isPassage_iff] at this ⊢
      rw [hf.isInMaze, hsame _ hstep.2.2.1]
      exact this

theorem connIn_step {m : BaseMaze} {t b l r : Int} (p q : Int × Int) (hadj : Adjacent p q)
    (hp : InRegion t b l r p) (hq : InRegion t b l r q)
    (hpp : m.isPassage p.1 p.2 = true) (hqp : m.isPassage q.1 q.2 = true) :
    ConnIn m t b l r p q :=
  Relation.ReflTransGen.single ⟨hadj, hp, hq, hpp, hqp⟩

/-- Along a row of `PASSAGE` cells every cell is connected to the first one. -/
theorem connIn_row (m : BaseMaze) (t b l r row : Int) (hrow : t ≤ row ∧ row ≤ b)
    (hpass : ∀ c, l ≤ c → c ≤ r → m.isPassage row c = true) (n : Nat) (hn : l + n ≤ r) :
    ConnIn m t b l r (row, l) (row, l + n) := by
  induction n with
  | zero => simpa using (Relation.ReflTransGen.refl : ConnIn m t b l r (row, l) (row, l))
  | succ n ih =>
    have h1 := ih (by push_cast at hn; omega)
    push_cast at hn ⊢
    refine connIn_trans h1 (connIn_step _ _ ?_ ?_ ?_ ?_ ?_)
    · unfold Adjacent; dsimp only; omega
    · unfold InRegion; simp only; omega
    · unfold InRegion; simp only; omega
    · exact hpass _ (by omega) (by omega)
    · exact hpass _ (by omega) (by omega)

/-- Along a column of `PASSAGE` cells every cell is connected to the first one. -/
theorem connIn_col (m : BaseMaze) (t b l r col : Int) (hcol : l ≤ col ∧ col ≤ r)
    (hpass : ∀ x, t ≤ x → x ≤ b → m.isPassage x col = true) (n : Nat) (hn : t + n ≤ b) :
    ConnIn m t b l r (t, col) (t + n, col) := by
  induction n with
  | zero => simpa using (Relation.ReflTransGen.refl : ConnIn m t b l r (t, col) (t, col))
  | succ n ih =>
    have h1 := ih (by push_cast at hn; omega)
    push_cast at hn ⊢
    refine connIn_trans h1 (connIn_step _ _ ?_ ?_ ?_ ?_ ?_)
    · unfold Adjacent; dsimp only; omega
    · unfold InRegion; simp only; omega
    · unfold InRegion; simp only; omega
    · exact hpass _ (by omega) (by omega)
    · exact hpass _ (by omega) (by omega)

/-! ## Recursive-Division: the writes of one step -/

theorem modulo_ok (x : Nat) (d : Int) (hd : 0 < d) :
    ∃ y, modulo x d = .ok y ∧ 0 ≤ y ∧ y < d := by
  refine ⟨(x : Int) % d, ?_, Int.emod_nonneg _ (by omega), Int.emod_lt_of_pos _ hd⟩
  unfold modulo
  rw [if_pos hd]

theorem wallRow_spec (n : Nat) (m : BaseMaze) (row l : Int) (hm : m.WF)
    (hrow : 0 ≤ row ∧ row < m.rows) (hl : 0 ≤ l ∧ l + n ≤ m.cols) :
    ∃ m1, wallRow m row l n = .ok m1 ∧ m1.WF ∧ SameFrame m m1 ∧
      ∀ r c, m1.board.get? r c =
        if r = row ∧ l ≤ c ∧ c < l + n then some CellType.WALL else m.board.get? r c := by
  induction n generalizing m l with
  | zero =>
    refine ⟨m, rfl, hm, SameFrame.same_refl m, fun r c => ?_⟩
    rw [if_neg (by push_cast; omega)]
  | succ n ih =>
    push_cast at hl
    obtain ⟨m1, h1⟩ := setCell_of_inRange m hm row l CellType.WALL (by omega)
    have f1 := setCell_fields _ _ _ _ _ h1
    have wf1 := setCell_WF _ _ _ _ _ hm h1
    obtain ⟨m2, h2, wf2, sf2, g2⟩ := ih m1 (l + 1) wf1 (by rw [f1.1]; exact hrow)
      (by rw [f1.2.1]; omega)
    refine ⟨m2, ?_, wf2, SameFrame.same_trans ⟨f1.1, f1.2.1, f1.2.2.1, f1.2.2.2⟩ sf2,
      fun r c => ?_⟩
    · unfold wallRow
      simp only [h1]
      exact h2
    · rw [g2, setCell_get? _ _ _ _ _ _ _ h1]
      push_cast
      by_cases hr : r = row
      · by_cases hc1 : l + 1 ≤ c ∧ c < l + 1 + n
        · rw [if_pos ⟨hr, hc1⟩, if_pos ⟨hr, by omega, by omega⟩]
        · rw [if_neg (by tauto)]
          by_cases hc2 : c = l
          · rw [if_pos ⟨hr, hc2⟩, if_pos ⟨hr, by omega, by omega⟩]
          · rw [if_neg (by tauto), if_neg (by omega)]
      · rw [if_neg (by tauto), if_neg (by tauto), if_neg (by tauto)]

theorem wallCol_spec (n : Nat) (m : BaseMaze) (t col : Int) (hm : m.WF)
    (hcol : 0 ≤ col ∧ col < m.cols) (ht : 0 ≤ t ∧ t + n ≤ m.rows) :
    ∃ m1, wallCol m t col n = .ok m1 ∧ m1.WF ∧ SameFrame m m1 ∧
      ∀ r c, m1.board.get? r c =
        if c = col ∧ t ≤ r ∧ r < t + n then some CellType.WALL else m.board.get? r c := by
  induction n generalizing m t with
  | zero =>
    refine ⟨m, rfl, hm, SameFrame.same_refl m, fun r c => ?_⟩
    rw [if_neg (by push_cast; omega)]
  | succ n ih =>
    push_cast at ht
    obtain ⟨m1, h1⟩ := setCell_of_inRange m hm t col CellType.WALL (by omega)
    have f1 := setCell_fields _ _ _ _ _ h1
    have wf1 := setCell_WF _ _ _ _ _ hm h1
    obtain ⟨m2, h2, wf2, sf2, g2⟩ := ih m1 (t + 1) wf1 (by rw [f1.2.1]; exact hcol)
      (by rw [f1.1]; omega)
    refine ⟨m2, ?_, wf2, SameFrame.same_trans ⟨f1.1, f1.2.1, f1.2.2.1, f1.2.2.2⟩ sf2,
      fun r c => ?_⟩
    · unfold wallCol
      simp only [h1]
      exact h2
    · rw [g2, setCell_get? _ _ _ _ _ _ _ h1]
      push_cast
      by_cases hc : c = col
      · by_cases hr1 : t + 1 ≤ r ∧ r < t + 1 + n
        · rw [if_pos ⟨hc, hr1⟩, if_pos ⟨hc, by omega, by omega⟩]
        · rw [if_neg (by tauto)]
          by_cases hr2 : r = t
          · rw [if_pos ⟨hr2, hc⟩, if_pos ⟨hc, by omega, by omega⟩]
          · rw [if_neg (by tauto), if_neg (by omega)]
      · rw [if_neg (by tauto), if_neg (by tauto), if_neg (by tauto)]

theorem setCell_spec (m : BaseMaze) (hm : m.WF) (r0 c0 : Int) (v : CellType)
    (hr : 0 ≤ r0 ∧ r0 < m.rows ∧ 0 ≤ c0 ∧ c0 < m.cols) :
    ∃ m1, m.setCell r0 c0 v = .ok m1 ∧ m1.WF ∧ SameFrame m m1 ∧
      ∀ r c, m1.board.get? r c = if r = r0 ∧ c = c0 then some v else m.board.get? r c := by
  obtain ⟨m1, h1⟩ := setCell_of_inRange m hm r0 c0 v hr
  have f1 := setCell_fields _ _ _ _ _ h1
  exact ⟨m1, h1, setCell_WF _ _ _ _ _ hm h1, ⟨f1.1, f1.2.1, f1.2.2.1, f1.2.2.2⟩,
    fun r c => setCell_get? _ _ _ _ _ _ _ h1⟩

theorem crossPoint_spec (mt : Nat → Nat) (k : Nat) (t b l r : Int)
    (hb : t < b ∧ l < r) (hodd : t % 2 = 1 ∧ b % 2 = 1 ∧ l % 2 = 1 ∧ r % 2 = 1) :
    ∃ cr cc, crossPoint mt k t b l r = .ok (cr, cc) ∧
      t < cr ∧ cr < b ∧ cr % 2 = 0 ∧ l < cc ∧ cc < r ∧ cc % 2 = 0 := by
  have hd0 : (b - t).tdiv 2 = (b - t) / 2 := Int.tdiv_eq_ediv (by omega) (by norm_num)
  have hd1 : (r - l).tdiv 2 = (r - l) / 2 := Int.tdiv_eq_ediv (by omega) (by norm_num)
  obtain ⟨x0, hx0, x0a, x0b⟩ := modulo_ok (mt k) ((b - t).tdiv 2) (by rw [hd0]; omega)
  obtain ⟨x1, hx1, x1a, x1b⟩ := modulo_ok (mt (k + 1)) ((r - l).tdiv 2) (by rw [hd1]; omega)
  rw [hd0] at x0b
  rw [hd1] at x1b
  refine ⟨t + x0 * 2 + 1, l + x1 * 2 + 1, ?_, by omega, by omega, by omega, by omega,
    by omega, by omega⟩
  unfold crossPoint
  rw [hx0]
  simp only
  rw [hx1]

theorem drawCross_spec (m : BaseMaze) (t b l r cr cc : Int) (hm : m.WF)
    (hb : 1 ≤ t ∧ t ≤ b ∧ b ≤ m.rows - 2 ∧ 1 ≤ l ∧ l ≤ r ∧ r ≤ m.cols - 2)
    (hc : t ≤ cr ∧ cr ≤ b ∧ l ≤ cc ∧ cc ≤ r) :
    ∃ m2, drawCross m t b l r cr cc = .ok m2 ∧ m2.WF ∧ SameFrame m m2 ∧
      ∀ x y, m2.board.get? x y =
        if (y = cc ∧ t ≤ x ∧ x ≤ b) ∨ (x = cr ∧ l ≤ y ∧ y ≤ r) then some CellType.WALL
        else m.board.get? x y := by
  obtain ⟨m1, hw1, wf1, sf1, g1⟩ := wallRow_spec (r - l + 1).toNat m cr l hm
    (by omega) (by omega)
  obtain ⟨m2, hw2, wf2, sf2, g2⟩ := wallCol_spec (b - t + 1).toNat m1 t cc wf1
    (by rw [sf1.2.1]; omega) (by rw [sf1.1]; omega)
  refine ⟨m2, ?_, wf2, SameFrame.same_trans sf1 sf2, fun x y => ?_⟩
  · unfold drawCross
    rw [hw1]
    exact hw2
  · rw [g2, g1]
    have e1 : ((r - l + 1).toNat : Int) = r - l + 1 := Int.toNat_of_nonneg (by omega)
    have e2 : ((b - t + 1).toNat : Int) = b - t + 1 := Int.toNat_of_nonneg (by omega)
    rw [e1, e2]
    split_ifs <;> first | rfl | (exfalso; omega)

theorem openingPositions_spec (mt : Nat → Nat) (k : Nat) (t b l r cr cc : Int)
    (hc : t < cr ∧ cr < b ∧ cr % 2 = 0 ∧ l < cc ∧ cc < r ∧ cc % 2 = 0)
    (hodd : t % 2 = 1 ∧ b % 2 = 1 ∧ l % 2 = 1 ∧ r % 2 = 1) :
    ∃ pos0 pos1 pos2 pos3, openingPositions mt k t b l r cr cc = .ok (pos0, pos1, pos2, pos3) ∧
      (t ≤ pos0 ∧ pos0 < cr ∧ pos0 % 2 = 1) ∧ (cr < pos1 ∧ pos1 ≤ b ∧ pos1 % 2 = 1) ∧
      (l ≤ pos2 ∧ pos2 < cc ∧ pos2 % 2 = 1) ∧ (cc < pos3 ∧ pos3 ≤ r ∧ pos3 % 2 = 1) := by
  obtain ⟨y0, hy0, y0a, y0b⟩ := modulo_ok (mt (k + 3)) (cr - t) (by omega)
  obtain ⟨y1, hy1, y1a, y1b⟩ := modulo_ok (mt (k + 4)) (b - cr) (by omega)
  obtain ⟨y2, hy2, y2a, y2b⟩ := modulo_ok (mt (k + 5)) (cc - l) (by omega)
  obtain ⟨y3, hy3, y3a, y3b⟩ := modulo_ok (mt (k + 6)) (r - cc) (by omega)
  refine ⟨t + y0 / 2 * 2, b - y1 / 2 * 2, l + y2 / 2 * 2, r - y3 / 2 * 2, ?_,
    by omega, by omega, by omega, by omega⟩
  unfold openingPositions
  rw [hy0]
  simp only
  rw [hy1]
  simp only
  rw [hy2]
  simp only
  rw [hy3]

theorem openFour_spec (m : BaseMaze) (cr cc pos0 pos1 pos2 pos3 : Int) (hm : m.WF)
    (h0 : 0 ≤ pos0 ∧ pos0 < m.rows) (h1 : 0 ≤ pos1 ∧ pos1 < m.rows)
    (h2 : 0 ≤ pos2 ∧ pos2 < m.cols) (h3 : 0 ≤ pos3 ∧ pos3 < m.cols)
    (hr : 0 ≤ cr ∧ cr < m.rows) (hc : 0 ≤ cc ∧ cc < m.cols) :
    ∃ m6, openFour m cr cc pos0 pos1 pos2 pos3 = .ok m6 ∧ m6.WF ∧ SameFrame m m6 ∧
      ∀ x y, m6.board.get? x y =
        if (x = pos0 ∧ y = cc) ∨ (x = pos1 ∧ y = cc) ∨ (x = cr ∧ y = pos2) ∨
            (x = cr ∧ y = pos3) then some CellType.PASSAGE
        else m.board.get? x y := by
  obtain ⟨m3, e3, wf3, sf3, g3⟩ := setCell_spec m hm pos0 cc CellType.PASSAGE (by omega)
  obtain ⟨m4, e4, wf4, sf4, g4⟩ := setCell_spec m3 wf3 pos1 cc CellType.PASSAGE
    (by rw [sf3.1, sf3.2.1]; omega)
  have sf34 := SameFrame.same_trans sf3 sf4
  obtain ⟨m5, e5, wf5, sf5, g5⟩ := setCell_spec m4 wf4 cr pos2 CellType.PASSAGE
    (by rw [sf34.1, sf34.2.1]; omega)
  have sf35 := SameFrame.same_trans sf34 sf5
  obtain ⟨m6, e6, wf6, sf6, g6⟩ := setCell_spec m5 wf5 cr pos3 CellType.PASSAGE
    (by rw [sf35.1, sf35.2.1]; omega)
  refine ⟨m6, ?_, wf6, SameFrame.same_trans sf35 sf6, fun x y => ?_⟩
  · unfold openFour
    rw [e3]
    simp only
    rw [e4]
    simp only
    rw [e5]
    exact e6
  · rw [g6, g5, g4, g3]
    split_ifs <;> first | rfl | (exfalso; omega)

theorem closeOne_spec (m : BaseMaze) (cr cc pos0 pos1 pos2 pos3 : Int) (nt : Nat) (hm : m.WF)
    (h0 : 0 ≤ pos0 ∧ pos0 < m.rows) (h1 : 0 ≤ pos1 ∧ pos1 < m.rows)
    (h2 : 0 ≤ pos2 ∧ pos2 < m.cols) (h3 : 0 ≤ pos3 ∧ pos3 < m.cols)
    (hr : 0 ≤ cr ∧ cr < m.rows) (hc : 0 ≤ cc ∧ cc < m.cols) :
    ∃ m7, closeOne m cr cc pos0 pos1 pos2 pos3 nt = .ok m7 ∧ m7.WF ∧ SameFrame m m7 ∧
      ∀ x y, m7.board.get? x y =
        if ((x = pos0 ∧ y = cc) ∧ nt = 0) ∨ ((x = pos1 ∧ y = cc) ∧ nt = 1) ∨
            ((x = cr ∧ y = pos2) ∧ nt = 2) ∨ ((x = cr ∧ y = pos3) ∧ nt = 3)
        then some CellType.WALL else m.board.get? x y := by
  unfold closeOne
  by_cases c0 : nt = 0
  · obtain ⟨m7, h7, wf7, sf7, g7⟩ := setCell_spec m hm pos0 cc CellType.WALL (by omega)
    refine ⟨m7, by rw [if_pos c0]; exact h7, wf7, sf7, fun x y => ?_⟩
    rw [g7]
    split_ifs <;> first | rfl | (exfalso; omega)
  by_cases c1 : nt = 1
  · obtain ⟨m7, h7, wf7, sf7, g7⟩ := setCell_spec m hm pos1 cc CellType.WALL (by omega)
    refine ⟨m7, by rw [if_neg c0, if_pos c1]; exact h7, wf7, sf7, fun x y => ?_⟩
    rw [g7]
    split_ifs <;> first | rfl | (exfalso; omega)
  by_cases c2 : nt = 2
  · obtain ⟨m7, h7, wf7, sf7, g7⟩ := setCell_spec m hm cr pos2 CellType.WALL (by omega)
    refine ⟨m7, by rw [if_neg c0, if_neg c1, if_pos c2]; exact h7, wf7, sf7, fun x y => ?_⟩
    rw [g7]
    split_ifs <;> first | rfl | (exfalso; omega)
  by_cases c3 : nt = 3
  · obtain ⟨m7, h7, wf7, sf7, g7⟩ := setCell_spec m hm cr pos3 CellType.WALL (by omega)
    refine ⟨m7, by rw [if_neg c0, if_neg c1, if_neg c2, if_pos c3]; exact h7, wf7, sf7,
      fun x y => ?_⟩
    rw [g7]
    split_ifs <;> first | rfl | (exfalso; omega)
  · refine ⟨m, by rw [if_neg c0, if_neg c1, if_neg c2, if_neg c3], hm, SameFrame.same_refl m,
      fun x y => ?_⟩
    rw [if_neg (by omega)]

theorem ite_openings (P0 P1 P2 P3 : Prop) [Decidable P0] [Decidable P1] [Decidable P2]
    [Decidable P3] (nt : Nat) (hnt : nt < 4) (e01 : ¬ (P0 ∧ P1)) (e02 : ¬ (P0 ∧ P2))
    (e03 : ¬ (P0 ∧ P3)) (e12 : ¬ (P1 ∧ P2)) (e13 : ¬ (P1 ∧ P3)) (e23 : ¬ (P2 ∧ P3))
    (v : Option CellType) (A : Prop) [Decidable A] (hA : A) :
    (if (P0 ∧ nt = 0) ∨ (P1 ∧ nt = 1) ∨ (P2 ∧ nt = 2) ∨ (P3 ∧ nt = 3) then some CellType.WALL
      else if P0 ∨ P1 ∨ P2 ∨ P3 then some CellType.PASSAGE
      else if A then some CellType.WALL else v) =
    some (if (P0 ∧ nt ≠ 0) ∨ (P1 ∧ nt ≠ 1) ∨ (P2 ∧ nt ≠ 2) ∨ (P3 ∧ nt ≠ 3)
      then CellType.PASSAGE else CellType.WALL) := by
  by_cases h0 : P0 <;> by_cases h1 : P1 <;> by_cases h2 : P2 <;> by_cases h3 : P3 <;>
    interval_cases nt <;> simp_all

/-- The effect of the body of `devide` before its recursive calls. -/
theorem devideStep_spec (mt : Nat → Nat) (g : Gen) (t b l r : Int) (hm : g.maze.WF)
    (hb : 1 ≤ t ∧ t < b ∧ b ≤ g.maze.rows - 2 ∧ 1 ≤ l ∧ l < r ∧ r ≤ g.maze.cols - 2)
    (hodd : t % 2 = 1 ∧ b % 2 = 1 ∧ l % 2 = 1 ∧ r % 2 = 1) :
    ∃ g1 cr cc, devideStep mt g t b l r = .ok (g1, cr, cc) ∧ g1.maze.WF ∧
      SameFrame g.maze g1.maze ∧
      (t < cr ∧ cr < b ∧ cr % 2 = 0 ∧ l < cc ∧ cc < r ∧ cc % 2 = 0) ∧
      (∀ x y, ¬ (InRegion t b l r (x, y) ∧ (x = cr ∨ y = cc)) →
        g1.maze.board.get? x y = g.maze.board.get? x y) ∧
      ∃ (pos0 pos1 pos2 pos3 : Int) (nt : Nat),
        (t ≤ pos0 ∧ pos0 < cr ∧ pos0 % 2 = 1) ∧ (cr < pos1 ∧ pos1 ≤ b ∧ pos1 % 2 = 1) ∧
        (l ≤ pos2 ∧ pos2 < cc ∧ pos2 % 2 = 1) ∧ (cc < pos3 ∧ pos3 ≤ r ∧ pos3 % 2 = 1) ∧
        ∀ x y, InRegion t b l r (x, y) → (x = cr ∨ y = cc) →
          g1.maze.board.get? x y =
            some (if ((x = pos0 ∧ y = cc) ∧ nt ≠ 0) ∨ ((x = pos1 ∧ y = cc) ∧ nt ≠ 1) ∨
                ((x = cr ∧ y = pos2) ∧ nt ≠ 2) ∨ ((x = cr ∧ y = pos3) ∧ nt ≠ 3)
              then CellType.PASSAGE else CellType.WALL) := by
  obtain ⟨cr, cc, hcp, hc⟩ := crossPoint_spec mt g.used t b l r ⟨hb.2.1, hb.2.2.2.2.1⟩ hodd
  obtain ⟨m2, hdc, wf2, sf2, g2⟩ := drawCross_spec g.maze t b l r cr cc hm (by omega) (by omega)
  obtain ⟨pos0, pos1, pos2, pos3, hop, p0, p1, p2, p3⟩ :=
    openingPositions_spec mt g.used t b l r cr cc hc hodd
  obtain ⟨m6, ho4, wf6, sf6, g6⟩ := openFour_spec m2 cr cc pos0 pos1 pos2 pos3 wf2
    (by rw [sf2.1]; omega) (by rw [sf2.1]; omega) (by rw [sf2.2.1]; omega)
    (by rw [sf2.2.1]; omega) (by rw [sf2.1]; omega) (by rw [sf2.2.1]; omega)
  have sf26 := SameFrame.same_trans sf2 sf6
  obtain ⟨m7, hc1, wf7, sf7, g7⟩ := closeOne_spec m6 cr cc pos0 pos1 pos2 pos3
    (mt (g.used + 2) % 4) wf6
    (by rw [sf26.1]; omega) (by rw [sf26.1]; omega) (by rw [sf26.2.1]; omega)
    (by rw [sf26.2.1]; omega) (by rw [sf26.1]; omega) (by rw [sf26.2.1]; omega)
  have hrun : devideStep mt g t b l r = .ok (⟨m7, g.used + 7⟩, cr, cc) := by
    unfold devideStep
    rw [hcp]
    simp only
    rw [hdc]
    simp only
    rw [hop]
    simp only
    rw [ho4]
    simp only
    rw [hc1]
  refine ⟨⟨m7, g.used + 7⟩, cr, cc, hrun, wf7, SameFrame.same_trans sf26 sf7, hc, ?_,
    pos0, pos1, pos2, pos3, mt (g.used + 2) % 4, p0, p1, p2, p3, ?_⟩
  · intro x y hnot
    simp only [InRegion] at hnot
    show m7.board.get? x y = _
    rw [g7, g6, g2]
    rw [if_neg (by omega), if_neg (by omega), if_neg (by omega)]
  · intro x y hin hcross
    simp only [InRegion] at hin
    show m7.board.get? x y = _
    rw [g7, g6, g2]
    have hnt : mt (g.used + 2) % 4 < 4 := Nat.mod_lt _ (by norm_num)
    have hA2 : (y = cc ∧ t ≤ x ∧ x ≤ b) ∨ (x = cr ∧ l ≤ y ∧ y ≤ r) := by omega
    exact ite_openings _ _ _ _ _ hnt (by omega) (by omega) (by omega) (by omega) (by omega)
      (by omega) _ _ hA2

/-! ## Recursive-Division: the four quadrants and the cross -/

theorem quadOK_of_devideSpec (ga gb : Gen) (m : BaseMaze) (t b l r qt qb ql qr : Int)
    (hs : DevideSpec ga gb qt qb ql qr) (hf : SameFrame gb.maze m)
    (hsub : ∀ p, InRegion qt qb ql qr p → InRegion t b l r p)
    (hsame : ∀ p : Int × Int, InRegion qt qb ql qr p →
      m.board.get? p.1 p.2 = gb.maze.board.get? p.1 p.2) :
    QuadOK m t b l r qt qb ql qr := by
  obtain ⟨-, -, -, h4, h5, h6⟩ := hs
  refine ⟨fun p hp => ?_, fun p hp o1 o2 => ?_, fun p hp hpass => ?_⟩
  · rw [hsame p hp]; exact h4 p hp
  · rw [hsame p hp]; exact h5 p hp o1 o2
  · rw [hsame p hp] at hpass
    exact connIn_mono hf hsub hsame (h6 p hp hpass)

/-- Two cells joined to two corners, with a `PASSAGE` cell adjacent to both
between them, join the corners. -/
theorem connIn_link (m : BaseMaze) (t b l r : Int) (ka kc a o c : Int × Int)
    (ha : ConnIn m t b l r ka a) (hc : ConnIn m t b l r kc c)
    (h1 : Adjacent a o) (h2 : Adjacent o c)
    (ra : InRegion t b l r a) (ro : InRegion t b l r o) (rc : InRegion t b l r c)
    (pa : m.isPassage a.1 a.2 = true) (po : m.isPassage o.1 o.2 = true)
    (pc : m.isPassage c.1 c.2 = true) : ConnIn m t b l r ka kc :=
  connIn_trans ha (connIn_trans (connIn_step a o h1 ra ro pa po)
    (connIn_trans (connIn_step o c h2 ro rc po pc) (connIn_symm hc)))

theorem cross_connected (m : BaseMaze) (t b l r cr cc pos0 pos1 pos2 pos3 : Int) (nt : Nat)
    (hb : 1 ≤ t ∧ b ≤ m.rows - 2 ∧ 1 ≤ l ∧ r ≤ m.cols - 2)
    (hc : t < cr ∧ cr < b ∧ cr % 2 = 0 ∧ l < cc ∧ cc < r ∧ cc % 2 = 0)
    (hodd : t % 2 = 1 ∧ b % 2 = 1 ∧ l % 2 = 1 ∧ r % 2 = 1)
    (p0 : t ≤ pos0 ∧ pos0 < cr ∧ pos0 % 2 = 1) (p1 : cr < pos1 ∧ pos1 ≤ b ∧ pos1 % 2 = 1)
    (p2 : l ≤ pos2 ∧ pos2 < cc ∧ pos2 % 2 = 1) (p3 : cc < pos3 ∧ pos3 ≤ r ∧ pos3 % 2 = 1)
    (hcross : ∀ x y, InRegion t b l r (x, y) → (x = cr ∨ y = cc) →
      m.board.get? x y =
        some (if ((x = pos0 ∧ y = cc) ∧ nt ≠ 0) ∨ ((x = pos1 ∧ y = cc) ∧ nt ≠ 1) ∨
            ((x = cr ∧ y = pos2) ∧ nt ≠ 2) ∨ ((x = cr ∧ y = pos3) ∧ nt ≠ 3)
          then CellType.PASSAGE else CellType.WALL))
    (q1 : QuadOK m t b l r t (cr - 1) l (cc - 1))
    (q2 : QuadOK m t b l r (cr + 1) b l (cc - 1))
    (q3 : QuadOK m t b l r (cr + 1) b (cc + 1) r)
    (q4 : QuadOK m t b l r t (cr - 1) (cc + 1) r) :
    QuadOK m t b l r t b l r := by
  -- a cell of the rectangle is on the cross or in one quadrant
  have hsplit : ∀ p : Int × Int, InRegion t b l r p →
      (p.1 = cr ∨ p.2 = cc) ∨ InRegion t (cr - 1) l (cc - 1) p ∨
        InRegion (cr + 1) b l (cc - 1) p ∨ InRegion (cr + 1) b (cc + 1) r p ∨
        InRegion t (cr - 1) (cc + 1) r p := by
    intro p hp
    unfold InRegion at hp ⊢
    omega
  have hpass : ∀ x y, InRegion t b l r (x, y) → m.board.get? x y = some CellType.PASSAGE →
      m.isPassage x y = true := by
    intro x y hp h
    unfold InRegion at hp
    simp only at hp
    exact isPassage_of_get? m x y (by omega) h
  -- odd cells of each quadrant are joined to its corner
  have c1 : ∀ x y, InRegion t (cr - 1) l (cc - 1) (x, y) → x % 2 = 1 → y % 2 = 1 →
      m.isPassage x y = true ∧ ConnIn m t b l r (t, l) (x, y) := by
    intro x y hp o1 o2
    have h := q1.2.1 (x, y) hp o1 o2
    refine ⟨hpass x y ?_ h, q1.2.2 (x, y) hp h⟩
    unfold InRegion at hp ⊢; simp only at hp ⊢; omega
  have c2 : ∀ x y, InRegion (cr + 1) b l (cc - 1) (x, y) → x % 2 = 1 → y % 2 = 1 →
      m.isPassage x y = true ∧ ConnIn m t b l r (cr + 1, l) (x, y) := by
    intro x y hp o1 o2
    have h := q2.2.1 (x, y) hp o1 o2
    refine ⟨hpass x y ?_ h, q2.2.2 (x, y) hp h⟩
    unfold InRegion at hp ⊢; simp only at hp ⊢; omega
  have c3 : ∀ x y, InRegion (cr + 1) b (cc + 1) r (x, y) → x % 2 = 1 → y % 2 = 1 →
      m.isPassage x y = true ∧ ConnIn m t b l r (cr + 1, cc + 1) (x, y) := by
    intro x y hp o1 o2
    have h := q3.2.1 (x, y) hp o1 o2
    refine ⟨hpass x y ?_ h, q3.2.2 (x, y) hp h⟩
    unfold InRegion at hp ⊢; simp only at hp ⊢; omega
  have c4 : ∀ x y, InRegion t (cr - 1) (cc + 1) r (x, y) → x % 2 = 1 → y % 2 = 1 →
      m.isPassage x y = true ∧ ConnIn m t b l r (t, cc + 1) (x, y) := by
    intro x y hp o1 o2
    have h := q4.2.1 (x, y) hp o1 o2
    refine ⟨hpass x y ?_ h, q4.2.2 (x, y) hp h⟩
    unfold InRegion at hp ⊢; simp only at hp ⊢; omega
  -- the openings that are not closed are `PASSAGE`
  have o0 : nt ≠ 0 → m.isPassage pos0 cc = true := by
    intro h
    refine hpass pos0 cc (by unfold InRegion; simp only; omega) ?_
    rw [hcross pos0 cc (by unfold InRegion; simp only; omega) (Or.inr rfl),
      if_pos (Or.inl ⟨⟨rfl, rfl⟩, h⟩)]
  have o1 : nt ≠ 1 → m.isPassage pos1 cc = true := by
    intro h
    refine hpass pos1 cc (by unfold InRegion; simp only; omega) ?_
    rw [hcross pos1 cc (by unfold InRegion; simp only; omega) (Or.inr rfl),
      if_pos (Or.inr (Or.inl ⟨⟨rfl, rfl⟩, h⟩))]
  have o2 : nt ≠ 2 → m.isPassage cr pos2 = true := by
    intro h
    refine hpass cr pos2 (by unfold InRegion; simp only; omega) ?_
    rw [hcross cr pos2 (by unfold InRegion; simp only; omega) (Or.inl rfl),
      if_pos (Or.inr (Or.inr (Or.inl ⟨⟨rfl, rfl⟩, h⟩)))]
  have o3 : nt ≠ 3 → m.isPassage cr pos3 = true := by
    intro h
    refine hpass cr pos3 (by unfold InRegion; simp only; omega) ?_
    rw [hcross cr pos3 (by unfold InRegion; simp only; omega) (Or.inl rfl),
      if_pos (Or.inr (Or.inr (Or.inr ⟨⟨rfl, rfl⟩, h⟩)))]
  -- the cells on both sides of each opening
  have a0 := c1 pos0 (cc - 1) (by unfold InRegion; simp only; omega) p0.2.2 (by omega)
  have b0 := c4 pos0 (cc + 1) (by unfold InRegion; simp only; omega) p0.2.2 (by omega)
  have a1 := c2 pos1 (cc - 1) (by unfold InRegion; simp only; omega) p1.2.2 (by omega)
  have b1 := c3 pos1 (cc + 1) (by unfold InRegion; simp only; omega) p1.2.2 (by omega)
  have a2 := c1 (cr - 1) pos2 (by unfold InRegion; simp only; omega) (by omega) p2.2.2
  have b2 := c2 (cr + 1) pos2 (by unfold InRegion; simp only; omega) (by omega) p2.2.2
  have a3 := c4 (cr - 1) pos3 (by unfold InRegion; simp only; omega) (by omega) p3.2.2
  have b3 := c3 (cr + 1) pos3 (by unfold InRegion; simp only; omega) (by omega) p3.2.2
  -- the links between the corners of the quadrants
  have l0 : nt ≠ 0 → ConnIn m t b l r (t, l) (t, cc + 1) := fun h =>
    connIn_link m t b l r _ _ (pos0, cc - 1) (pos0, cc) (pos0, cc + 1) a0.2 b0.2
      (by unfold Adjacent; dsimp only; omega) (by unfold Adjacent; dsimp only; omega)
      (by unfold InRegion; dsimp only; omega) (by unfold InRegion; dsimp only; omega)
      (by unfold InRegion; dsimp only; omega) a0.1 (o0 h) b0.1
  have l1 : nt ≠ 1 → ConnIn m t b l r (cr + 1, l) (cr + 1, cc + 1) := fun h =>
    connIn_link m t b l r _ _ (pos1, cc - 1) (pos1, cc) (pos1, cc + 1) a1.2 b1.2
      (by unfold Adjacent; dsimp only; omega) (by unfold Adjacent; dsimp only; omega)
      (by unfold InRegion; dsimp only; omega) (by unfold InRegion; dsimp only; omega)
      (by unfold InRegion; dsimp only; omega) a1.1 (o1 h) b1.1
  have l2 : nt ≠ 2 → ConnIn m t b l r (t, l) (cr + 1, l) := fun h =>
    connIn_link m t b l r _ _ (cr - 1, pos2) (cr, pos2) (cr + 1, pos2) a2.2 b2.2
      (by unfold Adjacent; dsimp only; omega) (by unfold Adjacent; dsimp only; omega)
      (by unfold InRegion; dsimp only; omega) (by unfold InRegion; dsimp only; omega)
      (by unfold InRegion; dsimp only; omega) a2.1 (o2 h) b2.1
  have l3 : nt ≠ 3 → ConnIn m t b l r (t, cc + 1) (cr + 1, cc + 1) := fun h =>
    connIn_link m t b l r _ _ (cr - 1, pos3) (cr, pos3) (cr + 1, pos3) a3.2 b3.2
      (by unfold Adjacent; dsimp only; omega) (by unfold Adjacent; dsimp only; omega)
      (by unfold InRegion; dsimp only; omega) (by unfold InRegion; dsimp only; omega)
      (by unfold InRegion; dsimp only; omega) a3.1 (o3 h) b3.1
  -- every corner is joined to `(t, l)`
  have corners : ConnIn m t b l r (t, l) (cr + 1, l) ∧
      ConnIn m t b l r (t, l) (cr + 1, cc + 1) ∧ ConnIn m t b l r (t, l) (t, cc + 1) := by
    by_cases n0 : nt = 0
    · have k2 := l2 (by omega)
      have k3 := connIn_trans k2 (l1 (by omega))
      exact ⟨k2, k3, connIn_trans k3 (connIn_symm (l3 (by omega)))⟩
    by_cases n1 : nt = 1
    · have k4 := l0 n0
      have k2 := l2 (by omega)
      exact ⟨k2, connIn_trans k4 (l3 (by omega)), k4⟩
    by_cases n2 : nt = 2
    · have k4 := l0 n0
      have k3 := connIn_trans k4 (l3 (by omega))
      exact ⟨connIn_trans k3 (connIn_symm (l1 n1)), k3, k4⟩
    · have k4 := l0 n0
      have k2 := l2 n2
      exact ⟨k2, connIn_trans k2 (l1 n1), k4⟩
  refine ⟨fun p hp => ?_, fun p hp e1 e2 => ?_, fun p hp hpp => ?_⟩
  · rcases hsplit p hp with h | h | h | h | h
    · rw [hcross p.1 p.2 hp h]
      split_ifs
      · exact Or.inl rfl
      · exact Or.inr rfl
    · exact q1.1 p h
    · exact q2.1 p h
    · exact q3.1 p h
    · exact q4.1 p h
  · rcases hsplit p hp with h | h | h | h | h
    · exfalso; omega
    · exact q1.2.1 p h e1 e2
    · exact q2.2.1 p h e1 e2
    · exact q3.2.1 p h e1 e2
    · exact q4.2.1 p h e1 e2
  · rcases hsplit p hp with h | h | h | h | h
    · have hv := hcross p.1 p.2 hp h
      rw [hpp] at hv
      by_cases hcond : ((p.1 = pos0 ∧ p.2 = cc) ∧ nt ≠ 0) ∨ ((p.1 = pos1 ∧ p.2 = cc) ∧ nt ≠ 1) ∨
          ((p.1 = cr ∧ p.2 = pos2) ∧ nt ≠ 2) ∨ ((p.1 = cr ∧ p.2 = pos3) ∧ nt ≠ 3)
      · have hpi := hpass p.1 p.2 hp hpp
        obtain ⟨x, y⟩ := p
        simp only at hcond hpi hp
        rcases hcond with ⟨⟨rfl, rfl⟩, h0⟩ | ⟨⟨rfl, rfl⟩, h0⟩ | ⟨⟨rfl, rfl⟩, h0⟩ | ⟨⟨rfl, rfl⟩, h0⟩
        · exact connIn_trans a0.2 (connIn_step (x, y - 1) (x, y)
            (by unfold Adjacent; dsimp only; omega) (by unfold InRegion; dsimp only; omega) hp
            a0.1 hpi)
        · exact connIn_trans (connIn_trans corners.1 a1.2) (connIn_step (x, y - 1) (x, y)
            (by unfold Adjacent; dsimp only; omega) (by unfold InRegion; dsimp only; omega) hp
            a1.1 hpi)
        · exact connIn_trans a2.2 (connIn_step (x - 1, y) (x, y)
            (by unfold Adjacent; dsimp only; omega) (by unfold InRegion; dsimp only; omega) hp
            a2.1 hpi)
        · exact connIn_trans (connIn_trans corners.2.2 a3.2) (connIn_step (x - 1, y) (x, y)
            (by unfold Adjacent; dsimp only; omega) (by unfold InRegion; dsimp only; omega) hp
            a3.1 hpi)
      · rw [if_neg hcond] at hv
        cases hv
    · exact q1.2.2 p h hpp
    · exact connIn_trans corners.1 (q2.2.2 p h hpp)
    · exact connIn_trans corners.2.1 (q3.2.2 p h hpp)
    · exact connIn_trans corners.2.2 (q4.2.2 p h hpp)

/-! ## Recursive-Division: the recursion -/

theorem devideSpec_base (g : Gen) (t b l r : Int) (hwf : g.maze.WF)
    (hb : 1 ≤ t ∧ t ≤ b ∧ b ≤ g.maze.rows - 2 ∧ 1 ≤ l ∧ l ≤ r ∧ r ≤ g.maze.cols - 2)
    (hall : ∀ p : Int × Int, InRegion t b l r p →
      g.maze.board.get? p.1 p.2 = some CellType.PASSAGE)
    (hline : t = b ∨ l = r) : DevideSpec g g t b l r := by
  have hpass : ∀ x y, t ≤ x → x ≤ b → l ≤ y → y ≤ r → g.maze.isPassage x y = true := by
    intro x y h1 h2 h3 h4
    exact isPassage_of_get? _ x y (by omega) (hall (x, y) ⟨h1, h2, h3, h4⟩)
  refine ⟨hwf, SameFrame.same_refl _, fun _ _ => rfl, fun p hp => Or.inl (hall p hp),
    fun p hp _ _ => hall p hp, fun p hp _ => ?_⟩
  obtain ⟨x, y⟩ := p
  unfold InRegion at hp
  simp only at hp
  rcases hline with h | h
  · have hx : x = t := by omega
    subst hx
    have := connIn_row g.maze x b l r x (by omega) (fun c h1 h2 => hpass x c (by omega)
      (by omega) h1 h2) (y - l).toNat (by omega)
    rwa [Int.toNat_of_nonneg (by omega), show l + (y - l) = y by ring] at this
  · have hy : y = l := by omega
    subst hy
    have := connIn_col g.maze t b y r y (by omega) (fun c h1 h2 => hpass c y h1 h2 (by omega)
      (by omega)) (x - t).toNat (by omega)
    rwa [Int.toNat_of_nonneg (by omega), show t + (x - t) = x by ring] at this

theorem devideOK (mt : Nat → Nat) (n : Nat) : DevideOK mt n := by
  induction n with
  | zero => intro g t b l r _ _ _ _ h; exact absurd h (Nat.not_lt_zero _)
  | succ n ih =>
    intro g t b l r hwf hb hodd hall hfuel
    unfold devide
    by_cases hcond : t ≠ b ∧ l ≠ r
    · rw [if_pos hcond]
      obtain ⟨g1, cr, cc, hstep, wf1, sf1, hc, hout1, pos0, pos1, pos2, pos3, nt, p0, p1, p2,
        p3, hcross1⟩ := devideStep_spec mt g t b l r hwf (by omega) hodd
      rw [hstep]
      simp only
      -- first quadrant
      obtain ⟨g2, h2, s2⟩ := ih g1 t (cr - 1) l (cc - 1) wf1
        (by rw [sf1.1, sf1.2.1]; omega) (by omega)
        (fun p hp => by
          unfold InRegion at hp
          rw [hout1 p.1 p.2 (by unfold InRegion; dsimp only; omega)]
          exact hall p (by unfold InRegion; omega))
        (by omega)
      rw [h2]
      simp only
      have sf2 := SameFrame.same_trans sf1 s2.2.1
      -- second quadrant
      obtain ⟨g3, h3, s3⟩ := ih g2 (cr + 1) b l (cc - 1) s2.1
        (by rw [sf2.1, sf2.2.1]; omega) (by omega)
        (fun p hp => by
          unfold InRegion at hp
          rw [s2.2.2.1 p (by unfold InRegion; omega),
            hout1 p.1 p.2 (by unfold InRegion; dsimp only; omega)]
          exact hall p (by unfold InRegion; omega))
        (by omega)
      rw [h3]
      simp only
      have sf3 := SameFrame.same_trans sf2 s3.2.1
      -- third quadrant
      obtain ⟨g4, h4, s4⟩ := ih g3 (cr + 1) b (cc + 1) r s3.1
        (by rw [sf3.1, sf3.2.1]; omega) (by omega)
        (fun p hp => by
          unfold InRegion at hp
          rw [s3.2.2.1 p (by unfold InRegion; omega), s2.2.2.1 p (by unfold InRegion; omega),
            hout1 p.1 p.2 (by unfold InRegion; dsimp only; omega)]
          exact hall p (by unfold InRegion; omega))
        (by omega)
      rw [h4]
      simp only
      have sf4 := SameFrame.same_trans sf3 s4.2.1
      -- fourth quadrant
      obtain ⟨g5, h5, s5⟩ := ih g4 t (cr - 1) (cc + 1) r s4.1
        (by rw [sf4.1, sf4.2.1]; omega) (by omega)
        (fun p hp => by
          unfold InRegion at hp
          rw [s4.2.2.1 p (by unfold InRegion; omega), s3.2.2.1 p (by unfold InRegion; omega),
            s2.2.2.1 p (by unfold InRegion; omega),
            hout1 p.1 p.2 (by unfold InRegion; dsimp only; omega)]
          exact hall p (by unfold InRegion; omega))
        (by omega)
      have sf5 := SameFrame.same_trans sf4 s5.2.1
      refine ⟨g5, h5, s5.1, sf5, fun p hp => ?_, ?_⟩
      · unfold InRegion at hp
        rw [s5.2.2.1 p (by unfold InRegion; omega), s4.2.2.1 p (by unfold InRegion; omega),
          s3.2.2.1 p (by unfold InRegion; omega), s2.2.2.1 p (by unfold InRegion; omega),
          hout1 p.1 p.2 (by unfold InRegion; dsimp only; omega)]
      · have q1 : QuadOK g5.maze t b l r t (cr - 1) l (cc - 1) :=
          quadOK_of_devideSpec g1 g2 g5.maze t b l r _ _ _ _ s2
            (SameFrame.same_trans s3.2.1 (SameFrame.same_trans s4.2.1 s5.2.1))
            (fun p hp => by unfold InRegion at hp ⊢; omega)
            (fun p hp => by
              unfold InRegion at hp
              rw [s5.2.2.1 p (by unfold InRegion; omega),
                s4.2.2.1 p (by unfold InRegion; omega),
                s3.2.2.1 p (by unfold InRegion; omega)])
        have q2 : QuadOK g5.maze t b l r (cr + 1) b l (cc - 1) :=
          quadOK_of_devideSpec g2 g3 g5.maze t b l r _ _ _ _ s3
            (SameFrame.same_trans s4.2.1 s5.2.1)
            (fun p hp => by unfold InRegion at hp ⊢; omega)
            (fun p hp => by
              unfold InRegion at hp
              rw [s5.2.2.1 p (by unfold InRegion; omega),
                s4.2.2.1 p (by unfold InRegion; omega)])
        have q3 : QuadOK g5.maze t b l r (cr + 1) b (cc + 1) r :=
          quadOK_of_devideSpec g3 g4 g5.maze t b l r _ _ _ _ s4 s5.2.1
            (fun p hp => by unfold InRegion at hp ⊢; omega)
            (fun p hp => by
              unfold InRegion at hp
              rw [s5.2.2.1 p (by unfold InRegion; omega)])
        have q4 : QuadOK g5.maze t b l r t (cr - 1) (cc + 1) r :=
          quadOK_of_devideSpec g4 g5 g5.maze t b l r _ _ _ _ s5 (SameFrame.same_refl _)
            (fun p hp => by unfold InRegion at hp ⊢; omega)
            (fun p _ => rfl)
        have hcross5 : ∀ x y, InRegion t b l r (x, y) → (x = cr ∨ y = cc) →
            g5.maze.board.get? x y =
              some (if ((x = pos0 ∧ y = cc) ∧ nt ≠ 0) ∨ ((x = pos1 ∧ y = cc) ∧ nt ≠ 1) ∨
                  ((x = cr ∧ y = pos2) ∧ nt ≠ 2) ∨ ((x = cr ∧ y = pos3) ∧ nt ≠ 3)
                then CellType.PASSAGE else CellType.WALL) := by
          intro x y hp hx
          rw [← hcross1 x y hp hx]
          have e5 := s5.2.2.1 (x, y) (by unfold InRegion; dsimp only; omega)
          have e4 := s4.2.2.1 (x, y) (by unfold InRegion; dsimp only; omega)
          have e3 := s3.2.2.1 (x, y) (by unfold InRegion; dsimp only; omega)
          have e2 := s2.2.2.1 (x, y) (by unfold InRegion; dsimp only; omega)
          simp only at e5 e4 e3 e2
          rw [e5, e4, e3, e2]
        exact cross_connected g5.maze t b l r cr cc pos0 pos1 pos2 pos3 nt
          (by rw [sf5.1, sf5.2.1]; omega) hc hodd p0 p1 p2 p3 hcross5 q1 q2 q3 q4
    · rw [if_neg hcond]
      exact ⟨g, rfl, devideSpec_base g t b l r hwf hb hall (by omega)⟩

/-! ## The constructed maze, seen from the generators -/

theorem markerCell_border (rows cols row col : Int) :
    (markerCell rows cols row col).1 = 0 ∨ (markerCell rows cols row col).1 = rows - 1 ∨
      (markerCell rows cols row col).2 = 0 ∨ (markerCell rows cols row col).2 = cols - 1 := by
  unfold markerCell
  split_ifs <;> simp

theorem newMaze_interior (rows cols : Int) (e x : Cell) (d : CellType)
    (he : ValidAnchor rows cols e) (hx : ValidAnchor rows cols x) :
    ∃ m, newMaze rows cols e x d = .ok m ∧ m.WF ∧ m.rows = rows ∧ m.cols = cols ∧
      m.entryCell = e ∧ m.exportCell = x ∧
      ∀ r c, 0 < r → r < rows - 1 → 0 < c → c < cols - 1 → m.board.get? r c = some d := by
  obtain ⟨m, h, wf, hr, hc, hen, hex, hg⟩ := newMaze_spec rows cols e x d he hx
  refine ⟨m, h, wf, hr, hc, hen, hex, fun r c h1 h2 h3 h4 => ?_⟩
  have b1 := markerCell_border rows cols x.row x.col
  have b2 := markerCell_border rows cols e.row e.col
  rw [hg, initBoard_get?]
  have n1 : ¬ (r, c) = markerCell rows cols x.row x.col := by
    intro heq; rw [← heq] at b1; simp only at b1; omega
  have n2 : ¬ (r, c) = markerCell rows cols e.row e.col := by
    intro heq; rw [← heq] at b2; simp only at b2; omega
  rw [if_neg n1, if_neg n2, if_pos (by omega), if_neg (by omega)]

theorem reach_of_connIn {m : BaseMaze} {t b l r : Int} {p q : Int × Int}
    (h : ConnIn m t b l r p q) : Reach m p q := by
  induction h with
  | refl => exact Reach.refl p
  | tail _ hstep ih => exact Reach.step ih hstep.1 hstep.2.2.2.2

/-! ## Recursive-Division: the generated maze -/

theorem simpleMaze_spec (rows cols : Int) (e x : Cell) (mt : Nat → Nat) (fuel : Nat)
    (he : ValidAnchor rows cols e) (hx : ValidAnchor rows cols x)
    (hro : rows % 2 = 1) (hco : cols % 2 = 1) (hfuel : (rows - 3).toNat < fuel) :
    ∃ m g, newMaze rows cols e x CellType.PASSAGE = .ok m ∧
      simpleMaze rows cols e x mt fuel = .ok g ∧ m.WF ∧ m.rows = rows ∧ m.cols = cols ∧
      m.entryCell = e ∧ m.exportCell = x ∧
      DevideSpec ⟨m, 0⟩ g 1 (rows - 2) 1 (cols - 2) := by
  obtain ⟨m, h, wf, hr, hc, hen, hex, hg⟩ := newMaze_interior rows cols e x CellType.PASSAGE he hx
  have hv := he.1
  obtain ⟨g, hd, hs⟩ := devideOK mt fuel ⟨m, 0⟩ 1 (rows - 2) 1 (cols - 2) wf
    (by simp only; rw [hr, hc]; omega) (by omega)
    (fun p hp => by
      unfold InRegion at hp
      exact hg p.1 p.2 (by omega) (by omega) (by omega) (by omega))
    (by have : rows - 2 - 1 = rows - 3 := by ring
        rw [this]; exact hfuel)
  refine ⟨m, g, h, ?_, wf, hr, hc, hen, hex, hs⟩
  unfold simpleMaze
  rw [h]
  simp only
  unfold simpleGenerate
  rw [hr, hc]
  exact hd

/-- C5. For odd `rows, cols ≥ 5`, anchors that `upsetEndPoint` can draw and every
random stream, `SimpleMaze` returns a maze (with fuel above `rows - 3`) whose entry
and exit anchors are `PASSAGE`, in which every interior `PASSAGE` cell is reachable
from the entry anchor, and any two `PASSAGE` cells from one another, through
4-adjacent `PASSAGE` cells; so the solver, given fuel above the number of interior
cells, finds the exit. -/
theorem simpleMaze_connected (rows cols : Int) (entry exit : Cell) (mt : Nat → Nat) (fuel : Nat)
    (hr : 5 ≤ rows) (hc : 5 ≤ cols) (hro : rows % 2 = 1) (hco : cols % 2 = 1)
    (he : ValidAnchor rows cols entry) (hx : ValidAnchor rows cols exit)
    (hfuel : (rows - 3).toNat < fuel) :
    ∃ g, simpleMaze rows cols entry exit mt fuel = .ok g ∧
      g.maze.isPassage entry.row entry.col = true ∧
      g.maze.isPassage exit.row exit.col = true ∧
      (∀ r c, g.maze.isPassage r c = true → Reach g.maze (entry.row, entry.col) (r, c)) ∧
      (∀ p q : Int × Int, g.maze.isPassage p.1 p.2 = true → g.maze.isPassage q.1 q.2 = true →
        Reach g.maze p q) ∧
      ∀ fuel2, (rows - 2).toNat * (cols - 2).toNat < fuel2 →
        ∃ st, travelMaze fuel2 g.maze = .ok (true, st) := by
  obtain ⟨m, g, -, hg, -, mr, mc, men, mex, wf, sf, -, -, hoddp, hconn⟩ :=
    simpleMaze_spec rows cols entry exit mt fuel he hx hro hco hfuel
  simp only at sf hoddp hconn
  have gr : g.maze.rows = rows := sf.1.trans mr
  have gc : g.maze.cols = cols := sf.2.1.trans mc
  have gen : g.maze.entryCell = entry := sf.2.2.1.trans men
  have gex : g.maze.exportCell = exit := sf.2.2.2.trans mex
  have hin : ∀ p : Int × Int, g.maze.isPassage p.1 p.2 = true →
      InRegion 1 (rows - 2) 1 (cols - 2) p ∧
        g.maze.board.get? p.1 p.2 = some CellType.PASSAGE := by
    intro p hp
    rw [isPassage_iff, isInMaze_iff, gr, gc] at hp
    exact ⟨by unfold InRegion; omega, hp.2⟩
  have hanchor : ∀ a : Cell, ValidAnchor rows cols a → g.maze.isPassage a.row a.col = true := by
    intro a ha
    refine isPassage_of_get? _ _ _ (by rw [gr, gc]; exact ha.1) ?_
    exact hoddp (a.row, a.col) (by unfold InRegion; have := ha.1; dsimp only; omega) ha.2.2.1
      ha.2.2.2
  have hall : ∀ p q : Int × Int, g.maze.isPassage p.1 p.2 = true →
      g.maze.isPassage q.1 q.2 = true → Reach g.maze p q := by
    intro p q hp hq
    have c1 := hconn p (hin p hp).1 (hin p hp).2
    have c2 := hconn q (hin q hq).1 (hin q hq).2
    exact reach_of_connIn (connIn_trans (connIn_symm c1) c2)
  have hentry := hanchor entry he
  have hexit := hanchor exit hx
  refine ⟨g, hg, hentry, hexit, fun r c hp => hall (entry.row, entry.col) (r, c) hentry hp,
    hall, fun fuel2 hf2 => ?_⟩
  have hwf := wf
  have hreach : Reach g.maze (entry.row, entry.col) (exitCell g.maze) := by
    unfold exitCell
    rw [gex]
    exact hall _ _ hentry hexit
  have hinm := (isInMaze_iff _ _ _).mp ((isPassage_iff _ _ _).mp hentry).1
  have := travel_reaches fuel2 ⟨g.maze, []⟩ entry.row entry.col hwf (by simp only; omega)
    (by simp only; rw [gr, gc]; exact hf2) hreach
  unfold travelMaze
  rw [gen]
  exact this

/-- Witness for C5: a 5 × 5 grid with the anchors `(1, 1)` and `(3, 3)`, the
constant random stream and fuel 3. -/
theorem simpleMaze_connected_witness :
    ∃ g, simpleMaze 5 5 ⟨1, 1, .ENTRY⟩ ⟨3, 3, .EXPORT⟩ (fun _ => 0) 3 = .ok g ∧
      g.maze.isPassage 1 1 = true ∧ g.maze.isPassage 3 3 = true ∧
      (∀ r c, g.maze.isPassage r c = true → Reach g.maze (1, 1) (r, c)) ∧
      (∀ p q : Int × Int, g.maze.isPassage p.1 p.2 = true → g.maze.isPassage q.1 q.2 = true →
        Reach g.maze p q) ∧
      ∀ fuel2, ((5 : Int) - 2).toNat * ((5 : Int) - 2).toNat < fuel2 →
        ∃ st, travelMaze fuel2 g.maze = .ok (true, st) :=
  simpleMaze_connected 5 5 ⟨1, 1, .ENTRY⟩ ⟨3, 3, .EXPORT⟩ (fun _ => 0) 3 (by decide) (by decide)
    (by decide) (by decide) (by decide) (by decide) (by decide)

/-! ## Carve-Backtrack: carving is monotone -/

theorem nb2_eq (row col : Int) (d : Direction) :
    nb2 row col d =
      match d with
      | .UP => (row - 2, col)
      | .DOWN => (row + 2, col)
      | .LEFT => (row, col - 2)
      | .RIGHT => (row, col + 2) := by
  cases d <;> simp only [nb2, neighbour, Prod.mk.injEq, and_true, true_and] <;> omega

theorem Carved.carved_refl (m : BaseMaze) : Carved m m :=
  ⟨SameFrame.same_refl m, fun _ _ => Or.inl rfl⟩

theorem Carved.carved_trans {m m1 m2 : BaseMaze} (h1 : Carved m m1) (h2 : Carved m1 m2) :
    Carved m m2 := by
  refine ⟨h1.1.same_trans h2.1, fun r c => ?_⟩
  rcases h2.2 r c with h | ⟨hin, h⟩
  · rw [h]; exact h1.2 r c
  · rw [h1.1.isInMaze] at hin
    exact Or.inr ⟨hin, h⟩

theorem Carved.isPassage_mono {m m1 : BaseMaze} (h : Carved m m1) (r c : Int)
    (hp : m.isPassage r c = true) : m1.isPassage r c = true := by
  rw [isPassage_iff] at hp ⊢
  rw [h.1.isInMaze]
  refine ⟨hp.1, ?_⟩
  rcases h.2 r c with h3 | ⟨-, h3⟩
  · rw [h3]; exact hp.2
  · exact h3

theorem Carved.isWall_anti {m m1 : BaseMaze} (h : Carved m m1) (r c : Int)
    (hp : m1.isWall r c = true) : m.isWall r c = true := by
  rw [isWall_iff] at hp ⊢
  rw [h.1.isInMaze] at hp
  refine ⟨hp.1, ?_⟩
  rcases h.2 r c with h3 | ⟨-, h3⟩
  · rw [← h3]; exact hp.2
  · rw [hp.2] at h3; cases h3

theorem Carved.not_isWall {m m1 : BaseMaze} (h : Carved m m1) (r c : Int)
    (hp : m.isWall r c = false) : m1.isWall r c = false := by
  rw [← Bool.not_eq_true] at hp ⊢
  exact fun h1 => hp (h.isWall_anti r c h1)

theorem Carved.noWall {m m1 : BaseMaze} (h : Carved m m1) (r c : Int) (hp : NoWall m r c) :
    NoWall m1 r c :=
  fun d => h.not_isWall _ _ (hp d)

theorem Carved.interiorWP {m m1 : BaseMaze} (h : Carved m m1) (hp : InteriorWP m) :
    InteriorWP m1 := by
  intro r c hin
  rw [h.1.isInMaze] at hin
  rcases h.2 r c with h3 | ⟨-, h3⟩
  · rw [h3]; exact hp r c hin
  · exact Or.inr h3

theorem passTerm_mono {m m1 : BaseMaze} (h : Carved m m1) (r c : Int) :
    (if m.isPassage r c then 1 else 0) ≤ (if m1.isPassage r c = true then 1 else 0) := by
  by_cases hp : m.isPassage r c = true
  · rw [if_pos hp, if_pos (h.isPassage_mono r c hp)]
  · rw [if_neg hp]
    exact Nat.zero_le _

theorem Carved.passCount_mono {m m1 : BaseMaze} (h : Carved m m1) (row col : Int) :
    passCount m row col ≤ passCount m1 row col := by
  unfold passCount
  have h1 := passTerm_mono h (nb2 row col .UP).1 (nb2 row col .UP).2
  have h2 := passTerm_mono h (nb2 row col .DOWN).1 (nb2 row col .DOWN).2
  have h3 := passTerm_mono h (nb2 row col .LEFT).1 (nb2 row col .LEFT).2
  have h4 := passTerm_mono h (nb2 row col .RIGHT).1 (nb2 row col .RIGHT).2
  omega

theorem Carved.passCount_lt {m m1 : BaseMaze} (h : Carved m m1) (row col : Int) (d : Direction)
    (h0 : m.isPassage (nb2 row col d).1 (nb2 row col d).2 = false)
    (h1 : m1.isPassage (nb2 row col d).1 (nb2 row col d).2 = true) :
    passCount m row col + 1 ≤ passCount m1 row col := by
  unfold passCount
  have k1 := passTerm_mono h (nb2 row col .UP).1 (nb2 row col .UP).2
  have k2 := passTerm_mono h (nb2 row col .DOWN).1 (nb2 row col .DOWN).2
  have k3 := passTerm_mono h (nb2 row col .LEFT).1 (nb2 row col .LEFT).2
  have k4 := passTerm_mono h (nb2 row col .RIGHT).1 (nb2 row col .RIGHT).2
  cases d
  · rw [h0, h1] at *; simp only [Bool.false_eq_true, if_false, if_true] at *; omega
  · rw [h0, h1] at *; simp only [Bool.false_eq_true, if_false, if_true] at *; omega
  · rw [h0, h1] at *; simp only [Bool.false_eq_true, if_false, if_true] at *; omega
  · rw [h0, h1] at *; simp only [Bool.false_eq_true, if_false, if_true] at *; omega

theorem passCount_pos (m : BaseMaze) (row col : Int) (d : Direction)
    (h1 : m.isPassage (nb2 row col d).1 (nb2 row col d).2 = true) : 1 ≤ passCount m row col := by
  unfold passCount
  cases d
  · rw [h1]; simp only [if_true]; omega
  · rw [h1]; simp only [if_true]; omega
  · rw [h1]; simp only [if_true]; omega
  · rw [h1]; simp only [if_true]; omega

theorem Carved.good {m m1 : BaseMaze} (h : Carved m m1) (r c : Int) (hg : Good m r c) :
    Good m1 r c := by
  rcases hg with hg | hg
  · exact Or.inl (h.noWall r c hg)
  · exact Or.inr (hg.trans (h.passCount_mono r c))

theorem mem_wallCells (m : BaseMaze) (p : Int × Int) :
    p ∈ wallCells m ↔ m.isWall p.1 p.2 = true := by
  unfold wallCells
  simp only [Finset.mem_filter, Finset.mem_product, Finset.mem_Ioo, and_iff_right_iff_imp]
  intro h
  have := (isInMaze_iff m p.1 p.2).mp ((isWall_iff m p.1 p.2).mp h).1
  omega

theorem Carved.wallCells_subset {m m1 : BaseMaze} (h : Carved m m1) :
    wallCells m1 ⊆ wallCells m := by
  intro p hp
  rw [mem_wallCells] at hp ⊢
  exact h.isWall_anti _ _ hp

theorem wallCells_card_le (m : BaseMaze) :
    (wallCells m).card ≤ (m.rows - 2).toNat * (m.cols - 2).toNat := by
  unfold wallCells
  refine (Finset.card_filter_le _ _).trans ?_
  rw [Finset.card_product, Int.card_Ioo, Int.card_Ioo]
  have e1 : m.rows - 1 - 0 - 1 = m.rows - 2 := by ring
  have e2 : m.cols - 1 - 0 - 1 = m.cols - 2 := by ring
  rw [e1, e2]

theorem Carved.reach {m m1 : BaseMaze} (h : Carved m m1) {p q : Int × Int}
    (hr : Reach m p q) : Reach m1 p q := by
  induction hr with
  | refl => exact Reach.refl _
  | step _ hadj hpass ih => exact Reach.step ih hadj (h.isPassage_mono _ _ hpass)

/-! ## Carve-Backtrack: one carving step -/

theorem mem_wallDirections (m : BaseMaze) (row col : Int) (d : Direction) :
    d ∈ wallDirections m row col ↔ m.isWall (nb2 row col d).1 (nb2 row col d).2 = true := by
  unfold wallDirections
  rw [nb2_eq]
  cases d <;> simp only [List.mem_append] <;> split_ifs <;> simp_all

theorem getElem?_mod_mem {α : Type} (l : List α) (k : Nat) (hl : l ≠ []) :
    ∃ a, l[k % l.length]? = some a ∧ a ∈ l := by
  have hpos : 0 < l.length := List.length_pos.mpr hl
  have hlt : k % l.length < l.length := Nat.mod_lt _ hpos
  exact ⟨l[k % l.length], List.getElem?_eq_getElem hlt, List.getElem_mem _⟩

theorem getDirection_spec (mt : Nat → Nat) (g : Gen) (row col : Int) :
    (getDirection mt g row col = (none, g) ∧ NoWall g.maze row col) ∨
    ∃ d, getDirection mt g row col = (some d, { g with used := g.used + 1 }) ∧
      g.maze.isWall (nb2 row col d).1 (nb2 row col d).2 = true := by
  unfold getDirection
  simp only
  by_cases hl : wallDirections g.maze row col = []
  · left
    rw [hl]
    refine ⟨rfl, fun d => ?_⟩
    rw [← Bool.not_eq_true, ← mem_wallDirections, hl]
    simp
  · right
    obtain ⟨d, hd, hmem⟩ := getElem?_mod_mem _ (mt g.used) hl
    refine ⟨d, ?_, (mem_wallDirections _ _ _ _).mp hmem⟩
    rw [if_neg (by simpa using hl), hd]

theorem neighbour_between (m : BaseMaze) (row col : Int) (d : Direction)
    (h1 : m.isInMaze row col = true)
    (h2 : m.isInMaze (nb2 row col d).1 (nb2 row col d).2 = true) :
    m.isInMaze (neighbour row col d).1 (neighbour row col d).2 = true := by
  rw [isInMaze_iff] at h1 h2 ⊢
  rw [nb2_eq] at h2
  cases d <;> simp only [neighbour] at h2 ⊢ <;> omega

theorem carve_spec (m : BaseMaze) (row col : Int) (d : Direction) (hm : m.WF)
    (h1 : m.isInMaze row col = true)
    (h2 : m.isInMaze (nb2 row col d).1 (nb2 row col d).2 = true) :
    ∃ m2, carve m row col d = .ok (m2, (nb2 row col d).1, (nb2 row col d).2) ∧ m2.WF ∧
      SameFrame m m2 ∧
      ∀ r c, m2.board.get? r c =
        if (r = (nb2 row col d).1 ∧ c = (nb2 row col d).2) ∨
            (r = (neighbour row col d).1 ∧ c = (neighbour row col d).2)
        then some CellType.PASSAGE else m.board.get? r c := by
  have hmid := (isInMaze_iff _ _ _).mp (neighbour_between m row col d h1 h2)
  have hdest := (isInMaze_iff _ _ _).mp h2
  obtain ⟨m1, e1, wf1, sf1, g1⟩ := setCell_spec m hm (neighbour row col d).1
    (neighbour row col d).2 CellType.PASSAGE (by omega)
  obtain ⟨m2, e2, wf2, sf2, g2⟩ := setCell_spec m1 wf1 (nb2 row col d).1 (nb2 row col d).2
    CellType.PASSAGE (by rw [sf1.1, sf1.2.1]; omega)
  refine ⟨m2, ?_, wf2, sf1.same_trans sf2, fun r c => ?_⟩
  · unfold carve BaseMaze.setPassage
    simp only
    rw [e1]
    simp only
    unfold nb2 at e2
    rw [e2]
    rfl
  · rw [g2, g1]
    split_ifs <;> first | rfl | (exfalso; tauto)

theorem carve_carved (m m2 : BaseMaze) (row col : Int) (d : Direction)
    (h1 : m.isInMaze row col = true)
    (h2 : m.isInMaze (nb2 row col d).1 (nb2 row col d).2 = true) (sf : SameFrame m m2)
    (hg : ∀ r c, m2.board.get? r c =
        if (r = (nb2 row col d).1 ∧ c = (nb2 row col d).2) ∨
            (r = (neighbour row col d).1 ∧ c = (neighbour row col d).2)
        then some CellType.PASSAGE else m.board.get? r c) : Carved m m2 := by
  refine ⟨sf, fun r c => ?_⟩
  rw [hg]
  split_ifs with h
  · right
    refine ⟨?_, rfl⟩
    rcases h with ⟨rfl, rfl⟩ | ⟨rfl, rfl⟩
    · exact h2
    · exact neighbour_between m row col d h1 h2
  · exact Or.inl rfl

theorem adjacent_neighbour_nb2 (row col : Int) (d : Direction) :
    Adjacent (neighbour row col d) (nb2 row col d) := by
  unfold nb2
  exact adjacent_neighbour _ _ d

theorem nb2_parity (row col : Int) (d : Direction) (hr : row % 2 = 1) (hc : col % 2 = 1) :
    (nb2 row col d).1 % 2 = 1 ∧ (nb2 row col d).2 % 2 = 1 ∧
      ¬ ((neighbour row col d).1 % 2 = 1 ∧ (neighbour row col d).2 % 2 = 1) := by
  rw [nb2_eq]
  cases d <;> simp only [neighbour] <;> omega

theorem nb2_opposite (row col : Int) (d : Direction) :
    nb2 (nb2 row col d).1 (nb2 row col d).2 (opposite d) = (row, col) := by
  rw [nb2_eq, nb2_eq]
  cases d <;> simp only [opposite, Prod.mk.injEq, and_true, true_and] <;> omega

/-! ## Carve-Backtrack: the recursion -/

theorem isWall_not_isPassage (m : BaseMaze) (r c : Int) (h : m.isWall r c = true) :
    m.isPassage r c = false := by
  rw [← Bool.not_eq_true, isPassage_iff]
  rw [isWall_iff] at h
  intro hp
  rw [h.2] at hp
  cases hp.2

theorem isPassage_not_isWall (m : BaseMaze) (r c : Int) (h : m.isPassage r c = true) :
    m.isWall r c = false := by
  rw [← Bool.not_eq_true]
  intro hw
  have := isWall_not_isPassage m r c hw
  rw [h] at this
  cases this

theorem getThrougnOK (mt : Nat → Nat) (n : Nat) : GetThrougnOK mt n := by
  induction n with
  | zero => intro g row col _ _ _ _ _ h; exact absurd h (Nat.not_lt_zero _)
  | succ n ih =>
    intro g row col hwf hreach hpass hro hco hcard
    unfold getThrougn
    rcases getDirection_spec mt g row col with ⟨hnone, hnw⟩ | ⟨d, hsome, hwall⟩
    · rw [hnone]
      refine ⟨g, rfl, hwf, Carved.carved_refl _, hreach, Or.inl hnw, fun r c _ _ h1 h2 => ?_⟩
      rw [h1] at h2
      cases h2
    · rw [hsome]
      simp only
      have h1 : g.maze.isInMaze row col = true := ((isPassage_iff _ _ _).mp hpass).1
      have h2 : g.maze.isInMaze (nb2 row col d).1 (nb2 row col d).2 = true :=
        ((isWall_iff _ _ _).mp hwall).1
      obtain ⟨m2, hc, wf2, sf2, g2⟩ := carve_spec g.maze row col d hwf h1 h2
      rw [hc]
      simp only
      have cv2 : Carved g.maze m2 := carve_carved g.maze m2 row col d h1 h2 sf2 g2
      have pdest : m2.isPassage (nb2 row col d).1 (nb2 row col d).2 = true := by
        rw [isPassage_iff, sf2.isInMaze, g2, if_pos (Or.inl ⟨rfl, rfl⟩)]
        exact ⟨h2, rfl⟩
      have pmid : m2.isPassage (neighbour row col d).1 (neighbour row col d).2 = true := by
        rw [isPassage_iff, sf2.isInMaze, g2, if_pos (Or.inr ⟨rfl, rfl⟩)]
        exact ⟨neighbour_between _ _ _ _ h1 h2, rfl⟩
      have rstart : Reach m2 (m2.entryCell.row, m2.entryCell.col) (row, col) := by
        rw [sf2.2.2.1]
        exact cv2.reach (hreach row col hpass)
      have rmid : Reach m2 (m2.entryCell.row, m2.entryCell.col) (neighbour row col d) :=
        Reach.step rstart (adjacent_neighbour row col d) pmid
      have rdest : Reach m2 (m2.entryCell.row, m2.entryCell.col) (nb2 row col d) :=
        Reach.step rmid (adjacent_neighbour_nb2 row col d) pdest
      have reach2 : AllReach m2 := by
        intro r c hp
        by_cases hd : r = (nb2 row col d).1 ∧ c = (nb2 row col d).2
        · rw [hd.1, hd.2]; exact rdest
        by_cases hm : r = (neighbour row col d).1 ∧ c = (neighbour row col d).2
        · rw [hm.1, hm.2]; exact rmid
        · have hp0 : g.maze.isPassage r c = true := by
            rw [isPassage_iff] at hp ⊢
            rw [sf2.isInMaze, g2, if_neg (by tauto)] at hp
            exact hp
          rw [sf2.2.2.1]
          exact cv2.reach (hreach r c hp0)
      have hcard2 : (wallCells m2).card < n := by
        have hss : wallCells m2 ⊂ wallCells g.maze := by
          refine Finset.ssubset_iff_subset_ne.mpr ⟨cv2.wallCells_subset, fun heq => ?_⟩
          have hin : ((nb2 row col d).1, (nb2 row col d).2) ∈ wallCells g.maze :=
            (mem_wallCells _ _).mpr hwall
          rw [← heq, mem_wallCells, isPassage_not_isWall _ _ _ pdest] at hin
          cases hin
        have := Finset.card_lt_card hss
        omega
      have par := nb2_parity row col d hro hco
      obtain ⟨g3, hg3, wf3, cv3, reach3, grow3, good3⟩ :=
        ih ⟨m2, g.used + 1⟩ (nb2 row col d).1 (nb2 row col d).2 wf2 reach2 pdest par.1 par.2.1
          hcard2
      rw [hg3]
      simp only at cv3 grow3 good3 ⊢
      have hcard3 : (wallCells g3.maze).card < n :=
        lt_of_le_of_lt (Finset.card_le_card cv3.wallCells_subset) hcard2
      obtain ⟨g4, hg4, wf4, cv4, reach4, grow4, good4⟩ :=
        ih g3 (nb2 row col d).1 (nb2 row col d).2 wf3 reach3 (cv3.isPassage_mono _ _ pdest)
          par.1 par.2.1 hcard3
      have cv24 : Carved m2 g4.maze := cv3.carved_trans cv4
      refine ⟨g4, hg4, wf4, cv2.carved_trans cv24, reach4, Or.inr ?_, fun r c hr hc hw hn => ?_⟩
      · have := cv2.passCount_lt row col d (isWall_not_isPassage _ _ _ hwall) pdest
        exact this.trans (cv24.passCount_mono row col)
      · by_cases hw2 : m2.isWall r c = true
        · by_cases hw3 : g3.maze.isWall r c = true
          · exact good4 r c hr hc hw3 hn
          · rw [Bool.not_eq_true] at hw3
            exact cv4.good r c (good3 r c hr hc hw2 hw3)
        · -- the cell was carved by this step: it is the destination
          have hdest : r = (nb2 row col d).1 ∧ c = (nb2 row col d).2 := by
            by_contra hne
            have hmidne : ¬ (r = (neighbour row col d).1 ∧ c = (neighbour row col d).2) := by
              rintro ⟨rfl, rfl⟩
              exact par.2.2 ⟨hr, hc⟩
            apply hw2
            rw [isWall_iff] at hw ⊢
            rw [sf2.isInMaze, g2, if_neg (by tauto)]
            exact hw
          rw [hdest.1, hdest.2]
          have hback : m2.isPassage
              (nb2 (nb2 row col d).1 (nb2 row col d).2 (opposite d)).1
              (nb2 (nb2 row col d).1 (nb2 row col d).2 (opposite d)).2 = true := by
            rw [nb2_opposite]
            exact cv2.isPassage_mono _ _ hpass
          have hone := passCount_pos m2 _ _ (opposite d) hback
          rcases grow3 with hnw3 | hgrow3
          · exact Or.inl (cv4.noWall _ _ hnw3)
          · rcases grow4 with hnw4 | hgrow4
            · exact Or.inl hnw4
            · exact Or.inr (by omega)

/-! ## The ring of anchor cells -/

theorem ringCell_onRing (rows cols k : Int) (hr : 5 ≤ rows) (hc : 5 ≤ cols)
    (hro : rows % 2 = 1) (hco : cols % 2 = 1) (hk : 0 ≤ k ∧ k ≤ rows + cols - 6) :
    OnRing rows cols (ringCell rows cols k) := by
  unfold OnRing Lattice ringCell
  split_ifs <;> dsimp only <;> omega

theorem ringCell_wrap (rows cols : Int) (hr : 5 ≤ rows) (hc : 5 ≤ cols) :
    ringCell rows cols (rows + cols - 6) = ringCell rows cols 0 := by
  unfold ringCell
  split_ifs <;> simp only [Prod.mk.injEq] <;> omega

theorem ringCell_surj (rows cols : Int) (x : Int × Int) (hr : 5 ≤ rows) (hc : 5 ≤ cols)
    (hro : rows % 2 = 1) (hco : cols % 2 = 1) (hx : OnRing rows cols x) :
    ∃ k, (0 ≤ k ∧ k < rows + cols - 6) ∧ ringCell rows cols k = x := by
  obtain ⟨x1, x2⟩ := x
  unfold OnRing Lattice at hx
  simp only at hx
  by_cases h1 : x1 = 1
  · refine ⟨(x2 - 1) / 2, by omega, ?_⟩
    unfold ringCell
    rw [if_pos (by omega)]
    simp only [Prod.mk.injEq]
    omega
  by_cases h2 : x2 = cols - 2
  · refine ⟨(cols - 3) / 2 + (x1 - 1) / 2, by omega, ?_⟩
    unfold ringCell
    rw [if_neg (by omega), if_pos (by omega)]
    simp only [Prod.mk.injEq]
    omega
  by_cases h3 : x1 = rows - 2
  · refine ⟨(cols - 3) / 2 + (rows - 3) / 2 + (cols - 2 - x2) / 2, by omega, ?_⟩
    unfold ringCell
    rw [if_neg (by omega), if_neg (by omega), if_pos (by omega)]
    simp only [Prod.mk.injEq]
    omega
  · refine ⟨2 * ((cols - 3) / 2) + (rows - 3) / 2 + (rows - 2 - x1) / 2, by omega, ?_⟩
    unfold ringCell
    rw [if_neg (by omega), if_neg (by omega), if_neg (by omega)]
    simp only [Prod.mk.injEq]
    omega

theorem ringCell_inj (rows cols k k' : Int) (hr : 5 ≤ rows) (hc : 5 ≤ cols)
    (hk : 0 ≤ k ∧ k < rows + cols - 6) (hk' : 0 ≤ k' ∧ k' < rows + cols - 6)
    (h : ringCell rows cols k = ringCell rows cols k') : k = k' := by
  unfold ringCell at h
  split_ifs at h <;> simp only [Prod.mk.injEq] at h <;> omega

theorem ringCell_next (rows cols k : Int) (hr : 5 ≤ rows) (hc : 5 ≤ cols)
    (hro : rows % 2 = 1) (hco : cols % 2 = 1)
    (hk : 0 ≤ k ∧ k < rows + cols - 6) :
    ∃ d, ringCell rows cols (k + 1)
        = nb2 (ringCell rows cols k).1 (ringCell rows cols k).2 d ∧
      ringCell rows cols k
        = nb2 (ringCell rows cols (k + 1)).1 (ringCell rows cols (k + 1)).2 (opposite d) := by
  by_cases h1 : 2 * k + 2 ≤ cols - 3
  · refine ⟨Direction.RIGHT, ?_, ?_⟩ <;>
    · rw [nb2_eq]
      unfold ringCell
      simp only [opposite]
      rw [if_pos (by omega), if_pos (by omega)]
      simp only [Prod.mk.injEq, true_and, and_true]
      omega
  by_cases h2 : 2 * k + 2 ≤ (cols - 3) + (rows - 3)
  · refine ⟨Direction.DOWN, ?_, ?_⟩ <;>
    · rw [nb2_eq]
      unfold ringCell
      simp only [opposite]
      split_ifs <;> simp only [Prod.mk.injEq, true_and, and_true] <;> omega
  by_cases h3 : 2 * k + 2 ≤ 2 * (cols - 3) + (rows - 3)
  · refine ⟨Direction.LEFT, ?_, ?_⟩ <;>
    · rw [nb2_eq]
      unfold ringCell
      simp only [opposite]
      split_ifs <;> simp only [Prod.mk.injEq, true_and, and_true] <;> omega
  · refine ⟨Direction.UP, ?_, ?_⟩ <;>
    · rw [nb2_eq]
      unfold ringCell
      simp only [opposite]
      split_ifs <;> simp only [Prod.mk.injEq, true_and, and_true] <;> omega

theorem ring2_onRing (rows cols k : Int) (hr : 5 ≤ rows) (hc : 5 ≤ cols)
    (hro : rows % 2 = 1) (hco : cols % 2 = 1) (hk : 0 ≤ k ∧ k < 2 * (rows + cols - 6)) :
    OnRing rows cols (ring2 rows cols k) := by
  unfold ring2
  split_ifs
  · exact ringCell_onRing rows cols _ hr hc hro hco (by omega)
  · exact ringCell_onRing rows cols _ hr hc hro hco (by omega)

theorem ring2_next (rows cols k : Int) (hr : 5 ≤ rows) (hc : 5 ≤ cols)
    (hro : rows % 2 = 1) (hco : cols % 2 = 1) (hk : 0 ≤ k ∧ k + 1 < 2 * (rows + cols - 6)) :
    ∃ d, ring2 rows cols (k + 1) = nb2 (ring2 rows cols k).1 (ring2 rows cols k).2 d ∧
      ring2 rows cols k
        = nb2 (ring2 rows cols (k + 1)).1 (ring2 rows cols (k + 1)).2 (opposite d) := by
  unfold ring2
  by_cases h1 : k + 1 < rows + cols - 6
  · rw [if_pos h1, if_pos (by omega)]
    exact ringCell_next rows cols k hr hc hro hco (by omega)
  by_cases h2 : k + 1 = rows + cols - 6
  · rw [if_neg h1, if_pos (by omega)]
    have e : k + 1 - (rows + cols - 6) = 0 := by omega
    rw [e, ← ringCell_wrap rows cols hr hc, ← h2]
    exact ringCell_next rows cols k hr hc hro hco (by omega)
  · rw [if_neg h1, if_neg (by omega)]
    have e : k + 1 - (rows + cols - 6) = k - (rows + cols - 6) + 1 := by ring
    rw [e]
    exact ringCell_next rows cols _ hr hc hro hco (by omega)

theorem ring2_ne (rows cols te j : Int) (hr : 5 ≤ rows) (hc : 5 ≤ cols)
    (hte : 0 ≤ te ∧ te < rows + cols - 6) (hj : 0 < j ∧ j < rows + cols - 6) :
    ring2 rows cols (te + j) ≠ ringCell rows cols te := by
  unfold ring2
  intro h
  split_ifs at h
  · have := ringCell_inj rows cols _ _ hr hc (by omega) hte h
    omega
  · have := ringCell_inj rows cols _ _ hr hc (by omega) hte h
    omega

/-- Walking round the ring: a property that holds at one ring cell other than the
entry anchor, and that passes from every ring cell other than the entry
anchor to the lattice cells two steps away, holds on the whole ring. -/
theorem ring_walk (rows cols : Int) (hr : 5 ≤ rows) (hc : 5 ≤ cols)
    (hro : rows % 2 = 1) (hco : cols % 2 = 1) (P : Int × Int → Prop) (e : Int × Int)
    (hclos : ∀ q d, OnRing rows cols q → q ≠ e → P q →
      Lattice rows cols (nb2 q.1 q.2 d) → P (nb2 q.1 q.2 d))
    (he : OnRing rows cols e)
    (q0 : Int × Int) (hq0 : OnRing rows cols q0) (hne : q0 ≠ e) (hP0 : P q0) :
    ∀ x, OnRing rows cols x → P x := by
  obtain ⟨te, hte, hcell⟩ := ringCell_surj rows cols e hr hc hro hco he
  obtain ⟨t0, ht0, hcell0⟩ := ringCell_surj rows cols q0 hr hc hro hco hq0
  -- the position of `q0` on the lap that starts at the entry anchor
  have hj0 : ∃ j0, (0 < j0 ∧ j0 < rows + cols - 6) ∧ ring2 rows cols (te + j0) = q0 := by
    have hne' : t0 ≠ te := by
      rintro rfl
      exact hne (hcell0.symm.trans hcell)
    by_cases h : te < t0
    · refine ⟨t0 - te, by omega, ?_⟩
      unfold ring2
      rw [if_pos (by omega), show te + (t0 - te) = t0 by ring]
      exact hcell0
    · refine ⟨t0 + (rows + cols - 6) - te, by omega, ?_⟩
      unfold ring2
      rw [if_neg (by omega),
        show te + (t0 + (rows + cols - 6) - te) - (rows + cols - 6) = t0 by ring]
      exact hcell0
  obtain ⟨j0, hj0, hq⟩ := hj0
  have step : ∀ j, 0 < j ∧ j < rows + cols - 6 → P (ring2 rows cols (te + j)) →
      P (ring2 rows cols (te + j + 1)) ∧ P (ring2 rows cols (te + j - 1)) := by
    intro j hj hP
    have hon := ring2_onRing rows cols (te + j) hr hc hro hco (by omega)
    have hnee : ring2 rows cols (te + j) ≠ e := by
      rw [← hcell]; exact ring2_ne rows cols te j hr hc hte hj
    constructor
    · obtain ⟨d, hd, -⟩ := ring2_next rows cols (te + j) hr hc hro hco (by omega)
      rw [hd]
      refine hclos _ d hon hnee hP ?_
      rw [← hd]
      exact (ring2_onRing rows cols (te + j + 1) hr hc hro hco (by omega)).1
    · obtain ⟨d, -, hd⟩ := ring2_next rows cols (te + j - 1) hr hc hro hco (by omega)
      rw [show te + j - 1 + 1 = te + j by ring] at hd
      rw [hd]
      refine hclos _ _ hon hnee hP ?_
      rw [← hd]
      exact (ring2_onRing rows cols (te + j - 1) hr hc hro hco (by omega)).1
  have fwd : ∀ i : Nat, j0 + i ≤ rows + cols - 6 → P (ring2 rows cols (te + (j0 + i))) := by
    intro i
    induction i with
    | zero =>
      intro _
      simp only [Nat.cast_zero, add_zero]
      rw [hq]; exact hP0
    | succ i ih =>
      intro hle
      push_cast at hle ⊢
      have := (step (j0 + i) (by omega) (ih (by omega))).1
      rw [show te + (j0 + i) + 1 = te + (j0 + (i + 1)) by ring] at this
      exact this
  have bwd : ∀ i : Nat, (i : Int) ≤ j0 → P (ring2 rows cols (te + (j0 - i))) := by
    intro i
    induction i with
    | zero =>
      intro _
      simp only [Nat.cast_zero, sub_zero]
      rw [hq]; exact hP0
    | succ i ih =>
      intro hle
      push_cast at hle ⊢
      have := (step (j0 - i) (by omega) (ih (by omega))).2
      rw [show te + (j0 - i) - 1 = te + (j0 - (i + 1)) by ring] at this
      exact this
  have hall : ∀ j, 0 ≤ j ∧ j ≤ rows + cols - 6 → P (ring2 rows cols (te + j)) := by
    intro j hj
    by_cases h : j0 ≤ j
    · have := fwd (j - j0).toNat (by omega)
      rwa [Int.toNat_of_nonneg (by omega), show j0 + (j - j0) = j by ring] at this
    · have := bwd (j0 - j).toNat (by omega)
      rwa [Int.toNat_of_nonneg (by omega), show j0 - (j0 - j) = j by ring] at this
  intro x hx
  obtain ⟨tx, htx, hcellx⟩ := ringCell_surj rows cols x hr hc hro hco hx
  by_cases h : te ≤ tx
  · have := hall (tx - te) (by omega)
    unfold ring2 at this
    rwa [if_pos (by omega), show te + (tx - te) = tx by ring, hcellx] at this
  · have := hall (tx + (rows + cols - 6) - te) (by omega)
    unfold ring2 at this
    rwa [if_neg (by omega),
      show te + (tx + (rows + cols - 6) - te) - (rows + cols - 6) = tx by ring, hcellx] at this

theorem nb2_shift (a : Int × Int) (d : Direction) (k : Int) :
    nb2 (shift a d k).1 (shift a d k).2 d = shift a d (k + 1) := by
  rw [nb2_eq]
  cases d <;> simp only [shift, Prod.mk.injEq, true_and, and_true] <;> omega

theorem shift_one (a : Int × Int) (d : Direction) : shift a d 1 = nb2 a.1 a.2 d := by
  rw [nb2_eq]
  cases d <;> simp only [shift, Prod.mk.injEq, true_and, and_true] <;> omega

theorem nb2_ne (r c : Int) (d : Direction) : nb2 r c d ≠ (r, c) := by
  rw [nb2_eq]
  cases d <;> simp only [ne_eq, Prod.mk.injEq, true_and, and_true] <;> omega

/-- Walking along the line next to the entry anchor's edge: from a carved cell on
that line, either the walk meets a carved ring cell beside it, or it reaches the
ring at the end of the line. -/
theorem side_walk (rows cols : Int) (P : Int × Int → Prop) (e : Int × Int)
    (hG : ∀ (q : Int × Int) (d0 : Direction), q ≠ e → P q → ¬ P (nb2 q.1 q.2 d0) →
      ∀ d', d' ≠ d0 → Lattice rows cols (nb2 q.1 q.2 d') → P (nb2 q.1 q.2 d'))
    (a : Int × Int) (dS dU : Direction) (hd : dS ≠ dU) (n : Int) (hn : 1 ≤ n)
    (h1 : P (shift a dS 1))
    (hmid : ∀ k : Int, 1 ≤ k → k < n →
      shift a dS k ≠ e ∧ OnRing rows cols (nb2 (shift a dS k).1 (shift a dS k).2 dU) ∧
        nb2 (shift a dS k).1 (shift a dS k).2 dU ≠ e ∧ Lattice rows cols (shift a dS (k + 1)))
    (hend : OnRing rows cols (shift a dS n) ∧ shift a dS n ≠ e) :
    ∃ q, OnRing rows cols q ∧ q ≠ e ∧ P q := by
  have key : ∀ i : Nat, 1 + (i : Int) ≤ n →
      P (shift a dS (1 + i)) ∨ ∃ q, OnRing rows cols q ∧ q ≠ e ∧ P q := by
    intro i
    induction i with
    | zero => intro _; left; simpa using h1
    | succ i ih =>
      intro hle
      push_cast at hle ⊢
      rcases ih (by omega) with hP | hfound
      · obtain ⟨m1, m2, m3, m4⟩ := hmid (1 + i) (by omega) (by omega)
        by_cases hu : P (nb2 (shift a dS (1 + i)).1 (shift a dS (1 + i)).2 dU)
        · exact Or.inr ⟨_, m2, m3, hu⟩
        · left
          have := hG _ dU m1 hP hu dS hd (by rw [nb2_shift]; exact m4)
          rw [nb2_shift] at this
          rw [show 1 + ((i : Int) + 1) = 1 + i + 1 by ring]
          exact this
      · exact Or.inr hfound
  rcases key (n - 1).toNat (by omega) with hP | hfound
  · rw [Int.toNat_of_nonneg (by omega), show 1 + (n - 1) = n by ring] at hP
    exact ⟨_, hend.1, hend.2, hP⟩
  · exact hfound

theorem ring_closure (rows cols : Int) (P : Int × Int → Prop) (e : Int × Int)
    (hlat : ∀ q, P q → Lattice rows cols q)
    (hG : ∀ (q : Int × Int) (d0 : Direction), q ≠ e → P q → ¬ P (nb2 q.1 q.2 d0) →
      ∀ d', d' ≠ d0 → Lattice rows cols (nb2 q.1 q.2 d') → P (nb2 q.1 q.2 d'))
    (q : Int × Int) (d : Direction) (hq : OnRing rows cols q) (hne : q ≠ e) (hP : P q)
    (hL : Lattice rows cols (nb2 q.1 q.2 d)) : P (nb2 q.1 q.2 d) := by
  have hout : ∃ d0, ¬ Lattice rows cols (nb2 q.1 q.2 d0) := by
    unfold OnRing Lattice at hq
    rcases hq.2 with h | h | h | h
    · exact ⟨Direction.UP, by rw [nb2_eq]; unfold Lattice; dsimp only; omega⟩
    · exact ⟨Direction.DOWN, by rw [nb2_eq]; unfold Lattice; dsimp only; omega⟩
    · exact ⟨Direction.LEFT, by rw [nb2_eq]; unfold Lattice; dsimp only; omega⟩
    · exact ⟨Direction.RIGHT, by rw [nb2_eq]; unfold Lattice; dsimp only; omega⟩
  obtain ⟨d0, hd0⟩ := hout
  by_cases hdd : d = d0
  · rw [hdd] at hL
    exact absurd hL hd0
  · exact hG q d0 hne hP (fun h => hd0 (hlat _ h)) d hdd hL

/-- Some ring cell other than the entry anchor is carved. -/
theorem ring_found (rows cols : Int) (hr : 5 ≤ rows) (hc : 5 ≤ cols)
    (hro : rows % 2 = 1) (hco : cols % 2 = 1) (P : Int × Int → Prop) (e : Int × Int)
    (he : OnRing rows cols e) (hlat : ∀ q, P q → Lattice rows cols q)
    (hG : ∀ (q : Int × Int) (d0 : Direction), q ≠ e → P q → ¬ P (nb2 q.1 q.2 d0) →
      ∀ d', d' ≠ d0 → Lattice rows cols (nb2 q.1 q.2 d') → P (nb2 q.1 q.2 d'))
    (hchild : ∃ d, P (nb2 e.1 e.2 d)) :
    ∃ q, OnRing rows cols q ∧ q ≠ e ∧ P q := by
  obtain ⟨d1, hc1⟩ := hchild
  have hL1 := hlat _ hc1
  have hne1 : nb2 e.1 e.2 d1 ≠ e := nb2_ne e.1 e.2 d1
  by_cases hring : OnRing rows cols (nb2 e.1 e.2 d1)
  · exact ⟨_, hring, hne1, hc1⟩
  obtain ⟨e1, e2⟩ := e
  have he' := he
  unfold OnRing Lattice at he' hring
  unfold Lattice at hL1
  simp only at he' hring hL1 hc1 hne1
  -- the two cells beside `nb2 e d1` along the edge: one of them is carved
  have hside : ∀ dS dS' : Direction, dS' ≠ dS →
      Lattice rows cols (nb2 (nb2 e1 e2 d1).1 (nb2 e1 e2 d1).2 dS') →
      P (nb2 (nb2 e1 e2 d1).1 (nb2 e1 e2 d1).2 dS) ∨
        P (nb2 (nb2 e1 e2 d1).1 (nb2 e1 e2 d1).2 dS') := by
    intro dS dS' hd hL
    by_cases hP : P (nb2 (nb2 e1 e2 d1).1 (nb2 e1 e2 d1).2 dS)
    · exact Or.inl hP
    · exact Or.inr (hG _ dS hne1 hc1 hP dS' hd hL)
  cases d1 with
  | DOWN =>
    rw [nb2_eq] at hring hL1 hside hc1
    simp only at hring hL1 hside hc1
    rcases hside .RIGHT .LEFT (by decide)
      (by rw [nb2_eq]; unfold Lattice; dsimp only; omega) with h | h
    · refine side_walk rows cols P (e1, e2) hG (e1 + 2, e2) .RIGHT .UP (by decide)
        ((cols - 2 - e2) / 2) (by omega) (by rw [shift_one]; exact h) (fun k k1 k2 => ?_) ?_
      · simp only [shift, nb2_eq, OnRing, Lattice, ne_eq, Prod.mk.injEq]; omega
      · simp only [shift, OnRing, Lattice, ne_eq, Prod.mk.injEq]; omega
    · refine side_walk rows cols P (e1, e2) hG (e1 + 2, e2) .LEFT .UP (by decide)
        ((e2 - 1) / 2) (by omega) (by rw [shift_one]; exact h) (fun k k1 k2 => ?_) ?_
      · simp only [shift, nb2_eq, OnRing, Lattice, ne_eq, Prod.mk.injEq]; omega
      · simp only [shift, OnRing, Lattice, ne_eq, Prod.mk.injEq]; omega
  | UP =>
    rw [nb2_eq] at hring hL1 hside hc1
    simp only at hring hL1 hside hc1
    rcases hside .RIGHT .LEFT (by decide)
      (by rw [nb2_eq]; unfold Lattice; dsimp only; omega) with h | h
    · refine side_walk rows cols P (e1, e2) hG (e1 - 2, e2) .RIGHT .DOWN (by decide)
        ((cols - 2 - e2) / 2) (by omega) (by rw [shift_one]; exact h) (fun k k1 k2 => ?_) ?_
      · simp only [shift, nb2_eq, OnRing, Lattice, ne_eq, Prod.mk.injEq]; omega
      · simp only [shift, OnRing, Lattice, ne_eq, Prod.mk.injEq]; omega
    · refine side_walk rows cols P (e1, e2) hG (e1 - 2, e2) .LEFT .DOWN (by decide)
        ((e2 - 1) / 2) (by omega) (by rw [shift_one]; exact h) (fun k k1 k2 => ?_) ?_
      · simp only [shift, nb2_eq, OnRing, Lattice, ne_eq, Prod.mk.injEq]; omega
      · simp only [shift, OnRing, Lattice, ne_eq, Prod.mk.injEq]; omega
  | RIGHT =>
    rw [nb2_eq] at hring hL1 hside hc1
    simp only at hring hL1 hside hc1
    rcases hside .DOWN .UP (by decide)
      (by rw [nb2_eq]; unfold Lattice; dsimp only; omega) with h | h
    · refine side_walk rows cols P (e1, e2) hG (e1, e2 + 2) .DOWN .LEFT (by decide)
        ((rows - 2 - e1) / 2) (by omega) (by rw [shift_one]; exact h) (fun k k1 k2 => ?_) ?_
      · simp only [shift, nb2_eq, OnRing, Lattice, ne_eq, Prod.mk.injEq]; omega
      · simp only [shift, OnRing, Lattice, ne_eq, Prod.mk.injEq]; omega
    · refine side_walk rows cols P (e1, e2) hG (e1, e2 + 2) .UP .LEFT (by decide)
        ((e1 - 1) / 2) (by omega) (by rw [shift_one]; exact h) (fun k k1 k2 => ?_) ?_
      · simp only [shift, nb2_eq, OnRing, Lattice, ne_eq, Prod.mk.injEq]; omega
      · simp only [shift, OnRing, Lattice, ne_eq, Prod.mk.injEq]; omega
  | LEFT =>
    rw [nb2_eq] at hring hL1 hside hc1
    simp only at hring hL1 hside hc1
    rcases hside .DOWN .UP (by decide)
      (by rw [nb2_eq]; unfold Lattice; dsimp only; omega) with h | h
    · refine side_walk rows cols P (e1, e2) hG (e1, e2 - 2) .DOWN .RIGHT (by decide)
        ((rows - 2 - e1) / 2) (by omega) (by rw [shift_one]; exact h) (fun k k1 k2 => ?_) ?_
      · simp only [shift, nb2_eq, OnRing, Lattice, ne_eq, Prod.mk.injEq]; omega
      · simp only [shift, OnRing, Lattice, ne_eq, Prod.mk.injEq]; omega
    · refine side_walk rows cols P (e1, e2) hG (e1, e2 - 2) .UP .RIGHT (by decide)
        ((e1 - 1) / 2) (by omega) (by rw [shift_one]; exact h) (fun k k1 k2 => ?_) ?_
      · simp only [shift, nb2_eq, OnRing, Lattice, ne_eq, Prod.mk.injEq]; omega
      · simp only [shift, OnRing, Lattice, ne_eq, Prod.mk.injEq]; omega

/-- Every ring cell is carved, given what two examinations of every carved cell
other than the entry anchor, and one of the entry anchor, leave behind. -/
theorem ring_all (rows cols : Int) (hr : 5 ≤ rows) (hc : 5 ≤ cols)
    (hro : rows % 2 = 1) (hco : cols % 2 = 1) (P : Int × Int → Prop) (e : Int × Int)
    (he : OnRing rows cols e) (hlat : ∀ q, P q → Lattice rows cols q)
    (hG : ∀ (q : Int × Int) (d0 : Direction), q ≠ e → P q → ¬ P (nb2 q.1 q.2 d0) →
      ∀ d', d' ≠ d0 → Lattice rows cols (nb2 q.1 q.2 d') → P (nb2 q.1 q.2 d'))
    (hchild : ∃ d, P (nb2 e.1 e.2 d)) :
    ∀ x, OnRing rows cols x → P x := by
  obtain ⟨q0, h1, h2, h3⟩ := ring_found rows cols hr hc hro hco P e he hlat hG hchild
  exact ring_walk rows cols hr hc hro hco P e
    (fun q d hq hne hP hL => ring_closure rows cols P e hlat hG q d hq hne hP hL) he q0 h1 h2 h3

/-! ## Carve-Backtrack: the generated maze -/

theorem reach_trans {m : BaseMaze} {p q r : Int × Int} (h1 : Reach m p q) (h2 : Reach m q r) :
    Reach m p r := by
  induction h2 with
  | refl => exact h1
  | step _ hadj hpass ih => exact Reach.step ih hadj hpass

theorem reach_isPassage {m : BaseMaze} {p q : Int × Int} (h : Reach m p q)
    (hp : m.isPassage p.1 p.2 = true) : m.isPassage q.1 q.2 = true := by
  induction h with
  | refl => exact hp
  | step _ _ hpass _ => exact hpass

theorem reach_symm {m : BaseMaze} {p q : Int × Int} (h : Reach m p q)
    (hp : m.isPassage p.1 p.2 = true) : Reach m q p := by
  induction h with
  | refl => exact Reach.refl p
  | step hpq hadj _ ih =>
    exact reach_trans (Reach.step (Reach.refl _) (adjacent_symm hadj) (reach_isPassage hpq hp)) ih

theorem passCount_three (m : BaseMaze) (r c : Int) (d0 d' : Direction)
    (h : 3 ≤ passCount m r c)
    (h0 : m.isPassage (nb2 r c d0).1 (nb2 r c d0).2 = false) (hne : d' ≠ d0) :
    m.isPassage (nb2 r c d').1 (nb2 r c d').2 = true := by
  by_contra h1
  rw [Bool.not_eq_true] at h1
  unfold passCount at h
  cases d0 <;> cases d' <;> first
    | exact hne rfl
    | (rw [h0, h1] at h
       simp only [Bool.false_eq_true, if_false] at h
       split_ifs at h <;> omega)

theorem passCount_exists (m : BaseMaze) (r c : Int) (h : 1 ≤ passCount m r c) :
    ∃ d, m.isPassage (nb2 r c d).1 (nb2 r c d).2 = true := by
  by_contra hno
  have hf : ∀ d, m.isPassage (nb2 r c d).1 (nb2 r c d).2 = false := by
    intro d
    by_contra hd
    rw [Bool.not_eq_false] at hd
    exact hno ⟨d, hd⟩
  unfold passCount at h
  rw [hf .UP, hf .DOWN, hf .LEFT, hf .RIGHT] at h
  simp at h

/-- What `MainRoadMaze` returns, for anchors that `upsetEndPoint` can draw: the
board is carved out of walls, every `PASSAGE` cell is reachable from the entry
anchor, and every lattice cell on the four inner edges is `PASSAGE`. -/
theorem mainRoadMaze_spec (rows cols : Int) (entry exit : Cell) (mt : Nat → Nat) (fuel : Nat)
    (hr : 5 ≤ rows) (hc : 5 ≤ cols) (hro : rows % 2 = 1) (hco : cols % 2 = 1)
    (he : ValidAnchor rows cols entry) (hx : ValidAnchor rows cols exit)
    (hfuel : (rows - 2).toNat * (cols - 2).toNat < fuel) :
    ∃ g, mainRoadMaze rows cols entry exit mt fuel = .ok g ∧ g.maze.WF ∧
      g.maze.rows = rows ∧ g.maze.cols = cols ∧ g.maze.entryCell = entry ∧
      g.maze.exportCell = exit ∧ InteriorWP g.maze ∧ AllReach g.maze ∧
      g.maze.isPassage entry.row entry.col = true ∧
      ∀ x, OnRing rows cols x → g.maze.isPassage x.1 x.2 = true := by
  obtain ⟨m, hnew, wf, mr, mc, men, mex, hint⟩ :=
    newMaze_interior rows cols entry exit CellType.WALL he hx
  have hv := he.1
  obtain ⟨m1, h1, wf1, sf1, g1⟩ := setCell_spec m wf entry.row entry.col CellType.PASSAGE
    (by rw [mr, mc]; omega)
  have m1r : m1.rows = rows := sf1.1.trans mr
  have m1c : m1.cols = cols := sf1.2.1.trans mc
  have m1e : m1.entryCell = entry := sf1.2.2.1.trans men
  have m1x : m1.exportCell = exit := sf1.2.2.2.trans mex
  have pass1 : m1.isPassage entry.row entry.col = true :=
    isPassage_of_get? _ _ _ (by rw [m1r, m1c]; exact hv) (by rw [g1, if_pos ⟨rfl, rfl⟩])
  have wp1 : InteriorWP m1 := by
    intro r c hin
    rw [isInMaze_iff, m1r, m1c] at hin
    rw [g1]
    split_ifs
    · exact Or.inr rfl
    · exact Or.inl (hint r c hin.1 hin.2.1 hin.2.2.1 hin.2.2.2)
  have reach1 : AllReach m1 := by
    intro r c hp
    rw [isPassage_iff, isInMaze_iff, m1r, m1c, g1] at hp
    by_cases hrc : r = entry.row ∧ c = entry.col
    · rw [hrc.1, hrc.2, m1e]; exact Reach.refl _
    · rw [if_neg hrc, hint r c hp.1.1 hp.1.2.1 hp.1.2.2.1 hp.1.2.2.2] at hp
      cases hp.2
  have hcard : (wallCells m1).card < fuel := by
    have := wallCells_card_le m1
    rw [m1r, m1c] at this
    omega
  obtain ⟨g, hg, wfg, cv, reachg, grow, good⟩ :=
    getThrougnOK mt fuel ⟨m1, 0⟩ entry.row entry.col wf1 reach1 pass1 he.2.2.1 he.2.2.2 hcard
  simp only at cv grow good
  have gr : g.maze.rows = rows := cv.1.1.trans m1r
  have gc : g.maze.cols = cols := cv.1.2.1.trans m1c
  have gen : g.maze.entryCell = entry := cv.1.2.2.1.trans m1e
  have gex : g.maze.exportCell = exit := cv.1.2.2.2.trans m1x
  have wpg : InteriorWP g.maze := cv.interiorWP wp1
  have passg : g.maze.isPassage entry.row entry.col = true := cv.isPassage_mono _ _ pass1
  have hmain : mainRoadMaze rows cols entry exit mt fuel = .ok g := by
    unfold mainRoadMaze
    rw [hnew]
    simp only
    unfold mainRoadGenerate
    simp only
    rw [men]
    unfold BaseMaze.setPassage
    rw [h1]
    exact hg
  -- a lattice cell that is not a wall is a passage
  have hwp : ∀ q : Int × Int, Lattice rows cols q → g.maze.isWall q.1 q.2 = false →
      g.maze.isPassage q.1 q.2 = true := by
    intro q hq hw
    have hin : g.maze.isInMaze q.1 q.2 = true := by
      rw [isInMaze_iff, gr, gc]; exact ⟨hq.1, hq.2.1, hq.2.2.1, hq.2.2.2.1⟩
    rcases wpg q.1 q.2 hin with h | h
    · have : g.maze.isWall q.1 q.2 = true := (isWall_iff _ _ _).mpr ⟨hin, h⟩
      rw [hw] at this
      cases this
    · exact (isPassage_iff _ _ _).mpr ⟨hin, h⟩
  have hring := ring_all rows cols hr hc hro hco
    (fun q => g.maze.isPassage q.1 q.2 = true ∧ q.1 % 2 = 1 ∧ q.2 % 2 = 1)
    (entry.row, entry.col)
    ⟨⟨hv.1, hv.2.1, hv.2.2.1, hv.2.2.2, he.2.2.1, he.2.2.2⟩, he.2.1⟩
    (fun q hq => by
      have := (isInMaze_iff _ _ _).mp ((isPassage_iff _ _ _).mp hq.1).1
      rw [gr, gc] at this
      exact ⟨this.1, this.2.1, this.2.2.1, this.2.2.2, hq.2.1, hq.2.2⟩)
    (fun q d0 hne hq hnq d' hd' hL => by
      have par := nb2_parity q.1 q.2 d' hq.2.1 hq.2.2
      refine ⟨?_, par.1, par.2.1⟩
      have hin := (isInMaze_iff _ _ _).mp ((isPassage_iff _ _ _).mp hq.1).1
      rw [gr, gc] at hin
      have hw1 : m1.isWall q.1 q.2 = true := by
        rw [isWall_iff, isInMaze_iff, m1r, m1c, g1]
        refine ⟨hin, ?_⟩
        rw [if_neg (fun h => hne (Prod.ext h.1 h.2))]
        exact hint q.1 q.2 hin.1 hin.2.1 hin.2.2.1 hin.2.2.2
      have hgood := good q.1 q.2 hq.2.1 hq.2.2 hw1 (isPassage_not_isWall _ _ _ hq.1)
      rcases hgood with hnw | h3
      · exact hwp _ hL (hnw d')
      · have par0 := nb2_parity q.1 q.2 d0 hq.2.1 hq.2.2
        have h0 : g.maze.isPassage (nb2 q.1 q.2 d0).1 (nb2 q.1 q.2 d0).2 = false := by
          by_contra hc0
          rw [Bool.not_eq_false] at hc0
          exact hnq ⟨hc0, par0.1, par0.2.1⟩
        exact passCount_three _ _ _ d0 d' h3 h0 hd')
    (by
      rcases grow with hnw | hgrow
      · by_cases h1r : entry.row = 1
        · refine ⟨.DOWN, ?_⟩
          have par := nb2_parity entry.row entry.col .DOWN he.2.2.1 he.2.2.2
          refine ⟨hwp _ ?_ (hnw .DOWN), par.1, par.2.1⟩
          have := par.1
          have := par.2.1
          simp only [nb2_eq] at *
          unfold Lattice
          simp only
          omega
        · refine ⟨.UP, ?_⟩
          have par := nb2_parity entry.row entry.col .UP he.2.2.1 he.2.2.2
          refine ⟨hwp _ ?_ (hnw .UP), par.1, par.2.1⟩
          have := par.1
          have := par.2.1
          have := he.2.2.1
          simp only [nb2_eq] at *
          unfold Lattice
          simp only
          omega
      · obtain ⟨d, hd⟩ := passCount_exists g.maze entry.row entry.col (by omega)
        have par := nb2_parity entry.row entry.col d he.2.2.1 he.2.2.2
        exact ⟨d, hd, par.1, par.2.1⟩)
  exact ⟨g, hmain, wfg, gr, gc, gen, gex, wpg, reachg, passg, fun x hx => (hring x hx).1⟩

/-- C3. For odd `rows, cols ≥ 5`, anchors that `upsetEndPoint` can draw and every
random stream, `MainRoadMaze` returns a maze (with fuel above the number of
interior cells) whose entry and exit anchors are `PASSAGE`, in which every interior
`PASSAGE` cell is reachable from the entry anchor, and any two `PASSAGE` cells from
one another, through 4-adjacent `PASSAGE` cells; so the solver, given fuel above the
number of interior cells, finds the exit. -/
theorem mainRoadMaze_connected (rows cols : Int) (entry exit : Cell) (mt : Nat → Nat)
    (fuel : Nat) (hr : 5 ≤ rows) (hc : 5 ≤ cols) (hro : rows % 2 = 1) (hco : cols % 2 = 1)
    (he : ValidAnchor rows cols entry) (hx : ValidAnchor rows cols exit)
    (hfuel : (rows - 2).toNat * (cols - 2).toNat < fuel) :
    ∃ g, mainRoadMaze rows cols entry exit mt fuel = .ok g ∧
      g.maze.isPassage entry.row entry.col = true ∧
      g.maze.isPassage exit.row exit.col = true ∧
      (∀ r c, g.maze.isPassage r c = true → Reach g.maze (entry.row, entry.col) (r, c)) ∧
      (∀ p q : Int × Int, g.maze.isPassage p.1 p.2 = true → g.maze.isPassage q.1 q.2 = true →
        Reach g.maze p q) ∧
      ∀ fuel2, (rows - 2).toNat * (cols - 2).toNat < fuel2 →
        ∃ st, travelMaze fuel2 g.maze = .ok (true, st) := by
  obtain ⟨g, hg, wf, gr, gc, gen, gex, -, hreach, hentry, hring⟩ :=
    mainRoadMaze_spec rows cols entry exit mt fuel hr hc hro hco he hx hfuel
  have hexit : g.maze.isPassage exit.row exit.col = true :=
    hring (exit.row, exit.col)
      ⟨⟨hx.1.1, hx.1.2.1, hx.1.2.2.1, hx.1.2.2.2, hx.2.2.1, hx.2.2.2⟩, hx.2.1⟩
  have hfrom : ∀ r c, g.maze.isPassage r c = true →
      Reach g.maze (entry.row, entry.col) (r, c) := by
    intro r c hp
    have := hreach r c hp
    rw [gen] at this
    exact this
  refine ⟨g, hg, hentry, hexit, hfrom, fun p q hp hq => ?_, fun fuel2 hf2 => ?_⟩
  · exact reach_trans (reach_symm (hfrom p.1 p.2 hp) hentry) (hfrom q.1 q.2 hq)
  · have hre : Reach g.maze (entry.row, entry.col) (exitCell g.maze) := by
      unfold exitCell
      rw [gex]
      exact hfrom _ _ hexit
    have hinm := (isInMaze_iff _ _ _).mp ((isPassage_iff _ _ _).mp hentry).1
    have := travel_reaches fuel2 ⟨g.maze, []⟩ entry.row entry.col wf (by simp only; omega)
      (by simp only; rw [gr, gc]; exact hf2) hre
    unfold travelMaze
    rw [gen]
    exact this

/-- Witness for C3: a 5 × 5 grid with the anchors `(1, 1)` and `(3, 3)`, the
constant random stream and fuel 10. -/
theorem mainRoadMaze_connected_witness :
    ∃ g, mainRoadMaze 5 5 ⟨1, 1, .ENTRY⟩ ⟨3, 3, .EXPORT⟩ (fun _ => 0) 10 = .ok g ∧
      g.maze.isPassage 1 1 = true ∧ g.maze.isPassage 3 3 = true ∧
      (∀ r c, g.maze.isPassage r c = true → Reach g.maze (1, 1) (r, c)) ∧
      (∀ p q : Int × Int, g.maze.isPassage p.1 p.2 = true → g.maze.isPassage q.1 q.2 = true →
        Reach g.maze p q) ∧
      ∀ fuel2, ((5 : Int) - 2).toNat * ((5 : Int) - 2).toNat < fuel2 →
        ∃ st, travelMaze fuel2 g.maze = .ok (true, st) :=
  mainRoadMaze_connected 5 5 ⟨1, 1, .ENTRY⟩ ⟨3, 3, .EXPORT⟩ (fun _ => 0) 10 (by decide)
    (by decide) (by decide) (by decide) (by decide) (by decide) (by decide)

/-! ## Carve-Backtrack: counting the carving steps -/

theorem mem_latticeWalls (m : BaseMaze) (p : Int × Int) :
    p ∈ latticeWalls m ↔ m.isWall p.1 p.2 = true ∧ p.1 % 2 = 1 ∧ p.2 % 2 = 1 := by
  unfold latticeWalls
  rw [Finset.mem_filter, mem_wallCells]

theorem latticeWalls_card_le (m : BaseMaze) :
    (latticeWalls m).card ≤ latticeSize m.rows m.cols := by
  unfold latticeSize
  rw [← Finset.card_range ((m.rows - 1) / 2).toNat, ← Finset.card_range ((m.cols - 1) / 2).toNat,
    ← Finset.card_product]
  refine Finset.card_le_card_of_injOn (fun p => (((p.1 - 1) / 2).toNat, ((p.2 - 1) / 2).toNat))
    (fun p hp => ?_) (fun p hp q hq h => ?_)
  · have hp := (mem_latticeWalls m p).mp (Finset.mem_coe.mp hp)
    have hin := (isInMaze_iff _ _ _).mp ((isWall_iff _ _ _).mp hp.1).1
    simp only [Finset.mem_product, Finset.mem_range]
    omega
  · have hp := (mem_latticeWalls m p).mp (Finset.mem_coe.mp hp)
    have hq := (mem_latticeWalls m q).mp (Finset.mem_coe.mp hq)
    have hinp := (isInMaze_iff _ _ _).mp ((isWall_iff _ _ _).mp hp.1).1
    have hinq := (isInMaze_iff _ _ _).mp ((isWall_iff _ _ _).mp hq.1).1
    simp only [Prod.mk.injEq] at h
    refine Prod.ext ?_ ?_ <;> omega

theorem Carved.latticeWalls_subset {m m1 : BaseMaze} (h : Carved m m1) :
    latticeWalls m1 ⊆ latticeWalls m := by
  intro p hp
  rw [mem_latticeWalls] at hp ⊢
  exact ⟨h.isWall_anti _ _ hp.1, hp.2⟩

/-- One carving step removes exactly one cell, the destination, from the lattice
cells that are still `WALL`. -/
theorem carve_latticeWalls (m m2 : BaseMaze) (row col : Int) (d : Direction)
    (hro : row % 2 = 1) (hco : col % 2 = 1)
    (hwall : m.isWall (nb2 row col d).1 (nb2 row col d).2 = true) (sf : SameFrame m m2)
    (hg : ∀ r c, m2.board.get? r c =
        if (r = (nb2 row col d).1 ∧ c = (nb2 row col d).2) ∨
            (r = (neighbour row col d).1 ∧ c = (neighbour row col d).2)
        then some CellType.PASSAGE else m.board.get? r c) :
    (latticeWalls m2).card + 1 = (latticeWalls m).card := by
  have par := nb2_parity row col d hro hco
  have hmem : nb2 row col d ∈ latticeWalls m := (mem_latticeWalls _ _).mpr ⟨hwall, par.1, par.2.1⟩
  have heq : latticeWalls m2 = (latticeWalls m).erase (nb2 row col d) := by
    ext p
    rw [Finset.mem_erase, mem_latticeWalls, mem_latticeWalls, isWall_iff, isWall_iff,
      sf.isInMaze, hg]
    by_cases hd : p.1 = (nb2 row col d).1 ∧ p.2 = (nb2 row col d).2
    · rw [if_pos (Or.inl hd)]
      have : p = nb2 row col d := Prod.ext hd.1 hd.2
      simp [this]
    · have hne : p ≠ nb2 row col d := fun h => hd ⟨by rw [h], by rw [h]⟩
      by_cases hm : p.1 = (neighbour row col d).1 ∧ p.2 = (neighbour row col d).2
      · rw [if_pos (Or.inr hm)]
        constructor
        · intro h; cases h.1.2
        · intro h
          exfalso
          apply par.2.2
          rw [← hm.1, ← hm.2]
          exact h.2.2
      · rw [if_neg (by tauto)]
        tauto
  rw [heq, Finset.card_erase_of_mem hmem]
  have := Finset.card_pos.mpr ⟨_, hmem⟩
  omega

/-- The carving steps are counted by the random values drawn: `getThrougn` draws
one value for every step, and every step removes one lattice cell from the walls.
With more fuel than lattice cells still `WALL` it returns. -/
theorem getThrougn_count (mt : Nat → Nat) (n : Nat) :
    ∀ (g : Gen) (row col : Int), g.maze.WF → g.maze.isPassage row col = true →
      row % 2 = 1 → col % 2 = 1 → (latticeWalls g.maze).card < n →
      ∃ g1, getThrougn mt n g row col = .ok g1 ∧ g1.maze.WF ∧ Carved g.maze g1.maze ∧
        g1.used + (latticeWalls g1.maze).card = g.used + (latticeWalls g.maze).card := by
  induction n with
  | zero => intro g row col _ _ _ _ h; exact absurd h (Nat.not_lt_zero _)
  | succ n ih =>
    intro g row col hwf hpass hro hco hcard
    unfold getThrougn
    rcases getDirection_spec mt g row col with ⟨hnone, -⟩ | ⟨d, hsome, hwall⟩
    · rw [hnone]
      exact ⟨g, rfl, hwf, Carved.carved_refl _, rfl⟩
    · rw [hsome]
      simp only
      have h1 : g.maze.isInMaze row col = true := ((isPassage_iff _ _ _).mp hpass).1
      have h2 : g.maze.isInMaze (nb2 row col d).1 (nb2 row col d).2 = true :=
        ((isWall_iff _ _ _).mp hwall).1
      obtain ⟨m2, hc, wf2, sf2, g2⟩ := carve_spec g.maze row col d hwf h1 h2
      rw [hc]
      simp only
      have cv2 : Carved g.maze m2 := carve_carved g.maze m2 row col d h1 h2 sf2 g2
      have pdest : m2.isPassage (nb2 row col d).1 (nb2 row col d).2 = true := by
        rw [isPassage_iff, sf2.isInMaze, g2, if_pos (Or.inl ⟨rfl, rfl⟩)]
        exact ⟨h2, rfl⟩
      have hstep := carve_latticeWalls g.maze m2 row col d hro hco hwall sf2 g2
      have par := nb2_parity row col d hro hco
      obtain ⟨g3, hg3, wf3, cv3, cnt3⟩ :=
        ih ⟨m2, g.used + 1⟩ (nb2 row col d).1 (nb2 row col d).2 wf2 pdest par.1 par.2.1
          (by simp only; omega)
      rw [hg3]
      simp only at cv3 cnt3 ⊢
      have hle3 := Finset.card_le_card cv3.latticeWalls_subset
      obtain ⟨g4, hg4, wf4, cv4, cnt4⟩ :=
        ih g3 (nb2 row col d).1 (nb2 row col d).2 wf3 (cv3.isPassage_mono _ _ pdest)
          par.1 par.2.1 (by omega)
      exact ⟨g4, hg4, wf4, cv2.carved_trans (cv3.carved_trans cv4), by omega⟩

theorem latticeSize_eq (rows cols : Int) (hr : 5 ≤ rows) (hc : 5 ≤ cols) :
    (latticeSize rows cols : Int) = (rows - 1) / 2 * ((cols - 1) / 2) := by
  unfold latticeSize
  rw [Nat.cast_mul, Int.toNat_of_nonneg (by omega), Int.toNat_of_nonneg (by omega)]

/-- C20. For odd `rows, cols ≥ 5`, anchors that `upsetEndPoint` can draw and every
random stream, `MainRoadMaze::generate` returns as soon as the fuel, which bounds
the nesting of the calls of `getThrougn`, reaches the number of lattice cells
`((rows - 1) / 2) * ((cols - 1) / 2)`; it performs at most that number minus one
carving steps (one random value is drawn for each step); and every carving step
removes exactly one cell from the lattice cells that are still `WALL`. -/
theorem mainRoadMaze_terminates (rows cols : Int) (entry exit : Cell) (mt : Nat → Nat)
    (fuel : Nat) (hr : 5 ≤ rows) (hc : 5 ≤ cols) (hro : rows % 2 = 1) (hco : cols % 2 = 1)
    (he : ValidAnchor rows cols entry) (hx : ValidAnchor rows cols exit)
    (hfuel : (rows - 1) / 2 * ((cols - 1) / 2) ≤ fuel) :
    (∃ g, mainRoadMaze rows cols entry exit mt fuel = .ok g ∧
      (g.used : Int) ≤ (rows - 1) / 2 * ((cols - 1) / 2) - 1) ∧
    ∀ (g : Gen) (row col : Int) (d : Direction), g.maze.WF →
      g.maze.isPassage row col = true → row % 2 = 1 → col % 2 = 1 →
      (getDirection mt g row col).1 = some d →
      ∃ m2, carve g.maze row col d = .ok (m2, (nb2 row col d).1, (nb2 row col d).2) ∧
        (latticeWalls m2).card + 1 = (latticeWalls g.maze).card := by
  constructor
  · obtain ⟨m, hnew, wf, mr, mc, men, mex, hint⟩ :=
      newMaze_interior rows cols entry exit CellType.WALL he hx
    have hv := he.1
    obtain ⟨m1, h1, wf1, sf1, g1⟩ := setCell_spec m wf entry.row entry.col CellType.PASSAGE
      (by rw [mr, mc]; omega)
    have hin : m.isInMaze entry.row entry.col = true := by
      rw [isInMaze_iff, mr, mc]; exact hv
    have pass1 : m1.isPassage entry.row entry.col = true := by
      rw [isPassage_iff, sf1.isInMaze, g1, if_pos ⟨rfl, rfl⟩]
      exact ⟨hin, rfl⟩
    have hsub : latticeWalls m1 ⊂ latticeWalls m := by
      have hmem : (entry.row, entry.col) ∈ latticeWalls m := by
        rw [mem_latticeWalls, isWall_iff]
        exact ⟨⟨hin, hint _ _ hv.1 hv.2.1 hv.2.2.1 hv.2.2.2⟩, he.2.2.1, he.2.2.2⟩
      refine Finset.ssubset_iff_subset_ne.mpr ⟨fun p hp => ?_, fun heq => ?_⟩
      · rw [mem_latticeWalls, isWall_iff, sf1.isInMaze, g1] at hp
        rw [mem_latticeWalls, isWall_iff]
        refine ⟨⟨hp.1.1, ?_⟩, hp.2⟩
        have h2 := hp.1.2
        split_ifs at h2
        · cases h2
        · exact h2
      · rw [← heq, mem_latticeWalls, isPassage_not_isWall _ _ _ pass1] at hmem
        cases hmem.1
    have hcard1 := Finset.card_lt_card hsub
    have hcardm := latticeWalls_card_le m
    rw [mr, mc] at hcardm
    have hL := latticeSize_eq rows cols hr hc
    obtain ⟨g, hg, -, -, cnt⟩ :=
      getThrougn_count mt fuel ⟨m1, 0⟩ entry.row entry.col wf1 pass1 he.2.2.1 he.2.2.2
        (by simp only; omega)
    simp only at cnt
    refine ⟨g, ?_, by omega⟩
    unfold mainRoadMaze
    rw [hnew]
    simp only
    unfold mainRoadGenerate
    simp only
    rw [men]
    unfold BaseMaze.setPassage
    rw [h1]
    exact hg
  · intro g row col d hwf hpass hro' hco' hd
    rcases getDirection_spec mt g row col with ⟨hnone, -⟩ | ⟨d', hsome, hwall⟩
    · rw [hnone] at hd
      cases hd
    · rw [hsome] at hd
      simp only [Option.some.injEq] at hd
      subst hd
      have h1 : g.maze.isInMaze row col = true := ((isPassage_iff _ _ _).mp hpass).1
      have h2 : g.maze.isInMaze (nb2 row col d').1 (nb2 row col d').2 = true :=
        ((isWall_iff _ _ _).mp hwall).1
      obtain ⟨m2, hc2, -, sf2, g2⟩ := carve_spec g.maze row col d' hwf h1 h2
      exact ⟨m2, hc2, carve_latticeWalls g.maze m2 row col d' hro' hco' hwall sf2 g2⟩

/-- Witness for C20: a 5 × 5 grid with the anchors `(1, 1)` and `(3, 3)`, the
constant random stream and fuel 4, the number of lattice cells. -/
theorem mainRoadMaze_terminates_witness :
    (∃ g, mainRoadMaze 5 5 ⟨1, 1, .ENTRY⟩ ⟨3, 3, .EXPORT⟩ (fun _ => 0) 4 = .ok g ∧
      (g.used : Int) ≤ ((5 : Int) - 1) / 2 * (((5 : Int) - 1) / 2) - 1) ∧
    ∀ (g : Gen) (row col : Int) (d : Direction), g.maze.WF →
      g.maze.isPassage row col = true → row % 2 = 1 → col % 2 = 1 →
      (getDirection (fun _ => 0) g row col).1 = some d →
      ∃ m2, carve g.maze row col d = .ok (m2, (nb2 row col d).1, (nb2 row col d).2) ∧
        (latticeWalls m2).card + 1 = (latticeWalls g.maze).card :=
  mainRoadMaze_terminates 5 5 ⟨1, 1, .ENTRY⟩ ⟨3, 3, .EXPORT⟩ (fun _ => 0) 4 (by decide)
    (by decide) (by decide) (by decide) (by decide) (by decide) (by decide)

/-! ## The border -/

theorem markerCell_spec (rows cols row col : Int)
    (hin : 0 < row ∧ row < rows - 1 ∧ 0 < col ∧ col < cols - 1)
    (hedge : row = 1 ∨ row = rows - 2 ∨ col = 1 ∨ col = cols - 2) :
    (col = 1 ∧ markerCell rows cols row col = (row, 0)) ∨
    (col = cols - 2 ∧ markerCell rows cols row col = (row, cols - 1)) ∨
    (col ≠ 1 ∧ col ≠ cols - 2 ∧ row = 1 ∧ markerCell rows cols row col = (0, col)) ∨
    (col ≠ 1 ∧ col ≠ cols - 2 ∧ row = rows - 2 ∧
      markerCell rows cols row col = (rows - 1, col)) := by
  unfold markerCell
  by_cases h1 : col = 1
  · left; rw [if_pos h1]; exact ⟨h1, rfl⟩
  by_cases h2 : col = cols - 2
  · right; left; rw [if_neg h1, if_pos h2]; exact ⟨h2, rfl⟩
  by_cases h3 : row = 1
  · right; right; left; rw [if_neg h1, if_neg h2, if_pos h3]; exact ⟨h1, h2, h3, rfl⟩
  · right; right; right; rw [if_neg h1, if_neg h2, if_neg h3]; exact ⟨h1, h2, by omega, rfl⟩

/-- The constructor establishes the border invariant. -/
theorem newMaze_border (rows cols : Int) (e x : Cell) (d : CellType)
    (he : ValidAnchor rows cols e) (hx : ValidAnchor rows cols x)
    (hne : ¬ (e.row = x.row ∧ e.col = x.col)) :
    ∃ m, newMaze rows cols e x d = .ok m ∧ m.WF ∧ m.rows = rows ∧ m.cols = cols ∧
      m.entryCell = e ∧ m.exportCell = x ∧ BorderInvariant m := by
  obtain ⟨m, h, wf, mr, mc, men, mex, hg⟩ := newMaze_spec rows cols e x d he hx
  refine ⟨m, h, wf, mr, mc, men, mex, ?_⟩
  have se := markerCell_spec rows cols e.row e.col he.1 he.2.1
  have sx := markerCell_spec rows cols x.row x.col hx.1 hx.2.1
  have hev := he.1
  have hxv := hx.1
  have hdiff : markerCell rows cols e.row e.col ≠ markerCell rows cols x.row x.col := by
    intro heq
    rcases se with ⟨a, b⟩ | ⟨a, b⟩ | ⟨a1, a2, a, b⟩ | ⟨a1, a2, a, b⟩ <;>
    rcases sx with ⟨a', b'⟩ | ⟨a', b'⟩ | ⟨a1', a2', a', b'⟩ | ⟨a1', a2', a', b'⟩ <;>
    (rw [b, b'] at heq
     simp only [Prod.mk.injEq] at heq
     omega)
  refine ⟨markerCell rows cols e.row e.col, markerCell rows cols x.row x.col, hdiff, ?_, ?_, ?_,
    ?_, ?_, ?_, ?_⟩
  · unfold OnBorder
    rw [mr, mc]
    rcases se with ⟨a, b⟩ | ⟨a, b⟩ | ⟨a1, a2, a, b⟩ | ⟨a1, a2, a, b⟩ <;>
    (rw [b]; dsimp only; omega)
  · unfold OnBorder
    rw [mr, mc]
    rcases sx with ⟨a, b⟩ | ⟨a, b⟩ | ⟨a1, a2, a, b⟩ | ⟨a1, a2, a, b⟩ <;>
    (rw [b]; dsimp only; omega)
  · rw [men]
    unfold Adjacent
    rcases se with ⟨a, b⟩ | ⟨a, b⟩ | ⟨a1, a2, a, b⟩ | ⟨a1, a2, a, b⟩ <;>
    (rw [b]; dsimp only; omega)
  · rw [mex]
    unfold Adjacent
    rcases sx with ⟨a, b⟩ | ⟨a, b⟩ | ⟨a1, a2, a, b⟩ | ⟨a1, a2, a, b⟩ <;>
    (rw [b]; dsimp only; omega)
  · rw [hg, if_neg hdiff, if_pos rfl]
  · rw [hg, if_pos rfl]
  · intro p hp h1 h2
    rw [hg, if_neg h2, if_neg h1, initBoard_get?]
    unfold OnBorder at hp
    rw [mr, mc] at hp
    rw [if_pos hp.1, if_pos hp.2]

/-- The border invariant is kept by every change of the board that leaves the
frame and the outer ring alone. -/
theorem borderInvariant_of_eq (m m1 : BaseMaze) (sf : SameFrame m m1)
    (h : ∀ p, OnBorder m p → m1.board.get? p.1 p.2 = m.board.get? p.1 p.2)
    (hb : BorderInvariant m) : BorderInvariant m1 := by
  obtain ⟨pe, px, hne, be, bx, ae, ax, ge, gx, hrest⟩ := hb
  have hon : ∀ p, OnBorder m1 p ↔ OnBorder m p := by
    intro p
    unfold OnBorder
    rw [sf.1, sf.2.1]
  refine ⟨pe, px, hne, (hon pe).mpr be, (hon px).mpr bx, ?_, ?_, ?_, ?_, fun p hp h1 h2 => ?_⟩
  · rw [sf.2.2.1]; exact ae
  · rw [sf.2.2.2]; exact ax
  · rw [h pe be]; exact ge
  · rw [h px bx]; exact gx
  · rw [h p ((hon p).mp hp)]
    exact hrest p ((hon p).mp hp) h1 h2

theorem Carved.borderInvariant {m m1 : BaseMaze} (h : Carved m m1) (hb : BorderInvariant m) :
    BorderInvariant m1 := by
  refine borderInvariant_of_eq m m1 h.1 (fun p hp => ?_) hb
  rcases h.2 p.1 p.2 with h1 | h1
  · exact h1
  · exfalso
    have := (isInMaze_iff _ _ _).mp h1.1
    unfold OnBorder at hp
    omega

theorem setCell_outOfRange (m : BaseMaze) (hm : m.WF) (r c : Int) (v : CellType)
    (h : ¬ (0 ≤ r ∧ r < m.rows ∧ 0 ≤ c ∧ c < m.cols)) :
    m.setCell r c v = .error .OutOfRange := by
  cases hs : m.setCell r c v with
  | error e => rw [setCell_error _ _ _ _ _ hs]
  | ok m1 => exact absurd (setCell_inRange m m1 hm r c v hs) h

/-! ## Solver: what a search writes -/

theorem reach_prepend {m : BaseMaze} {p q r : Int × Int} (hadj : Adjacent p q)
    (hq : m.isPassage q.1 q.2 = true) (h : Reach m q r) : Reach m p r :=
  reach_trans (Reach.step (Reach.refl p) hadj hq) h

theorem reach_eq_or_isPassage {m : BaseMaze} {p q : Int × Int} (h : Reach m p q) :
    q = p ∨ m.isPassage q.1 q.2 = true := by
  cases h with
  | refl => exact Or.inl rfl
  | step _ _ hpass => exact Or.inr hpass

theorem Explored.reach_back {m m1 : BaseMaze} (h : Explored m m1) {p q : Int × Int}
    (hr : Reach m1 p q) : Reach m p q := by
  induction hr with
  | refl => exact Reach.refl p
  | step _ hadj hpass ih => exact Reach.step ih hadj (h.isPassage _ _ hpass)

theorem Track.track_refl (s : Solving) (p : Int × Int) : Track s p s :=
  fun _ _ => Or.inl rfl

/-- Writes of two consecutive parts of a search, both started from cells that the
first board reaches from `p`. -/
theorem Track.track_trans {s s1 s2 : Solving} {p q : Int × Int} (h1 : Track s p s1)
    (h2 : Track s1 q s2) (ex : Explored s.maze s1.maze) (hq : Reach s.maze p q) :
    Track s p s2 := by
  intro r c
  rcases h2 r c with e2 | ⟨r2, v2⟩
  · rcases h1 r c with e1 | ⟨r1, v1⟩
    · exact Or.inl (e2.trans e1)
    · right
      refine ⟨r1, ?_⟩
      rw [e2]
      exact v1
  · right
    refine ⟨reach_trans hq (ex.reach_back r2), ?_⟩
    rcases v2 with v | ⟨v, x⟩
    · exact Or.inl v
    · right
      rw [ex.1.isExport] at x
      exact ⟨v, x⟩

theorem nextTo_track (n : Nat) (ih : TrackOK n) (s : Solving) (row col : Int) (d : Direction)
    (res : Bool) (s1 : Solving) (hwf : s.maze.WF)
    (h : nextTo (travel n) s row col d = .ok (res, s1)) :
    s1.maze.WF ∧ Explored s.maze s1.maze ∧
      (s1 = s ∨ (s.maze.isPassage (neighbour row col d).1 (neighbour row col d).2 = true ∧
        Track s (neighbour row col d) s1)) := by
  unfold nextTo at h
  simp only at h
  by_cases hp : s.maze.isPassage (neighbour row col d).1 (neighbour row col d).2 = true
  · rw [if_pos hp] at h
    have hin := (isInMaze_iff _ _ _).mp ((isPassage_iff _ _ _).mp hp).1
    have hrange : 0 ≤ (neighbour row col d).1 ∧ (neighbour row col d).1 < s.maze.rows ∧
        0 ≤ (neighbour row col d).2 ∧ (neighbour row col d).2 < s.maze.cols := by omega
    cases ht : travel n s (neighbour row col d).1 (neighbour row col d).2 with
    | error e => rw [ht] at h; cases h
    | ok x =>
      obtain ⟨b, t⟩ := x
      rw [ht] at h
      have hspec := travel_ok_spec n s _ _ b t hwf hrange ht
      obtain ⟨htrack, hvis⟩ := ih s _ _ b t hwf hrange ht
      cases b with
      | true =>
        simp only at h
        cases h
        exact ⟨hspec.1, hspec.2.1, Or.inr ⟨hp, htrack⟩⟩
      | false =>
        simp only at h
        obtain ⟨hnx, -, -⟩ := hspec.2.2.2.1 rfl
        obtain ⟨s2, h2, wf2, ex2, -, same2, val2, -⟩ :=
          updateMaze_spec t (neighbour row col d).1 (neighbour row col d).2 Mark.backtracked
            (by decide) hspec.1 (by rw [hspec.2.1.1.1, hspec.2.1.1.2.1]; exact hrange)
        rw [h2] at h
        cases h
        refine ⟨wf2, hspec.2.1.expl_trans ex2, Or.inr ⟨hp, fun r c => ?_⟩⟩
        by_cases hrc : (r, c) = ((neighbour row col d).1, (neighbour row col d).2)
        · right
          simp only [Prod.mk.injEq] at hrc
          rw [hrc.1, hrc.2]
          refine ⟨Reach.refl _, Or.inl ?_⟩
          rw [val2, hspec.2.1.1.isExport, hnx]
          rfl
        · rw [same2 r c hrc]
          exact htrack r c
  · rw [if_neg hp] at h
    cases h
    exact ⟨hwf, Explored.expl_refl _, Or.inl rfl⟩

theorem tryDirections_track (n : Nat) (ih : TrackOK n) (row col : Int) (ds : List Direction)
    (s : Solving) (res : Bool) (s1 : Solving) (hwf : s.maze.WF)
    (h : tryDirections (fun s d => nextTo (travel n) s row col d) ds s = .ok (res, s1)) :
    s1.maze.WF ∧ Explored s.maze s1.maze ∧
      ∀ r c, s1.maze.board.get? r c = s.maze.board.get? r c ∨
        ((∃ d, s.maze.isPassage (neighbour row col d).1 (neighbour row col d).2 = true ∧
            Reach s.maze (neighbour row col d) (r, c)) ∧
          (s1.maze.board.get? r c = some CellType.VISITED ∨
            (s1.maze.board.get? r c = some CellType.CURRENT ∧ s.maze.isExport r c = true))) := by
  induction ds generalizing s with
  | nil =>
    unfold tryDirections at h
    cases h
    exact ⟨hwf, Explored.expl_refl _, fun _ _ => Or.inl rfl⟩
  | cons d ds ihd =>
    unfold tryDirections at h
    cases hn : nextTo (travel n) s row col d with
    | error e => simp only [hn] at h; cases h
    | ok x =>
      obtain ⟨b, t⟩ := x
      simp only [hn] at h
      obtain ⟨twf, tex, tch⟩ := nextTo_track n ih s row col d b t hwf hn
      have first : ∀ r c, t.maze.board.get? r c = s.maze.board.get? r c ∨
          ((∃ d, s.maze.isPassage (neighbour row col d).1 (neighbour row col d).2 = true ∧
              Reach s.maze (neighbour row col d) (r, c)) ∧
            (t.maze.board.get? r c = some CellType.VISITED ∨
              (t.maze.board.get? r c = some CellType.CURRENT ∧
                s.maze.isExport r c = true))) := by
        intro r c
        rcases tch with rfl | ⟨hp, htr⟩
        · exact Or.inl rfl
        · rcases htr r c with e | ⟨hr, v⟩
          · exact Or.inl e
          · exact Or.inr ⟨⟨d, hp, hr⟩, v⟩
      cases b with
      | true =>
        cases h
        exact ⟨twf, tex, first⟩
      | false =>
        simp only at h
        obtain ⟨wf2, ex2, ch2⟩ := ihd t twf h
        refine ⟨wf2, tex.expl_trans ex2, fun r c => ?_⟩
        rcases ch2 r c with e2 | ⟨⟨d2, hp2, hr2⟩, v2⟩
        · rcases first r c with e1 | ⟨hd1, v1⟩
          · exact Or.inl (e2.trans e1)
          · right
            refine ⟨hd1, ?_⟩
            rw [e2]
            exact v1
        · right
          refine ⟨⟨d2, tex.isPassage _ _ hp2, tex.reach_back hr2⟩, ?_⟩
          rcases v2 with v | ⟨v, x⟩
          · exact Or.inl v
          · right
            rw [tex.1.isExport] at x
            exact ⟨v, x⟩

theorem trackOK (n : Nat) : TrackOK n := by
  induction n with
  | zero =>
    intro st row col res st1 _ _ h
    unfold travel at h
    cases h
  | succ n ih =>
    intro st row col res st1 hwf hrange h
    obtain ⟨t, h1, wf1, ex1, np1, same1, val1, -⟩ :=
      updateMaze_spec st row col Mark.explored (by decide) hwf hrange
    unfold travel at h
    simp only [h1] at h
    have base : ∀ r c, t.maze.board.get? r c = st.maze.board.get? r c ∨
        (Reach st.maze (row, col) (r, c) ∧
          (t.maze.board.get? r c = some CellType.VISITED ∨
            (t.maze.board.get? r c = some CellType.CURRENT ∧
              st.maze.isExport r c = true))) := by
      intro r c
      by_cases hrc : (r, c) = (row, col)
      · right
        simp only [Prod.mk.injEq] at hrc
        rw [hrc.1, hrc.2, val1]
        refine ⟨Reach.refl _, ?_⟩
        by_cases hx : st.maze.isExport row col = true
        · right; rw [if_pos hx]; exact ⟨rfl, hx⟩
        · left; rw [if_neg hx]
      · exact Or.inl (same1 r c hrc)
    by_cases hx : t.maze.isExport row col = true
    · rw [if_pos hx] at h
      cases h
      refine ⟨base, fun hnx => ?_⟩
      rw [ex1.1.isExport, hnx] at hx
      cases hx
    · rw [if_neg hx] at h
      obtain ⟨wf2, ex2, ch2⟩ :=
        tryDirections_track n ih row col (sortedDirections t.maze row col) t res st1 wf1 h
      have hx0 : st.maze.isExport row col = false := by
        rw [← ex1.1.isExport]; simpa using hx
      refine ⟨fun r c => ?_, fun _ => ?_⟩
      · rcases ch2 r c with e2 | ⟨⟨d, hp, hr⟩, v2⟩
        · rcases base r c with e1 | ⟨r1, v1⟩
          · exact Or.inl (e2.trans e1)
          · right
            refine ⟨r1, ?_⟩
            rw [e2]
            exact v1
        · right
          refine ⟨ex1.reach_back (reach_prepend (adjacent_neighbour row col d) hp hr), ?_⟩
          rcases v2 with v | ⟨v, x⟩
          · exact Or.inl v
          · right
            rw [ex1.1.isExport] at x
            exact ⟨v, x⟩
      · rcases ch2 row col with e2 | ⟨⟨d, hp, hr⟩, -⟩
        · rw [e2, val1, hx0]
          rfl
        · exfalso
          rcases reach_eq_or_isPassage hr with e | e
          · have hadj := adjacent_neighbour row col d
            rw [← e] at hadj
            unfold Adjacent at hadj
            omega
          · rw [np1] at e
            cases e

theorem chain_reach (m : BaseMaze) (l : List (Int × Int)) :
    ∀ a : Int × Int, (a :: l).Chain' Adjacent → (∀ p ∈ l, m.isPassage p.1 p.2 = true) →
      ∀ x, (a :: l).getLast? = some x → Reach m a x := by
  induction l with
  | nil =>
    intro a _ _ x hx
    simp only [List.getLast?_singleton, Option.some.injEq] at hx
    rw [← hx]
    exact Reach.refl a
  | cons b l ih =>
    intro a hch hp x hx
    rw [List.chain'_cons] at hch
    rw [List.getLast?_cons_cons] at hx
    exact reach_prepend hch.1 (hp b (List.mem_cons_self _ _))
      (ih b hch.2 (fun p hp' => hp p (List.mem_cons_of_mem _ hp')) x hx)

theorem route_reach {m : BaseMaze} {row col : Int} {cells : List (Int × Int)}
    (h : Route m row col cells) (x : Int × Int) (hx : cells.getLast? = some x) :
    Reach m (row, col) x := by
  obtain ⟨h1, h2, -, h4⟩ := h
  cases cells with
  | nil => cases h1
  | cons a l =>
    simp only [List.head?_cons, Option.some.injEq] at h1
    rw [← h1]
    exact chain_reach m l a h2 (fun p hp => h4 p (by simpa using hp)) x hx

/-- C11. On a well-formed board whose entry anchor lies on the board and whose exit
anchor is not reachable from it through 4-adjacent interior `PASSAGE` cells, the
search returns, without error, the result false as soon as the fuel exceeds the
number of interior cells; it prints no `+` mark; the entry anchor and every cell
reachable from it are left `VISITED`; and every other cell is unchanged. -/
theorem travelMaze_unreachable (m : BaseMaze) (hwf : m.WF)
    (hentry : 0 ≤ m.entryCell.row ∧ m.entryCell.row < m.rows ∧
      0 ≤ m.entryCell.col ∧ m.entryCell.col < m.cols)
    (hno : ¬ Reach m (entryCell m) (exitCell m))
    (fuel : Nat) (hfuel : (m.rows - 2).toNat * (m.cols - 2).toNat < fuel) :
    ∃ st, travelMaze fuel m = .ok (false, st) ∧ onPathCells st.marks = [] ∧
      (∀ q, Reach m (entryCell m) q → st.maze.board.get? q.1 q.2 = some CellType.VISITED) ∧
      (∀ q, ¬ Reach m (entryCell m) q → st.maze.board.get? q.1 q.2 = m.board.get? q.1 q.2) := by
  have hlt : ((passageCells m).erase (m.entryCell.row, m.entryCell.col)).card < fuel := by
    have h1 := Finset.card_erase_le (s := passageCells m) (a := (m.entryCell.row, m.entryCell.col))
    have h2 := passageCells_card_le m
    omega
  obtain ⟨res, st, h, hspec⟩ := travelOK fuel ⟨m, []⟩ m.entryCell.row m.entryCell.col hwf hentry hlt
  obtain ⟨htrack, hvis⟩ := trackOK fuel ⟨m, []⟩ m.entryCell.row m.entryCell.col res st hwf hentry h
  simp only at hspec htrack hvis
  cases res with
  | true =>
    exfalso
    obtain ⟨path, -, hroute⟩ := hspec.2.2.2.2 rfl
    exact hno (route_reach hroute (exitCell m) (by simp))
  | false =>
    obtain ⟨hx, hnn, hfs⟩ := hspec.2.2.2.1 rfl
    have hnotexit : ∀ q, Reach m (entryCell m) q → m.isExport q.1 q.2 = false := by
      intro q hq
      by_contra hc
      rw [Bool.not_eq_false] at hc
      unfold BaseMaze.isExport at hc
      simp only [Bool.and_eq_true, decide_eq_true_eq] at hc
      have : q = exitCell m := Prod.ext hc.1 hc.2
      rw [this] at hq
      exact hno hq
    refine ⟨st, h, ?_, fun q hq => ?_, fun q hq => ?_⟩
    · have := hfs.1
      simpa [onPathCells] using this
    · rcases reach_dead ⟨m, []⟩ st m.entryCell.row m.entryCell.col hnn hfs q hq with e | ⟨p0, p1⟩
      · rw [e]
        exact hvis (by simpa using hx)
      · rcases htrack q.1 q.2 with e | ⟨-, v | ⟨-, x⟩⟩
        · exfalso
          simp only at p0 p1
          rw [← Bool.not_eq_true, isPassage_iff, e, hspec.2.1.1.isInMaze, ← isPassage_iff] at p1
          exact p1 p0
        · exact v
        · rw [hnotexit q hq] at x
          cases x
    · rcases htrack q.1 q.2 with e | ⟨r, -⟩
      · exact e
      · exact absurd r hq

/-- Witness for C11: the blocked 5 × 5 corridor, searched with fuel 10. -/
theorem travelMaze_unreachable_witness :
    ∃ st, travelMaze 10 blockedMaze = .ok (false, st) ∧ onPathCells st.marks = [] ∧
      (∀ q, Reach blockedMaze (entryCell blockedMaze) q →
        st.maze.board.get? q.1 q.2 = some CellType.VISITED) ∧
      (∀ q, ¬ Reach blockedMaze (entryCell blockedMaze) q →
        st.maze.board.get? q.1 q.2 = blockedMaze.board.get? q.1 q.2) :=
  travelMaze_unreachable blockedMaze (by decide) (by decide)
    (by
      have key : ∀ q, Reach blockedMaze (1, 1) q → q = (1, 1) := by
        intro q hq
        induction hq with
        | refl => rfl
        | @step q r _ hadj hpass ih =>
          subst ih
          exfalso
          obtain ⟨a, b⟩ := r
          unfold Adjacent at hadj
          simp only at hadj hpass
          have : (a = 1 ∧ (b = 0 ∨ b = 2)) ∨ (b = 1 ∧ (a = 0 ∨ a = 2)) := by omega
          rcases this with ⟨rfl, rfl | rfl⟩ | ⟨rfl, rfl | rfl⟩ <;> revert hpass <;> decide
      intro h
      have := key _ h
      revert this
      decide)
    10 (by decide)

/-! ## Anchor placement: the position along the edge -/

theorem upset_first_side (rows cols : Int) (v : Nat) (c : Cell) :
    (upset rows cols (fun i => if i = 1 then v else 0) 0 c).row = 1 ∧
    (upset rows cols (fun i => if i = 1 then v else 0) 0 c).col =
      (1 + (v : Int) % (cols - 2)).tdiv 2 * 2 + 1 := by
  unfold upset uniformInt
  simp

theorem mem_positionDraws (rows cols p : Int) (hc : 5 ≤ cols) (v : Nat) :
    v ∈ positionDraws rows cols p ↔ (v : Int) < cols - 2 ∧ (1 + (v : Int)) / 2 * 2 + 1 = p := by
  unfold positionDraws
  rw [Finset.mem_filter, Finset.mem_range, (upset_first_side rows cols v _).2]
  constructor
  · rintro ⟨h1, h2⟩
    have hv : (v : Int) < cols - 2 := by omega
    rw [Int.emod_eq_of_lt (by omega) hv, Int.tdiv_eq_ediv (by omega) (by norm_num)] at h2
    exact ⟨hv, h2⟩
  · rintro ⟨hv, h2⟩
    rw [Int.emod_eq_of_lt (by omega) hv, Int.tdiv_eq_ediv (by omega) (by norm_num)]
    exact ⟨by omega, h2⟩

/-- C12, as the code has it. For an odd edge length `cols ≥ 5` the draw of
`rowDis` ranges over `1 .. cols - 2` and the position is `x / 2 * 2 + 1`: position
`1` comes from exactly one draw (`x = 1`), every other odd position `p` with
`3 ≤ p ≤ cols - 2` from exactly two (`x = p - 1` and `x = p`).  The positions are
not equally likely. -/
theorem upset_position_counts (rows cols : Int) (hc : 5 ≤ cols) (hco : cols % 2 = 1) :
    (positionDraws rows cols 1).card = 1 ∧
    ∀ p : Int, p % 2 = 1 → 3 ≤ p → p ≤ cols - 2 → (positionDraws rows cols p).card = 2 := by
  constructor
  · have : positionDraws rows cols 1 = {0} := by
      ext v
      rw [mem_positionDraws rows cols 1 hc, Finset.mem_singleton]
      omega
    rw [this, Finset.card_singleton]
  · intro p hp h3 hle
    have : positionDraws rows cols p = {(p - 2).toNat, (p - 1).toNat} := by
      ext v
      rw [mem_positionDraws rows cols p hc, Finset.mem_insert, Finset.mem_singleton]
      omega
    rw [this, Finset.card_pair (by omega)]

/-- Witness for C12, the failing input: on an edge of length 5 the draws `1, 2, 3`
give the positions `1, 3, 3`. -/
theorem upset_position_counts_witness :
    (positionDraws 5 5 1).card = 1 ∧
    ∀ p : Int, p % 2 = 1 → 3 ≤ p → p ≤ 5 - 2 → (positionDraws 5 5 p).card = 2 :=
  upset_position_counts 5 5 (by decide) (by decide)

/-! ## Frontier-Expand: the seed of the frontier -/

/-- C15, the failing input. On a 5 × 5 grid with the entry anchor `(1, 3)` and the
exit anchor `(3, 1)`, `NatualMaze::generate` carves the seed
`(entryCell.row, entryCell.row) = (1, 1)` and starts the loop with the frontier of
the walls next to `(1, 1)`, namely `(2, 1)` tagged `DOWN` and `(1, 2)` tagged
`RIGHT`; the entry anchor `(1, 3)` is still `WALL` after the seeding, and the wall
`(2, 3)` below it is not in the frontier. -/
theorem natualGenerate_seed :
    ValidAnchor 5 5 ⟨1, 3, .ENTRY⟩ ∧ ValidAnchor 5 5 ⟨3, 1, .EXPORT⟩ ∧
    ∃ m m1, newMaze 5 5 ⟨1, 3, .ENTRY⟩ ⟨3, 1, .EXPORT⟩ CellType.WALL = .ok m ∧
      m.setPassage 1 1 = .ok m1 ∧
      (∀ (mt : Nat → Nat) (fuel : Nat),
        natualGenerate mt fuel m
          = natualLoop mt fuel ⟨m1, 0⟩ [⟨2, 1, .DOWN⟩, ⟨1, 2, .RIGHT⟩]) ∧
      m1.board.get? 1 1 = some CellType.PASSAGE ∧
      m1.board.get? m.entryCell.row m.entryCell.col = some CellType.WALL ∧
      addExps m1 [] m.entryCell.row m.entryCell.col
        = [⟨2, 3, .DOWN⟩, ⟨1, 2, .LEFT⟩] :=
  ⟨by decide, by decide, _, _, rfl, rfl, fun _ _ => rfl, by decide, by decide, by decide⟩

/-- C16, the failing input. On a 7 × 5 grid with the entry anchor `(5, 1)` and the
exit anchor `(1, 3)` the seed write of `NatualMaze::generate` targets
`(entryCell.row, entryCell.row) = (5, 5)`: the cell is not strictly inside the
border, it is not on the board at all (row 5 has the columns `0 .. 4`), and the
write `setPassage(5, 5)` is out of range. -/
theorem natualGenerate_seed_write :
    ValidAnchor 7 5 ⟨5, 1, .ENTRY⟩ ∧ ValidAnchor 7 5 ⟨1, 3, .EXPORT⟩ ∧
    ∃ m, newMaze 7 5 ⟨5, 1, .ENTRY⟩ ⟨1, 3, .EXPORT⟩ CellType.WALL = .ok m ∧ m.WF ∧
      m.isInMaze m.entryCell.row m.entryCell.row = false ∧
      m.board.get? m.entryCell.row m.entryCell.row = none ∧
      m.setPassage m.entryCell.row m.entryCell.row = .error .OutOfRange ∧
      ∀ (mt : Nat → Nat) (fuel : Nat), natualGenerate mt fuel m = .error .OutOfRange :=
  ⟨by decide, by decide, _, rfl, by decide, by decide, by decide, by decide, fun _ _ => rfl⟩

/-! ## Recursive-Division: the openings of one step -/

/-- The body of `devide` on a rectangle with odd bounds inside the border and more
than one row and column: it returns, and on the cross every cell is `WALL` except
the openings `pos` other than the one selected by `notThrough = mt() % 4`. -/
theorem devideStep_run (mt : Nat → Nat) (g : Gen) (t b l r : Int) (hm : g.maze.WF)
    (hb : 1 ≤ t ∧ t < b ∧ b ≤ g.maze.rows - 2 ∧ 1 ≤ l ∧ l < r ∧ r ≤ g.maze.cols - 2)
    (hodd : t % 2 = 1 ∧ b % 2 = 1 ∧ l % 2 = 1 ∧ r % 2 = 1) :
    ∃ g1 cr cc pos0 pos1 pos2 pos3, devideStep mt g t b l r = .ok (g1, cr, cc) ∧
      crossPoint mt g.used t b l r = .ok (cr, cc) ∧
      openingPositions mt g.used t b l r cr cc = .ok (pos0, pos1, pos2, pos3) ∧
      (t < cr ∧ cr < b ∧ cr % 2 = 0 ∧ l < cc ∧ cc < r ∧ cc % 2 = 0) ∧
      (t ≤ pos0 ∧ pos0 < cr ∧ pos0 % 2 = 1) ∧ (cr < pos1 ∧ pos1 ≤ b ∧ pos1 % 2 = 1) ∧
      (l ≤ pos2 ∧ pos2 < cc ∧ pos2 % 2 = 1) ∧ (cc < pos3 ∧ pos3 ≤ r ∧ pos3 % 2 = 1) ∧
      ∀ x y, InRegion t b l r (x, y) → (x = cr ∨ y = cc) →
        g1.maze.board.get? x y =
          some (if ((x = pos0 ∧ y = cc) ∧ mt (g.used + 2) % 4 ≠ 0) ∨
              ((x = pos1 ∧ y = cc) ∧ mt (g.used + 2) % 4 ≠ 1) ∨
              ((x = cr ∧ y = pos2) ∧ mt (g.used + 2) % 4 ≠ 2) ∨
              ((x = cr ∧ y = pos3) ∧ mt (g.used + 2) % 4 ≠ 3)
            then CellType.PASSAGE else CellType.WALL) := by
  obtain ⟨cr, cc, hcp, hc⟩ := crossPoint_spec mt g.used t b l r ⟨hb.2.1, hb.2.2.2.2.1⟩ hodd
  obtain ⟨m2, hdc, wf2, sf2, g2⟩ := drawCross_spec g.maze t b l r cr cc hm (by omega) (by omega)
  obtain ⟨pos0, pos1, pos2, pos3, hop, p0, p1, p2, p3⟩ :=
    openingPositions_spec mt g.used t b l r cr cc hc hodd
  obtain ⟨m6, ho4, wf6, sf6, g6⟩ := openFour_spec m2 cr cc pos0 pos1 pos2 pos3 wf2
    (by rw [sf2.1]; omega) (by rw [sf2.1]; omega) (by rw [sf2.2.1]; omega)
    (by rw [sf2.2.1]; omega) (by rw [sf2.1]; omega) (by rw [sf2.2.1]; omega)
  have sf26 := SameFrame.same_trans sf2 sf6
  obtain ⟨m7, hc1, wf7, sf7, g7⟩ := closeOne_spec m6 cr cc pos0 pos1 pos2 pos3
    (mt (g.used + 2) % 4) wf6
    (by rw [sf26.1]; omega) (by rw [sf26.1]; omega) (by rw [sf26.2.1]; omega)
    (by rw [sf26.2.1]; omega) (by rw [sf26.1]; omega) (by rw [sf26.2.1]; omega)
  have hrun : devideStep mt g t b l r = .ok (⟨m7, g.used + 7⟩, cr, cc) := by
    unfold devideStep
    rw [hcp]
    simp only
    rw [hdc]
    simp only
    rw [hop]
    simp only
    rw [ho4]
    simp only
    rw [hc1]
  refine ⟨⟨m7, g.used + 7⟩, cr, cc, pos0, pos1, pos2, pos3, hrun, hcp, hop, hc, p0, p1, p2, p3,
    ?_⟩
  intro x y hin hcross
  simp only [InRegion] at hin
  show m7.board.get? x y = _
  rw [g7, g6, g2]
  have hnt : mt (g.used + 2) % 4 < 4 := Nat.mod_lt _ (by norm_num)
  have hA2 : (y = cc ∧ t ≤ x ∧ x ≤ b) ∨ (x = cr ∧ l ≤ y ∧ y ≤ r) := by omega
  exact ite_openings _ _ _ _ _ hnt (by omega) (by omega) (by omega) (by omega) (by omega)
    (by omega) _ _ hA2

theorem openingsIn_segment (m : BaseMaze) (cells : Finset (Int × Int)) (p0 : Int × Int)
    (closed : Prop) [Decidable closed] (hp0 : p0 ∈ cells)
    (h : ∀ p ∈ cells, m.board.get? p.1 p.2 =
      some (if p = p0 ∧ ¬ closed then CellType.PASSAGE else CellType.WALL)) :
    openingsIn m cells = if closed then ∅ else {p0} := by
  unfold openingsIn
  ext p
  rw [Finset.mem_filter]
  by_cases hc : closed
  · rw [if_pos hc]
    simp only [Finset.not_mem_empty, iff_false, not_and]
    intro hp
    rw [h p hp, if_neg (by tauto)]
    simp
  · rw [if_neg hc, Finset.mem_singleton]
    constructor
    · rintro ⟨hp, hv⟩
      rw [h p hp] at hv
      by_contra hne
      rw [if_neg (by tauto)] at hv
      cases hv
    · rintro rfl
      refine ⟨hp0, ?_⟩
      rw [h p hp0, if_pos ⟨rfl, hc⟩]

/-- C17. A step of `devide` on a rectangle `[t, b] × [l, r]` with odd bounds inside
the border, `t ≠ b` and `l ≠ r` returns; afterwards every cell of the cross is
`WALL` or `PASSAGE`, the cross point is `WALL`, and each of the four segments of the
cross (the cross column above and below the cross point, the cross row left and
right of it) holds exactly one `PASSAGE` cell, at the odd position `pos[i]` inside
the segment, except the segment number `notThrough = mt() % 4 < 4`, which holds
none. -/
theorem devideStep_three_openings (mt : Nat → Nat) (g : Gen) (t b l r : Int) (hm : g.maze.WF)
    (hb : 1 ≤ t ∧ t ≤ b ∧ b ≤ g.maze.rows - 2 ∧ 1 ≤ l ∧ l ≤ r ∧ r ≤ g.maze.cols - 2)
    (hodd : t % 2 = 1 ∧ b % 2 = 1 ∧ l % 2 = 1 ∧ r % 2 = 1) (hne : t ≠ b ∧ l ≠ r) :
    ∃ g1 cr cc pos0 pos1 pos2 pos3, devideStep mt g t b l r = .ok (g1, cr, cc) ∧
      openingPositions mt g.used t b l r cr cc = .ok (pos0, pos1, pos2, pos3) ∧
      (t < cr ∧ cr < b ∧ l < cc ∧ cc < r) ∧
      (t ≤ pos0 ∧ pos0 < cr ∧ pos0 % 2 = 1) ∧ (cr < pos1 ∧ pos1 ≤ b ∧ pos1 % 2 = 1) ∧
      (l ≤ pos2 ∧ pos2 < cc ∧ pos2 % 2 = 1) ∧ (cc < pos3 ∧ pos3 ≤ r ∧ pos3 % 2 = 1) ∧
      mt (g.used + 2) % 4 < 4 ∧
      (∀ x y, InRegion t b l r (x, y) → (x = cr ∨ y = cc) →
        g1.maze.board.get? x y = some CellType.PASSAGE ∨
          g1.maze.board.get? x y = some CellType.WALL) ∧
      g1.maze.board.get? cr cc = some CellType.WALL ∧
      openingsIn g1.maze (Finset.Ico t cr ×ˢ {cc})
        = (if mt (g.used + 2) % 4 = 0 then ∅ else {(pos0, cc)}) ∧
      openingsIn g1.maze (Finset.Ioc cr b ×ˢ {cc})
        = (if mt (g.used + 2) % 4 = 1 then ∅ else {(pos1, cc)}) ∧
      openingsIn g1.maze ({cr} ×ˢ Finset.Ico l cc)
        = (if mt (g.used + 2) % 4 = 2 then ∅ else {(cr, pos2)}) ∧
      openingsIn g1.maze ({cr} ×ˢ Finset.Ioc cc r)
        = (if mt (g.used + 2) % 4 = 3 then ∅ else {(cr, pos3)}) := by
  obtain ⟨g1, cr, cc, pos0, pos1, pos2, pos3, hrun, -, hop, hc, p0, p1, p2, p3, hcross⟩ :=
    devideStep_run mt g t b l r hm (by omega) hodd
  refine ⟨g1, cr, cc, pos0, pos1, pos2, pos3, hrun, hop, ⟨hc.1, hc.2.1, hc.2.2.2.1, hc.2.2.2.2.1⟩,
    p0, p1, p2, p3, Nat.mod_lt _ (by norm_num), fun x y hin hx => ?_, ?_, ?_, ?_, ?_, ?_⟩
  · rw [hcross x y hin hx]
    split_ifs
    · exact Or.inl rfl
    · exact Or.inr rfl
  · rw [hcross cr cc (by unfold InRegion; dsimp only; omega) (Or.inl rfl), if_neg (by omega)]
  · refine openingsIn_segment _ _ _ _ (by simp; omega) (fun p hp => ?_)
    simp only [Finset.mem_product, Finset.mem_Ico, Finset.mem_singleton] at hp
    rw [hcross p.1 p.2 (by unfold InRegion; omega) (Or.inr hp.2)]
    congr 1
    refine if_congr ?_ rfl rfl
    rw [Prod.ext_iff]
    dsimp only
    omega
  · refine openingsIn_segment _ _ _ _ (by simp; omega) (fun p hp => ?_)
    simp only [Finset.mem_product, Finset.mem_Ioc, Finset.mem_singleton] at hp
    rw [hcross p.1 p.2 (by unfold InRegion; omega) (Or.inr hp.2)]
    congr 1
    refine if_congr ?_ rfl rfl
    rw [Prod.ext_iff]
    dsimp only
    omega
  · refine openingsIn_segment _ _ _ _ (by simp; omega) (fun p hp => ?_)
    simp only [Finset.mem_product, Finset.mem_Ico, Finset.mem_singleton] at hp
    rw [hcross p.1 p.2 (by unfold InRegion; omega) (Or.inl hp.1)]
    congr 1
    refine if_congr ?_ rfl rfl
    rw [Prod.ext_iff]
    dsimp only
    omega
  · refine openingsIn_segment _ _ _ _ (by simp; omega) (fun p hp => ?_)
    simp only [Finset.mem_product, Finset.mem_Ioc, Finset.mem_singleton] at hp
    rw [hcross p.1 p.2 (by unfold InRegion; omega) (Or.inl hp.1)]
    congr 1
    refine if_congr ?_ rfl rfl
    rw [Prod.ext_iff]
    dsimp only
    omega

/-- Witness for C17: the first step of `devide` on the open 5 × 5 board, with the
constant random stream. -/
theorem devideStep_three_openings_witness :
    ∃ g1 cr cc pos0 pos1 pos2 pos3,
      devideStep (fun _ => 0) ⟨openMaze, 0⟩ 1 3 1 3 = .ok (g1, cr, cc) ∧
      openingPositions (fun _ => 0) 0 1 3 1 3 cr cc = .ok (pos0, pos1, pos2, pos3) ∧
      ((1 : Int) < cr ∧ cr < 3 ∧ (1 : Int) < cc ∧ cc < 3) ∧
      ((1 : Int) ≤ pos0 ∧ pos0 < cr ∧ pos0 % 2 = 1) ∧ (cr < pos1 ∧ pos1 ≤ 3 ∧ pos1 % 2 = 1) ∧
      ((1 : Int) ≤ pos2 ∧ pos2 < cc ∧ pos2 % 2 = 1) ∧ (cc < pos3 ∧ pos3 ≤ 3 ∧ pos3 % 2 = 1) ∧
      (fun _ : Nat => 0) (0 + 2) % 4 < 4 ∧
      (∀ x y, InRegion 1 3 1 3 (x, y) → (x = cr ∨ y = cc) →
        g1.maze.board.get? x y = some CellType.PASSAGE ∨
          g1.maze.board.get? x y = some CellType.WALL) ∧
      g1.maze.board.get? cr cc = some CellType.WALL ∧
      openingsIn g1.maze (Finset.Ico 1 cr ×ˢ {cc})
        = (if (fun _ : Nat => 0) (0 + 2) % 4 = 0 then ∅ else {(pos0, cc)}) ∧
      openingsIn g1.maze (Finset.Ioc cr 3 ×ˢ {cc})
        = (if (fun _ : Nat => 0) (0 + 2) % 4 = 1 then ∅ else {(pos1, cc)}) ∧
      openingsIn g1.maze ({cr} ×ˢ Finset.Ico 1 cc)
        = (if (fun _ : Nat => 0) (0 + 2) % 4 = 2 then ∅ else {(cr, pos2)}) ∧
      openingsIn g1.maze ({cr} ×ˢ Finset.Ioc cc 3)
        = (if (fun _ : Nat => 0) (0 + 2) % 4 = 3 then ∅ else {(cr, pos3)}) :=
  devideStep_three_openings (fun _ => 0) ⟨openMaze, 0⟩ 1 3 1 3 (by decide) (by decide)
    (by decide) (by decide)

/-! ## Recursive-Division: the calls of `devide` -/

theorem devide_fuel_succ (mt : Nat → Nat) (n : Nat) :
    ∀ (g : Gen) (t b l r : Int) (x : Gen),
      devide mt n g t b l r = .ok x → devide mt (n + 1) g t b l r = .ok x := by
  induction n with
  | zero => intro g t b l r x h; unfold devide at h; cases h
  | succ n ih =>
    intro g t b l r x h
    unfold devide at h ⊢
    by_cases hc : t ≠ b ∧ l ≠ r
    · rw [if_pos hc] at h ⊢
      cases hs : devideStep mt g t b l r with
      | error e => rw [hs] at h; cases h
      | ok y =>
        obtain ⟨g1, cr, cc⟩ := y
        rw [hs] at h
        simp only at h ⊢
        cases h1 : devide mt n g1 t (cr - 1) l (cc - 1) with
        | error e => rw [h1] at h; cases h
        | ok g2 =>
          rw [h1] at h
          rw [ih _ _ _ _ _ _ h1]
          simp only at h ⊢
          cases h2 : devide mt n g2 (cr + 1) b l (cc - 1) with
          | error e => rw [h2] at h; cases h
          | ok g3 =>
            rw [h2] at h
            rw [ih _ _ _ _ _ _ h2]
            simp only at h ⊢
            cases h3 : devide mt n g3 (cr + 1) b (cc + 1) r with
            | error e => rw [h3] at h; cases h
            | ok g4 =>
              rw [h3] at h
              rw [ih _ _ _ _ _ _ h3]
              simp only at h ⊢
              exact ih _ _ _ _ _ _ h
    · rw [if_neg hc] at h ⊢
      exact h

theorem devide_fuel_mono (mt : Nat → Nat) (n k : Nat) (g : Gen) (t b l r : Int) (x : Gen)
    (h : devide mt n g t b l r = .ok x) : devide mt (n + k) g t b l r = .ok x := by
  induction k with
  | zero => exact h
  | succ k ih => exact devide_fuel_succ mt (n + k) g t b l r x ih

/-- Whenever a call of `devide` that meets the invariant returns, it meets the
postcondition of `DevideSpec`. -/
theorem devide_ok_spec (mt : Nat → Nat) (rows cols : Int) (n : Nat) (g g1 : Gen)
    (t b l r : Int) (hinv : DevideInv rows cols g t b l r)
    (h : devide mt n g t b l r = .ok g1) : DevideSpec g g1 t b l r := by
  obtain ⟨wf, hr, hc, hb, hodd, hall⟩ := hinv
  have hbig := devide_fuel_mono mt n ((b - t).toNat + 1) g t b l r g1 h
  obtain ⟨g1', h', hspec⟩ := devideOK mt (n + ((b - t).toNat + 1)) g t b l r wf
    (by rw [hr, hc]; exact hb) hodd hall (by omega)
  rw [hbig] at h'
  cases h'
  exact hspec

/-- The step of a call that meets the invariant: it returns, the cross point is
even and strictly inside the rectangle, nothing changes outside the rectangle,
and the cells off the cross are still `PASSAGE`. -/
theorem devideStep_inv (mt : Nat → Nat) (rows cols : Int) (g g1 : Gen) (t b l r cr cc : Int)
    (hinv : DevideInv rows cols g t b l r) (hne : t ≠ b ∧ l ≠ r)
    (hs : devideStep mt g t b l r = .ok (g1, cr, cc)) :
    g1.maze.WF ∧ g1.maze.rows = rows ∧ g1.maze.cols = cols ∧
    (t < cr ∧ cr < b ∧ cr % 2 = 0 ∧ l < cc ∧ cc < r ∧ cc % 2 = 0) ∧
    (∀ x y, ¬ InRegion t b l r (x, y) → g1.maze.board.get? x y = g.maze.board.get? x y) ∧
    ∀ p : Int × Int, InRegion t b l r p → p.1 ≠ cr → p.2 ≠ cc →
      g1.maze.board.get? p.1 p.2 = some CellType.PASSAGE := by
  obtain ⟨wf, hr, hc, hb, hodd, hall⟩ := hinv
  obtain ⟨g1', cr', cc', hstep, wf1, sf1, hcr, hout1, -⟩ :=
    devideStep_spec mt g t b l r wf (by rw [hr, hc]; omega) hodd
  rw [hs] at hstep
  cases hstep
  refine ⟨wf1, sf1.1.trans hr, sf1.2.1.trans hc, hcr, fun x y hn => ?_, fun p hp h1 h2 => ?_⟩
  · exact hout1 x y (fun h => hn h.1)
  · rw [hout1 p.1 p.2 (fun h => by omega)]
    exact hall p hp

/-- The invariant passes to a rectangle that a returned call of `devide` on a
disjoint rectangle has left alone. -/
theorem devideInv_after (rows cols : Int) (ga gb : Gen) (qt qb ql qr t b l r : Int)
    (hs : DevideSpec ga gb qt qb ql qr) (hr : ga.maze.rows = rows) (hc : ga.maze.cols = cols)
    (hb : 1 ≤ t ∧ t ≤ b ∧ b ≤ rows - 2 ∧ 1 ≤ l ∧ l ≤ r ∧ r ≤ cols - 2)
    (hodd : t % 2 = 1 ∧ b % 2 = 1 ∧ l % 2 = 1 ∧ r % 2 = 1)
    (hdis : ∀ p, InRegion t b l r p → ¬ InRegion qt qb ql qr p)
    (hall : ∀ p : Int × Int, InRegion t b l r p →
      ga.maze.board.get? p.1 p.2 = some CellType.PASSAGE) :
    DevideInv rows cols gb t b l r := by
  obtain ⟨wf, sf, hout, -⟩ := hs
  exact ⟨wf, sf.1.trans hr, sf.2.1.trans hc, hb, hodd, fun p hp => by
    rw [hout p (hdis p hp)]; exact hall p hp⟩

theorem devideInv_first (mt : Nat → Nat) (rows cols : Int) (g g1 : Gen) (t b l r cr cc : Int)
    (hinv : DevideInv rows cols g t b l r) (hne : t ≠ b ∧ l ≠ r)
    (hs : devideStep mt g t b l r = .ok (g1, cr, cc)) :
    DevideInv rows cols g1 t (cr - 1) l (cc - 1) := by
  obtain ⟨wf1, r1, c1, hcr, -, hoff⟩ := devideStep_inv mt rows cols g g1 t b l r cr cc hinv hne hs
  obtain ⟨-, -, -, hb, hodd, -⟩ := hinv
  exact ⟨wf1, r1, c1, by omega, by omega, fun p hp => by
    unfold InRegion at hp
    exact hoff p (by unfold InRegion; omega) (by omega) (by omega)⟩

/-- Every call of `devide` reached from a call that meets the invariant meets
it. -/
theorem devideCall_inv (mt : Nat → Nat) (rows cols : Int) (g0 : Gen) (t0 b0 l0 r0 : Int)
    (h0 : DevideInv rows cols g0 t0 b0 l0 r0) (g : Gen) (t b l r : Int)
    (h : DevideCall mt g0 t0 b0 l0 r0 g t b l r) : DevideInv rows cols g t b l r := by
  induction h with
  | root => exact h0
  | first _ hne hs ih => exact devideInv_first mt rows cols _ _ _ _ _ _ _ _ ih hne hs
  | @second g g1 g2 t b l r cr cc n _ hne hs h1 ih =>
    have i1 := devideInv_first mt rows cols _ _ _ _ _ _ _ _ ih hne hs
    obtain ⟨wf1, r1, c1, hcr, -, hoff⟩ :=
      devideStep_inv mt rows cols g g1 t b l r cr cc ih hne hs
    obtain ⟨-, -, -, hb, hodd, -⟩ := ih
    have s1 := devide_ok_spec mt rows cols n g1 g2 _ _ _ _ i1 h1
    refine devideInv_after rows cols g1 g2 _ _ _ _ _ _ _ _ s1 r1 c1 (by omega) (by omega)
      (fun p hp => ?_) (fun p hp => ?_)
    · unfold InRegion at hp ⊢; omega
    · unfold InRegion at hp
      exact hoff p (by unfold InRegion; omega) (by omega) (by omega)
  | @third g g1 g2 g3 t b l r cr cc n _ hne hs h1 h2 ih =>
    have i1 := devideInv_first mt rows cols _ _ _ _ _ _ _ _ ih hne hs
    obtain ⟨wf1, r1, c1, hcr, -, hoff⟩ :=
      devideStep_inv mt rows cols g g1 t b l r cr cc ih hne hs
    obtain ⟨-, -, -, hb, hodd, -⟩ := ih
    have s1 := devide_ok_spec mt rows cols n g1 g2 _ _ _ _ i1 h1
    have i2 : DevideInv rows cols g2 (cr + 1) b l (cc - 1) :=
      devideInv_after rows cols g1 g2 _ _ _ _ _ _ _ _ s1 r1 c1 (by omega) (by omega)
        (fun p hp => by unfold InRegion at hp ⊢; omega)
        (fun p hp => by
          unfold InRegion at hp
          exact hoff p (by unfold InRegion; omega) (by omega) (by omega))
    have s2 := devide_ok_spec mt rows cols n g2 g3 _ _ _ _ i2 h2
    have i3' : DevideInv rows cols g2 (cr + 1) b (cc + 1) r :=
      devideInv_after rows cols g1 g2 _ _ _ _ _ _ _ _ s1 r1 c1 (by omega) (by omega)
        (fun p hp => by unfold InRegion at hp ⊢; omega)
        (fun p hp => by
          unfold InRegion at hp
          exact hoff p (by unfold InRegion; omega) (by omega) (by omega))
    exact devideInv_after rows cols g2 g3 _ _ _ _ _ _ _ _ s2 i2.2.1 i2.2.2.1 i3'.2.2.2.1
      i3'.2.2.2.2.1 (fun p hp => by unfold InRegion at hp ⊢; omega) i3'.2.2.2.2.2
  | @fourth g g1 g2 g3 g4 t b l r cr cc n _ hne hs h1 h2 h3 ih =>
    have i1 := devideInv_first mt rows cols _ _ _ _ _ _ _ _ ih hne hs
    obtain ⟨wf1, r1, c1, hcr, -, hoff⟩ :=
      devideStep_inv mt rows cols g g1 t b l r cr cc ih hne hs
    obtain ⟨-, -, -, hb, hodd, -⟩ := ih
    have s1 := devide_ok_spec mt rows cols n g1 g2 _ _ _ _ i1 h1
    have i2 : DevideInv rows cols g2 (cr + 1) b l (cc - 1) :=
      devideInv_after rows cols g1 g2 _ _ _ _ _ _ _ _ s1 r1 c1 (by omega) (by omega)
        (fun p hp => by unfold InRegion at hp ⊢; omega)
        (fun p hp => by
          unfold InRegion at hp
          exact hoff p (by unfold InRegion; omega) (by omega) (by omega))
    have s2 := devide_ok_spec mt rows cols n g2 g3 _ _ _ _ i2 h2
    have i3' : DevideInv rows cols g2 (cr + 1) b (cc + 1) r :=
      devideInv_after rows cols g1 g2 _ _ _ _ _ _ _ _ s1 r1 c1 (by omega) (by omega)
        (fun p hp => by unfold InRegion at hp ⊢; omega)
        (fun p hp => by
          unfold InRegion at hp
          exact hoff p (by unfold InRegion; omega) (by omega) (by omega))
    have i3 : DevideInv rows cols g3 (cr + 1) b (cc + 1) r :=
      devideInv_after rows cols g2 g3 _ _ _ _ _ _ _ _ s2 i2.2.1 i2.2.2.1 i3'.2.2.2.1
        i3'.2.2.2.2.1 (fun p hp => by unfold InRegion at hp ⊢; omega) i3'.2.2.2.2.2
    have s3 := devide_ok_spec mt rows cols n g3 g4 _ _ _ _ i3 h3
    have i4'' : DevideInv rows cols g2 t (cr - 1) (cc + 1) r :=
      devideInv_after rows cols g1 g2 _ _ _ _ _ _ _ _ s1 r1 c1 (by omega) (by omega)
        (fun p hp => by unfold InRegion at hp ⊢; omega)
        (fun p hp => by
          unfold InRegion at hp
          exact hoff p (by unfold InRegion; omega) (by omega) (by omega))
    have i4' : DevideInv rows cols g3 t (cr - 1) (cc + 1) r :=
      devideInv_after rows cols g2 g3 _ _ _ _ _ _ _ _ s2 i2.2.1 i2.2.2.1 i4''.2.2.2.1
        i4''.2.2.2.2.1 (fun p hp => by unfold InRegion at hp ⊢; omega) i4''.2.2.2.2.2
    exact devideInv_after rows cols g3 g4 _ _ _ _ _ _ _ _ s3 i3.2.1 i3.2.2.1 i4'.2.2.2.1
      i4'.2.2.2.2.1 (fun p hp => by unfold InRegion at hp ⊢; omega) i4'.2.2.2.2.2

/-- C18. For odd `rows, cols ≥ 5` and anchors that `upsetEndPoint` can draw, every
call `devide(t, b, l, r)` reached from the initial call `devide(1, rows - 2, 1,
cols - 2)` of `SimpleMaze::generate` has odd bounds with `1 ≤ t ≤ b ≤ rows - 2` and
`1 ≤ l ≤ r ≤ cols - 2`.  When `t ≠ b` and `l ≠ r` its step returns, the six divisors
`(b - t) / 2`, `(r - l) / 2`, `crossPointRow - t`, `b - crossPointRow`,
`crossPointCol - l`, `r - crossPointCol` are at least 1, the cross point is even and
strictly inside the rectangle, and no cell outside the rectangle changes.  The
call returns for every random stream as soon as the fuel exceeds `b - t`, and
changes no cell outside its rectangle. -/
theorem devide_calls (rows cols : Int) (entry exit : Cell) (mt : Nat → Nat)
    (hr : 5 ≤ rows) (hc : 5 ≤ cols) (hro : rows % 2 = 1) (hco : cols % 2 = 1)
    (he : ValidAnchor rows cols entry) (hx : ValidAnchor rows cols exit) :
    ∃ m, newMaze rows cols entry exit CellType.PASSAGE = .ok m ∧
      ∀ (g : Gen) (t b l r : Int),
        DevideCall mt ⟨m, 0⟩ 1 (rows - 2) 1 (cols - 2) g t b l r →
        (1 ≤ t ∧ t ≤ b ∧ b ≤ rows - 2 ∧ 1 ≤ l ∧ l ≤ r ∧ r ≤ cols - 2) ∧
        (t % 2 = 1 ∧ b % 2 = 1 ∧ l % 2 = 1 ∧ r % 2 = 1) ∧
        (t ≠ b ∧ l ≠ r →
          ∃ g1 crossPointRow crossPointCol,
            devideStep mt g t b l r = .ok (g1, crossPointRow, crossPointCol) ∧
            (1 ≤ (b - t).tdiv 2 ∧ 1 ≤ (r - l).tdiv 2 ∧ 1 ≤ crossPointRow - t ∧
              1 ≤ b - crossPointRow ∧ 1 ≤ crossPointCol - l ∧ 1 ≤ r - crossPointCol) ∧
            (crossPointRow % 2 = 0 ∧ crossPointCol % 2 = 0 ∧ t < crossPointRow ∧
              crossPointRow < b ∧ l < crossPointCol ∧ crossPointCol < r) ∧
            ∀ x y, ¬ InRegion t b l r (x, y) →
              g1.maze.board.get? x y = g.maze.board.get? x y) ∧
        ∀ n, (b - t).toNat < n →
          ∃ g2, devide mt n g t b l r = .ok g2 ∧
            ∀ x y, ¬ InRegion t b l r (x, y) →
              g2.maze.board.get? x y = g.maze.board.get? x y := by
  obtain ⟨m, hnew, wf, mr, mc, -, -, hint⟩ :=
    newMaze_interior rows cols entry exit CellType.PASSAGE he hx
  refine ⟨m, hnew, fun g t b l r hcall => ?_⟩
  have h0 : DevideInv rows cols ⟨m, 0⟩ 1 (rows - 2) 1 (cols - 2) :=
    ⟨wf, mr, mc, by omega, by omega, fun p hp => by
      unfold InRegion at hp
      exact hint p.1 p.2 (by omega) (by omega) (by omega) (by omega)⟩
  have hinv := devideCall_inv mt rows cols _ _ _ _ _ h0 g t b l r hcall
  obtain ⟨gwf, gr, gc, hb, hodd, hall⟩ := hinv
  refine ⟨hb, hodd, fun hne => ?_, fun n hn => ?_⟩
  · obtain ⟨g1, cr, cc, hstep, -⟩ :=
      devideStep_spec mt g t b l r gwf (by rw [gr, gc]; omega) hodd
    obtain ⟨-, -, -, hcr, hout, -⟩ :=
      devideStep_inv mt rows cols g g1 t b l r cr cc ⟨gwf, gr, gc, hb, hodd, hall⟩ hne hstep
    refine ⟨g1, cr, cc, hstep, ?_, by omega, hout⟩
    rw [Int.tdiv_eq_ediv (by omega) (by norm_num), Int.tdiv_eq_ediv (by omega) (by norm_num)]
    omega
  · obtain ⟨g2, h2, hspec⟩ := devideOK mt n g t b l r gwf (by rw [gr, gc]; exact hb) hodd hall hn
    exact ⟨g2, h2, fun x y hxy => hspec.2.2.1 (x, y) hxy⟩

/-- Witness for C18: a 5 × 5 grid with the anchors `(1, 1)` and `(3, 3)` and the
constant random stream. -/
theorem devide_calls_witness :
    ∃ m, newMaze 5 5 ⟨1, 1, .ENTRY⟩ ⟨3, 3, .EXPORT⟩ CellType.PASSAGE = .ok m ∧
      ∀ (g : Gen) (t b l r : Int),
        DevideCall (fun _ => 0) ⟨m, 0⟩ 1 (5 - 2) 1 (5 - 2) g t b l r →
        (1 ≤ t ∧ t ≤ b ∧ b ≤ 5 - 2 ∧ 1 ≤ l ∧ l ≤ r ∧ r ≤ 5 - 2) ∧
        (t % 2 = 1 ∧ b % 2 = 1 ∧ l % 2 = 1 ∧ r % 2 = 1) ∧
        (t ≠ b ∧ l ≠ r →
          ∃ g1 crossPointRow crossPointCol,
            devideStep (fun _ => 0) g t b l r = .ok (g1, crossPointRow, crossPointCol) ∧
            (1 ≤ (b - t).tdiv 2 ∧ 1 ≤ (r - l).tdiv 2 ∧ 1 ≤ crossPointRow - t ∧
              1 ≤ b - crossPointRow ∧ 1 ≤ crossPointCol - l ∧ 1 ≤ r - crossPointCol) ∧
            (crossPointRow % 2 = 0 ∧ crossPointCol % 2 = 0 ∧ t < crossPointRow ∧
              crossPointRow < b ∧ l < crossPointCol ∧ crossPointCol < r) ∧
            ∀ x y, ¬ InRegion t b l r (x, y) →
              g1.maze.board.get? x y = g.maze.board.get? x y) ∧
        ∀ n, (b - t).toNat < n →
          ∃ g2, devide (fun _ => 0) n g t b l r = .ok g2 ∧
            ∀ x y, ¬ InRegion t b l r (x, y) →
              g2.maze.board.get? x y = g.maze.board.get? x y :=
  devide_calls 5 5 ⟨1, 1, .ENTRY⟩ ⟨3, 3, .EXPORT⟩ (fun _ => 0) (by decide) (by decide)
    (by decide) (by decide) (by decide) (by decide)

/-! ## Solver: the order of the directions -/

theorem mem_insertByDistance (x w : Direction × Int) (l : List (Direction × Int)) :
    w ∈ insertByDistance x l ↔ w = x ∨ w ∈ l := by
  rw [(insertByDistance_perm x l).mem_iff, List.mem_cons]

/-- Inserting an element that comes later in the enumeration than every element
of the list keeps the list ordered by distance, ties in enumeration order. -/
theorem insertByDistance_pairwise (x : Direction × Int) (l : List (Direction × Int))
    (hl : l.Pairwise fun a b => a.2 < b.2 ∨ (a.2 = b.2 ∧ a.1.rank < b.1.rank))
    (hx : ∀ y ∈ l, y.1.rank < x.1.rank) :
    (insertByDistance x l).Pairwise
      fun a b => a.2 < b.2 ∨ (a.2 = b.2 ∧ a.1.rank < b.1.rank) := by
  induction l with
  | nil => exact List.pairwise_singleton _ _
  | cons y ys ih =>
    rw [List.pairwise_cons] at hl
    unfold insertByDistance
    split_ifs with hlt
    · rw [List.pairwise_cons]
      refine ⟨fun z hz => ?_, List.pairwise_cons.mpr hl⟩
      rcases List.mem_cons.mp hz with rfl | hz'
      · exact Or.inl hlt
      · rcases hl.1 z hz' with h | h
        · exact Or.inl (by omega)
        · exact Or.inl (by omega)
    · rw [List.pairwise_cons]
      refine ⟨fun z hz => ?_, ih hl.2 (fun w hw => hx w (List.mem_cons_of_mem _ hw))⟩
      rcases (mem_insertByDistance x z ys).mp hz with rfl | hz'
      · have := hx y (List.mem_cons_self _ _)
        by_cases he : y.2 = z.2
        · exact Or.inr ⟨he, this⟩
        · exact Or.inl (by omega)
      · exact hl.1 z hz'

theorem directionDistances_eq (m : BaseMaze) (row col : Int) :
    directionDistances m row col =
      [Direction.UP, Direction.DOWN, Direction.LEFT, Direction.RIGHT].map
        fun d => (d, distanceToExit m row col d) := by
  unfold directionDistances distanceToExit neighbour
  simp

theorem sortByDistance_pairwise (m : BaseMaze) (row col : Int) :
    (sortByDistance (directionDistances m row col)).Pairwise
      fun a b => a.2 < b.2 ∨ (a.2 = b.2 ∧ a.1.rank < b.1.rank) := by
  rw [directionDistances_eq]
  unfold sortByDistance
  simp only [List.map_cons, List.map_nil, List.foldl_cons, List.foldl_nil]
  refine insertByDistance_pairwise _ _ (insertByDistance_pairwise _ _
    (insertByDistance_pairwise _ _ (insertByDistance_pairwise _ _ List.Pairwise.nil ?_) ?_) ?_) ?_
  · intro y hy; cases hy
  · intro y hy
    simp only [mem_insertByDistance, List.not_mem_nil, or_false] at hy
    rw [hy]; simp [Direction.rank]
  · intro y hy
    simp only [mem_insertByDistance, List.not_mem_nil, or_false] at hy
    rcases hy with rfl | rfl <;> simp [Direction.rank]
  · intro y hy
    simp only [mem_insertByDistance, List.not_mem_nil, or_false] at hy
    rcases hy with rfl | rfl | rfl <;> simp [Direction.rank]

theorem sortedDirections_pairwise (m : BaseMaze) (row col : Int) :
    (sortedDirections m row col).Pairwise (TriedBefore m row col) := by
  unfold sortedDirections
  rw [List.pairwise_map]
  refine (sortByDistance_pairwise m row col).imp_of_mem ?_
  intro a b ha hb hab
  have hmem : ∀ p ∈ sortByDistance (directionDistances m row col),
      p.2 = distanceToExit m row col p.1 := by
    intro p hp
    rw [(sortByDistance_perm _).mem_iff, directionDistances_eq] at hp
    simp only [List.map_cons, List.map_nil, List.mem_cons, List.not_mem_nil, or_false] at hp
    rcases hp with rfl | rfl | rfl | rfl <;> rfl
  unfold TriedBefore
  rw [← hmem a ha, ← hmem b hb]
  exact hab

/-- C19. The directions that the search at `(row, col)` tries are the four
directions, each once, in ascending order of the Manhattan distance from the
neighbour in that direction to the exit anchor, ties in the order `UP, DOWN, LEFT,
RIGHT` (the sort of four elements is an insertion sort).  At a cell that is not the
exit anchor `travel` is the chain of `nextTo` over these directions; `nextTo` calls
`travel` on a neighbour only if it is an interior `PASSAGE` cell, and otherwise
returns false and leaves the state alone; the chain stops with true at the first
direction whose `nextTo` returns true, and moves on to the next direction after a
false. -/
theorem travel_direction_order :
    (∀ (m : BaseMaze) (row col : Int),
      (sortedDirections m row col).Perm
          [Direction.UP, Direction.DOWN, Direction.LEFT, Direction.RIGHT] ∧
        (sortedDirections m row col).Pairwise (TriedBefore m row col)) ∧
    (∀ (n : Nat) (st st1 : Solving) (row col : Int),
      updateMaze st row col Mark.explored = .ok st1 → st1.maze.isExport row col = false →
      travel (n + 1) st row col =
        tryDirections (fun s d => nextTo (travel n) s row col d)
          (sortedDirections st1.maze row col) st1) ∧
    (∀ (f : Solving → Int → Int → Except Failure (Bool × Solving)) (s : Solving)
        (row col : Int) (d : Direction),
      s.maze.isPassage (neighbour row col d).1 (neighbour row col d).2 = false →
      nextTo f s row col d = .ok (false, s)) ∧
    (∀ (f : Solving → Int → Int → Except Failure (Bool × Solving)) (s s1 : Solving)
        (row col : Int) (d : Direction),
      s.maze.isPassage (neighbour row col d).1 (neighbour row col d).2 = true →
      f s (neighbour row col d).1 (neighbour row col d).2 = .ok (true, s1) →
      nextTo f s row col d = .ok (true, { s1 with marks := (row, col, Mark.onPath) :: s1.marks })) ∧
    (∀ (next : Solving → Direction → Except Failure (Bool × Solving)) (d : Direction)
        (ds : List Direction) (s s1 : Solving),
      next s d = .ok (true, s1) → tryDirections next (d :: ds) s = .ok (true, s1)) ∧
    (∀ (next : Solving → Direction → Except Failure (Bool × Solving)) (d : Direction)
        (ds : List Direction) (s s1 : Solving),
      next s d = .ok (false, s1) →
      tryDirections next (d :: ds) s = tryDirections next ds s1) := by
  refine ⟨fun m row col => ⟨sortedDirections_perm m row col, sortedDirections_pairwise m row col⟩,
    ?_, ?_, ?_, ?_, ?_⟩
  · intro n st st1 row col hu hx
    unfold travel
    simp only [hu]
    rw [if_neg (by rw [hx]; exact Bool.false_ne_true)]
  · intro f s row col d hp
    unfold nextTo
    simp only
    rw [if_neg (by rw [hp]; exact Bool.false_ne_true)]
  · intro f s s1 row col d hp hf
    unfold nextTo
    simp only
    rw [if_pos hp, hf]
  · intro next d ds s s1 h
    unfold tryDirections
    rw [h]
  · intro next d ds s s1 h
    conv_lhs => unfold tryDirections
    rw [h]

/-! ## Carve-Backtrack against the reference recursion -/

/-- C13, the failing input. On the 9 × 9 grid with the entry anchor `(3, 1)`, after
the seed `setPassage(3, 1)` and with the random stream `divergingStream`, both
`getThrougn(3, 1)` and the reference recursion return, but their boards differ:
the cell `(5, 4)` is still `WALL` after `getThrougn` and `PASSAGE` after the
reference recursion.  The reference recursion examines `(5, 3)` a third time and
carves `(5, 5)` from there; `getThrougn` has left `(5, 3)` after two examinations
and carves `(5, 5)` later, from `(7, 5)`. -/
theorem getThrougn_not_reference :
    ∃ m m1 g g', newMaze 9 9 ⟨3, 1, .ENTRY⟩ ⟨7, 7, .EXPORT⟩ CellType.WALL = .ok m ∧
      m.setPassage 3 1 = .ok m1 ∧
      getThrougn divergingStream 20 ⟨m1, 0⟩ 3 1 = .ok g ∧
      getThrougnRef divergingStream 20 ⟨m1, 0⟩ 3 1 = .ok g' ∧
      g.maze.board.get? 5 4 = some CellType.WALL ∧
      g'.maze.board.get? 5 4 = some CellType.PASSAGE ∧
      g.maze.board ≠ g'.maze.board :=
  ⟨_, _, _, _, rfl, rfl, rfl, rfl, by decide, by decide, by decide⟩

/-! ## Frontier-Expand: the loop returns and carves interior cells only -/

theorem addExps_spec (m : BaseMaze) (expansions : List Point) (row col : Int) :
    ∃ extra, addExps m expansions row col = expansions ++ extra ∧ extra.length ≤ 4 ∧
      ∀ p ∈ extra, m.isWall p.row p.col = true := by
  refine ⟨(if m.isWall (row - 1) col then [⟨row - 1, col, .UP⟩] else []) ++
    (if m.isWall (row + 1) col then [⟨row + 1, col, .DOWN⟩] else []) ++
    (if m.isWall row (col - 1) then [⟨row, col - 1, .LEFT⟩] else []) ++
    (if m.isWall row (col + 1) then [⟨row, col + 1, .RIGHT⟩] else []), ?_, ?_, ?_⟩
  · unfold addExps
    split_ifs <;> simp
  · split_ifs <;> simp
  · intro p hp
    simp only [List.mem_append] at hp
    rcases hp with ((hp | hp) | hp) | hp <;>
    · split_ifs at hp with h
      · simp only [List.mem_singleton] at hp
        rw [hp]
        exact h
      · cases hp

theorem natualOK (mt : Nat → Nat) (n : Nat) : NatualOK mt n := by
  induction n with
  | zero => intro g exps _ _ h; exact absurd h (Nat.not_lt_zero _)
  | succ n ih =>
    intro g exps hwf hin hfuel
    unfold natualLoop
    by_cases hemp : exps.isEmpty = true
    · rw [if_pos hemp]
      exact ⟨g, rfl, hwf, Carved.carved_refl _⟩
    · rw [if_neg hemp]
      have hne : exps ≠ [] := by
        intro h
        rw [h] at hemp
        exact hemp rfl
      have hlen : 0 < exps.length := List.length_pos.mpr hne
      have hidx : mt g.used % exps.length < exps.length := Nat.mod_lt _ hlen
      obtain ⟨sp, hsp, hmem⟩ := getElem?_mod_mem exps (mt g.used) hne
      simp only [hsp]
      have hlen' : (exps.eraseIdx (mt g.used % exps.length)).length = exps.length - 1 :=
        List.length_eraseIdx_of_lt hidx
      by_cases hw : g.maze.isWall (neighbour sp.row sp.col sp.direction).1
          (neighbour sp.row sp.col sp.direction).2 = true
      · rw [if_pos hw]
        have hspin := (isInMaze_iff _ _ _).mp (hin sp hmem)
        have hcin := (isInMaze_iff _ _ _).mp ((isWall_iff _ _ _).mp hw).1
        obtain ⟨m1, h1, wf1, sf1, g1⟩ := setCell_spec g.maze hwf sp.row sp.col CellType.PASSAGE
          (by omega)
        obtain ⟨m2, h2, wf2, sf2, g2⟩ := setCell_spec m1 wf1
          (neighbour sp.row sp.col sp.direction).1 (neighbour sp.row sp.col sp.direction).2
          CellType.PASSAGE (by rw [sf1.1, sf1.2.1]; omega)
        unfold BaseMaze.setPassage
        simp only [h1, h2]
        have sf12 := SameFrame.same_trans sf1 sf2
        have cv : Carved g.maze m2 := by
          refine ⟨sf12, fun r c => ?_⟩
          rw [g2, g1]
          by_cases hc : r = (neighbour sp.row sp.col sp.direction).1 ∧
              c = (neighbour sp.row sp.col sp.direction).2
          · rw [if_pos hc, hc.1, hc.2]
            exact Or.inr ⟨((isWall_iff _ _ _).mp hw).1, rfl⟩
          · rw [if_neg hc]
            by_cases hs : r = sp.row ∧ c = sp.col
            · rw [if_pos hs, hs.1, hs.2]
              exact Or.inr ⟨hin sp hmem, rfl⟩
            · rw [if_neg hs]
              exact Or.inl rfl
        have hcard : (wallCells m2).card + 1 ≤ (wallCells g.maze).card := by
          have hss : wallCells m2 ⊂ wallCells g.maze := by
            refine Finset.ssubset_iff_subset_ne.mpr ⟨cv.wallCells_subset, fun heq => ?_⟩
            have hmem2 : ((neighbour sp.row sp.col sp.direction).1,
                (neighbour sp.row sp.col sp.direction).2) ∈ wallCells g.maze :=
              (mem_wallCells _ _).mpr hw
            rw [← heq, mem_wallCells, isWall_iff, g2, if_pos ⟨rfl, rfl⟩] at hmem2
            cases hmem2.2
          exact Finset.card_lt_card hss
        obtain ⟨extra, hadd, hex4, hexw⟩ := addExps_spec m2 exps
          (neighbour sp.row sp.col sp.direction).1 (neighbour sp.row sp.col sp.direction).2
        have hidx2 : mt g.used % exps.length < (exps ++ extra).length := by
          rw [List.length_append]; omega
        obtain ⟨g3, h3, wf3, cv3⟩ := ih ⟨m2, g.used + 1⟩
          ((addExps m2 exps (neighbour sp.row sp.col sp.direction).1
            (neighbour sp.row sp.col sp.direction).2).eraseIdx (mt g.used % exps.length)) wf2
          (fun p hp => by
            have hp' := List.mem_of_mem_eraseIdx hp
            rw [hadd, List.mem_append] at hp'
            rcases hp' with hp' | hp'
            · show m2.isInMaze p.row p.col = true
              rw [sf12.isInMaze]
              exact hin p hp'
            · exact ((isWall_iff _ _ _).mp (hexw p hp')).1)
          (by
            rw [hadd, List.length_eraseIdx_of_lt hidx2, List.length_append]
            show 4 * (wallCells m2).card + _ < n
            omega)
        exact ⟨g3, h3, wf3, cv.carved_trans cv3⟩
      · rw [if_neg hw]
        obtain ⟨g3, h3, wf3, cv3⟩ := ih ⟨g.maze, g.used + 1⟩
          (exps.eraseIdx (mt g.used % exps.length)) hwf
          (fun p hp => hin p (List.mem_of_mem_eraseIdx hp))
          (by rw [hlen']; show 4 * (wallCells g.maze).card + _ < n; omega)
        exact ⟨g3, h3, wf3, cv3⟩

/-- What `NatualMaze` returns when its seed `(entryCell.row, entryCell.row)` is on
the board: the board of the constructor with interior cells carved. -/
theorem natualMaze_carved (rows cols : Int) (entry exit : Cell) (mt : Nat → Nat) (fuel : Nat)
    (he : ValidAnchor rows cols entry) (hx : ValidAnchor rows cols exit)
    (hseed : entry.row ≤ cols - 2)
    (hfuel : 4 * ((rows - 2).toNat * (cols - 2).toNat) + 4 < fuel) :
    ∃ m g, newMaze rows cols entry exit CellType.WALL = .ok m ∧
      natualMaze rows cols entry exit mt fuel = .ok g ∧ g.maze.WF ∧ Carved m g.maze := by
  obtain ⟨m, hnew, wf, mr, mc, men, mex, -⟩ :=
    newMaze_interior rows cols entry exit CellType.WALL he hx
  have hv := he.1
  have hin : m.isInMaze entry.row entry.row = true := by
    rw [isInMaze_iff, mr, mc]; omega
  obtain ⟨m1, h1, wf1, sf1, g1⟩ := setCell_spec m wf entry.row entry.row CellType.PASSAGE
    (by rw [mr, mc]; omega)
  have cv1 : Carved m m1 := by
    refine ⟨sf1, fun r c => ?_⟩
    rw [g1]
    by_cases hrc : r = entry.row ∧ c = entry.row
    · rw [if_pos hrc, hrc.1, hrc.2]; exact Or.inr ⟨hin, rfl⟩
    · rw [if_neg hrc]; exact Or.inl rfl
  obtain ⟨extra, hadd, hex4, hexw⟩ := addExps_spec m1 [] entry.row entry.row
  have hcard := wallCells_card_le m1
  rw [sf1.1, sf1.2.1, mr, mc] at hcard
  obtain ⟨g, hg, wfg, cvg⟩ := natualOK mt fuel ⟨m1, 0⟩ (addExps m1 [] entry.row entry.row) wf1
    (fun p hp => by
      rw [hadd, List.nil_append] at hp
      exact ((isWall_iff _ _ _).mp (hexw p hp)).1)
    (by
      rw [hadd, List.nil_append]
      show 4 * (wallCells m1).card + _ < fuel
      omega)
  refine ⟨m, g, hnew, ?_, wfg, cv1.carved_trans cvg⟩
  unfold natualMaze
  rw [hnew]
  simp only
  unfold natualGenerate
  simp only
  unfold BaseMaze.setPassage
  rw [men, h1]
  exact hg

/-- C6. For odd `rows, cols ≥ 5` and two different anchors that `upsetEndPoint`
can draw, the border invariant holds after construction (whatever the default
cell), after `MainRoadMaze`, after `SimpleMaze` and after `NatualMaze`, for every
random stream and enough fuel: the outer ring holds `BORDER` except for exactly
one `ENTRY` cell next to the entry anchor and one `EXPORT` cell next to the exit
anchor.  For `NatualMaze` this covers every run whose seed
`(entryCell.row, entryCell.row)` is on the board.  In the other runs
(`entryCell.row > cols - 2`) the seed write is off the board, where C++ defines no
behaviour and `natualMaze` stops with `OutOfRange`; the rest of `generate`, run on
the board as the constructor left it, returns and keeps the border too.  So no
write on the board, of any variant, touches the outer ring. -/
theorem border_invariant (rows cols : Int) (entry exit : Cell)
    (hr : 5 ≤ rows) (hc : 5 ≤ cols) (hro : rows % 2 = 1) (hco : cols % 2 = 1)
    (he : ValidAnchor rows cols entry) (hx : ValidAnchor rows cols exit)
    (hne : ¬ (entry.row = exit.row ∧ entry.col = exit.col)) :
    (∀ d, ∃ m, newMaze rows cols entry exit d = .ok m ∧ BorderInvariant m) ∧
    (∀ (mt : Nat → Nat) (fuel : Nat), (rows - 1) / 2 * ((cols - 1) / 2) ≤ fuel →
      ∃ g, mainRoadMaze rows cols entry exit mt fuel = .ok g ∧ BorderInvariant g.maze) ∧
    (∀ (mt : Nat → Nat) (fuel : Nat), (rows - 3).toNat < fuel →
      ∃ g, simpleMaze rows cols entry exit mt fuel = .ok g ∧ BorderInvariant g.maze) ∧
    (∀ (mt : Nat → Nat) (fuel : Nat), 4 * ((rows - 2).toNat * (cols - 2).toNat) + 4 < fuel →
      entry.row ≤ cols - 2 →
      ∃ g, natualMaze rows cols entry exit mt fuel = .ok g ∧ BorderInvariant g.maze) ∧
    (cols - 2 < entry.row → ∀ (mt : Nat → Nat) (fuel : Nat),
      4 * ((rows - 2).toNat * (cols - 2).toNat) + 4 < fuel →
      natualMaze rows cols entry exit mt fuel = .error .OutOfRange ∧
      ∃ m g, newMaze rows cols entry exit CellType.WALL = .ok m ∧
        natualLoop mt fuel ⟨m, 0⟩ (addExps m [] entry.row entry.row) = .ok g ∧
        BorderInvariant g.maze) := by
  refine ⟨fun d => ?_, fun mt fuel hfuel => ?_, fun mt fuel hfuel => ?_,
    fun mt fuel hfuel hseed => ?_, fun hrow mt fuel hfuel => ?_⟩
  · obtain ⟨m, h, -, -, -, -, -, hb⟩ := newMaze_border rows cols entry exit d he hx hne
    exact ⟨m, h, hb⟩
  · obtain ⟨m, hnew, wf, mr, mc, men, mex, hb⟩ :=
      newMaze_border rows cols entry exit CellType.WALL he hx hne
    obtain ⟨m', hnew', -, -, -, -, -, hint⟩ :=
      newMaze_interior rows cols entry exit CellType.WALL he hx
    rw [hnew] at hnew'
    cases hnew'
    have hv := he.1
    obtain ⟨m1, h1, wf1, sf1, g1⟩ := setCell_spec m wf entry.row entry.col CellType.PASSAGE
      (by rw [mr, mc]; omega)
    have hin : m.isInMaze entry.row entry.col = true := by
      rw [isInMaze_iff, mr, mc]; exact hv
    have cv1 : Carved m m1 := by
      refine ⟨sf1, fun r c => ?_⟩
      rw [g1]
      by_cases hrc : r = entry.row ∧ c = entry.col
      · rw [if_pos hrc, hrc.1, hrc.2]; exact Or.inr ⟨hin, rfl⟩
      · rw [if_neg hrc]; exact Or.inl rfl
    have pass1 : m1.isPassage entry.row entry.col = true := by
      rw [isPassage_iff, sf1.isInMaze, g1, if_pos ⟨rfl, rfl⟩]
      exact ⟨hin, rfl⟩
    have hsub : latticeWalls m1 ⊂ latticeWalls m := by
      have hmem : (entry.row, entry.col) ∈ latticeWalls m := by
        rw [mem_latticeWalls, isWall_iff]
        exact ⟨⟨hin, hint _ _ hv.1 hv.2.1 hv.2.2.1 hv.2.2.2⟩, he.2.2.1, he.2.2.2⟩
      refine Finset.ssubset_iff_subset_ne.mpr ⟨cv1.latticeWalls_subset, fun heq => ?_⟩
      rw [← heq, mem_latticeWalls, isPassage_not_isWall _ _ _ pass1] at hmem
      cases hmem.1
    have hcard1 := Finset.card_lt_card hsub
    have hcardm := latticeWalls_card_le m
    rw [mr, mc] at hcardm
    have hL := latticeSize_eq rows cols hr hc
    obtain ⟨g, hg, -, cv, -⟩ :=
      getThrougn_count mt fuel ⟨m1, 0⟩ entry.row entry.col wf1 pass1 he.2.2.1 he.2.2.2
        (by simp only; omega)
    refine ⟨g, ?_, (cv1.carved_trans cv).borderInvariant hb⟩
    unfold mainRoadMaze
    rw [hnew]
    simp only
    unfold mainRoadGenerate
    simp only
    rw [men]
    unfold BaseMaze.setPassage
    rw [h1]
    exact hg
  · obtain ⟨m, hnew, wf, mr, mc, men, mex, hb⟩ :=
      newMaze_border rows cols entry exit CellType.PASSAGE he hx hne
    obtain ⟨m', g, hnew', hg, -, -, -, -, -, -, sf, hout, -⟩ :=
      simpleMaze_spec rows cols entry exit mt fuel he hx hro hco hfuel
    rw [hnew] at hnew'
    cases hnew'
    refine ⟨g, hg, borderInvariant_of_eq m g.maze sf (fun p hp => ?_) hb⟩
    refine hout p (fun hreg => ?_)
    unfold InRegion at hreg
    unfold OnBorder at hp
    rw [mr, mc] at hp
    omega
  · obtain ⟨m, hnew, wf, mr, mc, men, mex, hb⟩ :=
      newMaze_border rows cols entry exit CellType.WALL he hx hne
    obtain ⟨m', g, hnew', hg, -, cv⟩ :=
      natualMaze_carved rows cols entry exit mt fuel he hx hseed hfuel
    rw [hnew] at hnew'
    cases hnew'
    exact ⟨g, hg, cv.borderInvariant hb⟩
  · obtain ⟨m, hnew, wf, mr, mc, men, mex, hb⟩ :=
      newMaze_border rows cols entry exit CellType.WALL he hx hne
    refine ⟨?_, m, ?_⟩
    · unfold natualMaze
      rw [hnew]
      simp only
      unfold natualGenerate
      simp only
      unfold BaseMaze.setPassage
      rw [men, setCell_outOfRange m wf entry.row entry.row CellType.PASSAGE
        (by rw [mr, mc]; have := he.2.2.1; omega)]
    · obtain ⟨extra, hadd, hex4, hexw⟩ := addExps_spec m [] entry.row entry.row
      have hcard := wallCells_card_le m
      rw [mr, mc] at hcard
      obtain ⟨g, hg, -, cv⟩ := natualOK mt fuel ⟨m, 0⟩ (addExps m [] entry.row entry.row) wf
        (fun p hp => by
          rw [hadd, List.nil_append] at hp
          exact ((isWall_iff _ _ _).mp (hexw p hp)).1)
        (by
          rw [hadd, List.nil_append]
          show 4 * (wallCells m).card + _ < fuel
          omega)
      exact ⟨g, hnew, hg, cv.borderInvariant hb⟩

/-- Witness for C6: a 5 × 5 grid with the entry anchor `(1, 1)` and the exit anchor
`(3, 3)`, where the seed of `NatualMaze` is on the board. -/
theorem border_invariant_witness :
    (∀ d, ∃ m, newMaze 5 5 ⟨1, 1, .ENTRY⟩ ⟨3, 3, .EXPORT⟩ d = .ok m ∧ BorderInvariant m) ∧
    (∀ (mt : Nat → Nat) (fuel : Nat), ((5 : Int) - 1) / 2 * (((5 : Int) - 1) / 2) ≤ fuel →
      ∃ g, mainRoadMaze 5 5 ⟨1, 1, .ENTRY⟩ ⟨3, 3, .EXPORT⟩ mt fuel = .ok g ∧
        BorderInvariant g.maze) ∧
    (∀ (mt : Nat → Nat) (fuel : Nat), ((5 : Int) - 3).toNat < fuel →
      ∃ g, simpleMaze 5 5 ⟨1, 1, .ENTRY⟩ ⟨3, 3, .EXPORT⟩ mt fuel = .ok g ∧
        BorderInvariant g.maze) ∧
    (∀ (mt : Nat → Nat) (fuel : Nat),
      4 * (((5 : Int) - 2).toNat * ((5 : Int) - 2).toNat) + 4 < fuel →
      (⟨1, 1, .ENTRY⟩ : Cell).row ≤ (5 : Int) - 2 →
      ∃ g, natualMaze 5 5 ⟨1, 1, .ENTRY⟩ ⟨3, 3, .EXPORT⟩ mt fuel = .ok g ∧
        BorderInvariant g.maze) ∧
    ((5 : Int) - 2 < (⟨1, 1, .ENTRY⟩ : Cell).row → ∀ (mt : Nat → Nat) (fuel : Nat),
      4 * (((5 : Int) - 2).toNat * ((5 : Int) - 2).toNat) + 4 < fuel →
      natualMaze 5 5 ⟨1, 1, .ENTRY⟩ ⟨3, 3, .EXPORT⟩ mt fuel = .error .OutOfRange ∧
      ∃ m g, newMaze 5 5 ⟨1, 1, .ENTRY⟩ ⟨3, 3, .EXPORT⟩ CellType.WALL = .ok m ∧
        natualLoop mt fuel ⟨m, 0⟩
          (addExps m [] (⟨1, 1, .ENTRY⟩ : Cell).row (⟨1, 1, .ENTRY⟩ : Cell).row) = .ok g ∧
        BorderInvariant g.maze) :=
  border_invariant 5 5 ⟨1, 1, .ENTRY⟩ ⟨3, 3, .EXPORT⟩ (by decide) (by decide) (by decide)
    (by decide) (by decide) (by decide) (by decide)

end Maze
